import Mathlib

/-!
# Distance-vector router `myrouter.c`: shallow embedding and verified properties

The routing state of the program is the three globals `my_port`, `my_dv`
(with `my_dv_length`) and `my_neighbor_list_head`.  The embedding keeps

* an array together with its length variable as the list of its live slots
  (`my_dv[0 .. my_dv_length)`, `node->dv[0 .. node->dv_length)`): every read in
  the program is bounded by the length variable, so slots past it are never
  observed;
* the singly linked neighbour list as a Lean list of records, in list order;
* pointers into an array or into the neighbour list (`dv_find`,
  `neighbor_list_find`) as the index of the slot they point to;
* `uint16_t`/`uint32_t` values as `Nat`, with `uint32_t` additions reduced
  modulo `2 ^ 32` (`u32`);
* a datagram buffer as the list of its bytes; a byte of an outgoing message that
  the program never wrote (uninitialised stack memory) is `none`.

Logging (`printf`, `fprintf`) has no effect on the routing state and is omitted.
-/

namespace Myrouter

/-! ## Constants and data model -/

def BUFFER_SIZE : Nat := 65536

def DV_CAPACITY : Nat := 16

def MAX_BODY_LEN : Nat := 81

def MAX_POSSIBLE_COST : Nat := 64

def UINT32_MAX : Nat := 4294967295

def DATA_PACKET : Nat := 1

def DV_PACKET : Nat := 2

def KILLED_PACKET : Nat := 3

def INITIAL_DV_PACKET : Nat := 4

/-- Size in bytes of `struct dv_entry` (two `uint16_t` and one `uint32_t`). -/
def SIZEOF_DV_ENTRY : Nat := 8

/-- Reduction of a sum to `uint32_t`. -/
def u32 (n : Nat) : Nat := n % 4294967296

structure dv_entry where
  dest_port : Nat
  first_hop_port : Nat
  cost : Nat
  deriving DecidableEq, Repr, Inhabited

structure neighbor_list_node where
  port : Nat
  cost : Nat
  dv : List dv_entry
  deriving DecidableEq, Repr, Inhabited

/-- The global variables that make up the routing state. -/
structure State where
  my_port : Nat
  my_dv : List dv_entry
  my_neighbor_list_head : List neighbor_list_node
  deriving DecidableEq, Repr

/-- A datagram handed to `sendto`: destination port and the bytes sent
(`none` marks a byte the program never initialised). -/
structure Datagram where
  dest_port : Nat
  bytes : List (Option Nat)
  deriving DecidableEq, Repr

/-! ## Byte order -/

/-- Byte `i` of a received buffer. -/
def byte_at (buffer : List Nat) (i : Nat) : Nat := buffer.getD i 0 % 256

/-- The value `ntohs` yields for the two bytes `b0 b1` as they lie in memory. -/
def ntohs (b0 b1 : Nat) : Nat := b0 * 256 + b1

/-- The value `ntohl` yields for the four bytes `b0 b1 b2 b3` as they lie in memory. -/
def ntohl (b0 b1 b2 b3 : Nat) : Nat := ((b0 * 256 + b1) * 256 + b2) * 256 + b3

/-- The two bytes `htons` leaves in memory. -/
def htons (v : Nat) : List Nat := [v / 256 % 256, v % 256]

/-- The four bytes `htonl` leaves in memory. -/
def htonl (v : Nat) : List Nat := [v / 16777216 % 256, v / 65536 % 256, v / 256 % 256, v % 256]

/-- Decoding of the network-order entry stored at byte offset `off` of `buffer`. -/
def ntoh_dv_entry (buffer : List Nat) (off : Nat) : dv_entry :=
  { dest_port := ntohs (byte_at buffer off) (byte_at buffer (off + 1))
    first_hop_port := ntohs (byte_at buffer (off + 2)) (byte_at buffer (off + 3))
    cost := ntohl (byte_at buffer (off + 4)) (byte_at buffer (off + 5))
      (byte_at buffer (off + 6)) (byte_at buffer (off + 7)) }

/-- The eight bytes of the network-order image of a host-order entry. -/
def hton_dv_entry (h : dv_entry) : List Nat :=
  htons h.dest_port ++ htons h.first_hop_port ++ htonl h.cost

/-! ## Searches -/

/-- Linear search of an array of DV entries; the result is the index of the
first entry for `dest_port`. -/
def dv_find : List dv_entry → Nat → Option Nat
  | [], _ => none
  | e :: rest, dest_port =>
    if e.dest_port = dest_port then some 0
    else (dv_find rest dest_port).map (· + 1)

/-- Search of the neighbour list; the result is the position of the first node
with the given port. -/
def neighbor_list_find : List neighbor_list_node → Nat → Option Nat
  | [], _ => none
  | node :: next, port =>
    if node.port = port then some 0
    else (neighbor_list_find next port).map (· + 1)

/-! ## Sending -/

/-- The datagram `sendto` emits: the first `message_length` bytes of `message`. -/
def send_message (message : List (Option Nat)) (message_length : Nat) (dest_port : Nat) :
    Datagram :=
  { dest_port := dest_port
    bytes := (List.range message_length).map (fun i => (message.get? i).join) }

/-- Store `bytes` into `buffer` from offset `off` on. -/
def store_bytes : List (Option Nat) → Nat → List Nat → List (Option Nat)
  | buffer, _, [] => buffer
  | buffer, off, b :: bs => store_bytes (buffer.set off (some b)) (off + 1) bs

/-- The loop of `create_dv_message`: entry `i` goes to slot `i + 1` of the buffer. -/
def store_entries : List (Option Nat) → Nat → List dv_entry → List (Option Nat)
  | buffer, _, [] => buffer
  | buffer, slot, e :: es =>
    store_entries (store_bytes buffer (SIZEOF_DV_ENTRY * slot) (hton_dv_entry e)) (slot + 1) es

def create_dv_message (s : State) (buffer : List (Option Nat)) (type : Nat) :
    List (Option Nat) :=
  store_entries (buffer.set 0 (some type)) 1 s.my_dv

/-- The local array `message` of `send_my_dv` and `broadcast_my_dv` before it is
filled: `(DV_CAPACITY+1) * sizeof(struct dv_entry)` uninitialised bytes. -/
def fresh_message : List (Option Nat) :=
  List.replicate ((DV_CAPACITY + 1) * SIZEOF_DV_ENTRY) none

def send_my_dv (s : State) (dest_port : Nat) : List Datagram :=
  let message := create_dv_message s fresh_message DV_PACKET
  [send_message message ((s.my_dv.length + 1) * SIZEOF_DV_ENTRY) dest_port]

def broadcast_my_dv (s : State) (type : Nat) : List Datagram :=
  let message := create_dv_message s fresh_message type
  s.my_neighbor_list_head.map (fun node =>
    send_message message ((s.my_dv.length + 1) * SIZEOF_DV_ENTRY) node.port)

/-! ## Bellman-Ford -/

/-- The deletion idiom `my_dv[i] = my_dv[my_dv_length-1]; my_dv_length--;`. -/
def swap_delete (dv : List dv_entry) (i : Nat) : List dv_entry :=
  (dv.set i (dv.getD (dv.length - 1) default)).take (dv.length - 1)

/-- Returns 1 if the DV was changed, 0 if not, a negative number on error. -/
def bellman_ford_decrease (s : State) (dest_port sender_port cost_thru_sender : Nat) :
    Int × State :=
  if dest_port = s.my_port then (0, s)
  else
    match dv_find s.my_dv dest_port with
    | none =>
      if cost_thru_sender ≥ MAX_POSSIBLE_COST then (0, s)
      else if s.my_dv.length ≥ DV_CAPACITY then (-1, s)
      else
        let e : dv_entry := dv_entry.mk dest_port sender_port cost_thru_sender
        (1, { s with my_dv := s.my_dv ++ [e] })
    | some i =>
      if cost_thru_sender ≥ MAX_POSSIBLE_COST then
        (1, { s with my_dv := swap_delete s.my_dv i })
      else if cost_thru_sender < (s.my_dv.getD i default).cost then
        let e : dv_entry := dv_entry.mk (s.my_dv.getD i default).dest_port sender_port
          cost_thru_sender
        (1, { s with my_dv := s.my_dv.set i e })
      else (0, s)

/-- The locals `min_cost`, `best_first_hop_port`, `is_reachable` of the
re-minimisation in `handle_dv_packet`. -/
structure scan_state where
  min_cost : Nat
  best_first_hop_port : Nat
  is_reachable : Bool
  deriving DecidableEq, Repr

/-- Initial values of the locals; `best_first_hop_port` is uninitialised in the
program and only read once `is_reachable` is set, by which time it was assigned. -/
def scan_init : scan_state :=
  { min_cost := UINT32_MAX, best_first_hop_port := 0, is_reachable := false }

/-- The `for (neighbor = ...)` loop of `handle_dv_packet` (lines 260-270). -/
def scan_neighbors : List neighbor_list_node → Nat → scan_state → scan_state
  | [], _, acc => acc
  | neighbor :: next, dest_port, acc =>
    match dv_find neighbor.dv dest_port with
    | none => scan_neighbors next dest_port acc
    | some j =>
      if u32 ((neighbor.dv.getD j default).cost + neighbor.cost) < acc.min_cost then
        scan_neighbors next dest_port
          { min_cost := u32 ((neighbor.dv.getD j default).cost + neighbor.cost)
            best_first_hop_port := neighbor.port
            is_reachable := true }
      else scan_neighbors next dest_port acc

/-- The test `senders_entry==NULL || sender->cost + senders_entry->cost > my_dv[i].cost`. -/
def path_worsened (sender : neighbor_list_node) (e : dv_entry) : Bool :=
  match dv_find sender.dv e.dest_port with
  | none => true
  | some j => decide (u32 (sender.cost + (sender.dv.getD j default).cost) > e.cost)

/-- The `while (i < my_dv_length)` loop of `handle_dv_packet` (lines 248-293), on
the loop variables `i`, `my_dv` and `change_count`.  Every iteration either
increments `i` or decrements the length, so `my_dv.length - i` iterations
suffice; `fuel` counts the iterations still allowed. -/
def increase_pass (sender_port : Nat) (sender : neighbor_list_node)
    (neighbors : List neighbor_list_node) :
    Nat → Nat → List dv_entry → Int → List dv_entry × Int
  | 0, _, my_dv, change_count => (my_dv, change_count)
  | fuel + 1, i, my_dv, change_count =>
    if i < my_dv.length then
      if (my_dv.getD i default).first_hop_port = sender_port ∧
          (my_dv.getD i default).dest_port ≠ sender_port then
        if path_worsened sender (my_dv.getD i default) = true then
          let r := scan_neighbors neighbors (my_dv.getD i default).dest_port scan_init
          if r.is_reachable = true ∧ r.min_cost < MAX_POSSIBLE_COST then
            increase_pass sender_port sender neighbors fuel (i + 1)
              (my_dv.set i (dv_entry.mk (my_dv.getD i default).dest_port
                r.best_first_hop_port r.min_cost))
              (change_count + 1)
          else
            increase_pass sender_port sender neighbors fuel i (swap_delete my_dv i)
              (change_count + 1)
        else increase_pass sender_port sender neighbors fuel (i + 1) my_dv change_count
      else increase_pass sender_port sender neighbors fuel (i + 1) my_dv change_count
    else (my_dv, change_count)

/-- The relaxation loop of `handle_dv_packet` (lines 296-303) over the entries of
the sender's DV. -/
def decrease_pass (sender_port : Nat) (sender : neighbor_list_node) :
    List dv_entry → State → Int → State × Int
  | [], s, change_count => (s, change_count)
  | e :: rest, s, change_count =>
    let r := bellman_ford_decrease s e.dest_port sender_port (u32 (sender.cost + e.cost))
    decrease_pass sender_port sender rest r.2
      (if r.1 > 0 then change_count + 1 else change_count)

/-- The copy loop of `handle_dv_packet` (lines 227-231): the entries of the
received buffer, converted to host order.  For a length of 0 the program computes
`received_dv_length = -1`, copies nothing and stores `dv_length = -1`, which every
loop over the record treats like 0: the live slots are the empty list. -/
def received_dv (buffer : List Nat) (received_dv_length : Int) : List dv_entry :=
  (List.range received_dv_length.toNat).map
    (fun i => ntoh_dv_entry buffer (SIZEOF_DV_ENTRY * (i + 1)))

/-- The Bellman-Ford part of `handle_dv_packet` (lines 240-315), run once the
sender's record holds the received DV: the increase/withdraw loop, the relaxation
loop over the sender's DV, and the relaxation of the sender itself.  `sender` is
the record the pointer `sender` designates. -/
def bellman_ford_update (s : State) (sender_port : Nat) (sender : neighbor_list_node) :
    Int × State :=
  let p1 := increase_pass sender_port sender s.my_neighbor_list_head s.my_dv.length 0 s.my_dv 0
  let s1 : State := { s with my_dv := p1.1 }
  let p2 := decrease_pass sender_port sender sender.dv s1 p1.2
  let r := bellman_ford_decrease p2.1 sender_port sender_port sender.cost
  (if r.1 > 0 then p2.2 + 1 else p2.2, r.2)

/-- Returns the number of changes made to the DV, or a negative number on error. -/
def handle_dv_packet (s : State) (sender_port : Nat) (buffer : List Nat)
    (bytes_received : Nat) : Int × State :=
  if bytes_received % SIZEOF_DV_ENTRY ≠ 0 then (-1, s)
  else
    match neighbor_list_find s.my_neighbor_list_head sender_port with
    | none => (-1, s)
    | some k =>
      let received_dv_length : Int := ((bytes_received / SIZEOF_DV_ENTRY : Nat) : Int) - 1
      if received_dv_length > (DV_CAPACITY : Int) then (-1, s)
      else
        let sender : neighbor_list_node :=
          { port := (s.my_neighbor_list_head.getD k default).port,
            cost := (s.my_neighbor_list_head.getD k default).cost,
            dv := received_dv buffer received_dv_length }
        bellman_ford_update
          { s with my_neighbor_list_head := s.my_neighbor_list_head.set k sender }
          sender_port sender

def handle_killed_packet (s : State) (sender_port : Nat) : State × List Datagram :=
  match neighbor_list_find s.my_neighbor_list_head sender_port with
  | none => (s, [])
  | some k =>
    let sender := s.my_neighbor_list_head.getD k default
    match dv_find s.my_dv sender.port with
    | none => (s, [])
    | some _ =>
      -- the dummy buffer is uninitialised; with 8 bytes received no entry is read from it
      let s1 := (handle_dv_packet s sender_port (List.replicate SIZEOF_DV_ENTRY 0)
        SIZEOF_DV_ENTRY).2
      let s2 : State :=
        match dv_find s1.my_dv sender.port with
        | none => s1
        | some i => { s1 with my_dv := swap_delete s1.my_dv i }
      (s2, broadcast_my_dv s2 DV_PACKET)

/-- Forwarding of a data packet; the routing state is not written. -/
def handle_data_packet (s : State) (_sender_port : Nat) (buffer : List Nat) : List Datagram :=
  let dest_port := ntohs (byte_at buffer 3) (byte_at buffer 4)
  if dest_port ≠ s.my_port then
    match dv_find s.my_dv dest_port with
    | none => []
    | some i =>
      let next_port := (s.my_dv.getD i default).first_hop_port
      let msg_sz := 5 * 1 + MAX_BODY_LEN + 1
      [send_message (buffer.map some) msg_sz next_port]
  else []

/-- One call of `server_loop`: `bytes_received`, `sender_port` and `buffer` are
what `recvfrom` delivered.  `buffer` lists the bytes of the local array that hold
a value; the array is uninitialised past them. -/
def server_loop (s : State) (bytes_received : Int) (sender_port : Nat) (buffer : List Nat) :
    State × List Datagram :=
  if bytes_received < 0 then (s, [])
  else if bytes_received = 0 then (s, [])
  else if byte_at buffer 0 = DATA_PACKET then (s, handle_data_packet s sender_port buffer)
  else if byte_at buffer 0 = DV_PACKET then
    let r := handle_dv_packet s sender_port buffer bytes_received.toNat
    if r.1 > 0 then (r.2, broadcast_my_dv r.2 DV_PACKET) else (r.2, [])
  else if byte_at buffer 0 = KILLED_PACKET then handle_killed_packet s sender_port
  else if byte_at buffer 0 = INITIAL_DV_PACKET then
    let r := handle_dv_packet s sender_port buffer bytes_received.toNat
    if r.1 > 0 then (r.2, broadcast_my_dv r.2 DV_PACKET) else (r.2, send_my_dv r.2 sender_port)
  else (s, [])

/-! ## Reachable states -/

/-- A call of one of the three packet handlers. -/
inductive Call where
  | dv (sender_port : Nat) (buffer : List Nat) (bytes_received : Nat)
  | killed (sender_port : Nat)
  | data (sender_port : Nat) (buffer : List Nat)
  deriving DecidableEq, Repr

/-- The routing state after one handler call. -/
def apply_call (s : State) : Call → State
  | Call.dv sender_port buffer bytes_received =>
    (handle_dv_packet s sender_port buffer bytes_received).2
  | Call.killed sender_port => (handle_killed_packet s sender_port).1
  | Call.data _ _ => s

def run_calls : State → List Call → State
  | s, [] => s
  | s, c :: cs => run_calls (apply_call s c) cs

/-- A datagram as `recvfrom` delivers it to `server_loop`. -/
structure Received where
  bytes_received : Int
  sender_port : Nat
  buffer : List Nat
  deriving DecidableEq, Repr

/-- The routing state after `server_loop` processed the given datagrams in order. -/
def run_server : State → List Received → State
  | s, [] => s
  | s, r :: rs => run_server (server_loop s r.bytes_received r.sender_port r.buffer).1 rs

/-- The state `main` leaves before the first `server_loop` call: empty own DV
and an empty cached DV in every neighbour record. -/
def startup (s : State) : Prop :=
  s.my_dv = [] ∧ ∀ n ∈ s.my_neighbor_list_head, n.dv = []

/-! ## Notions of the specification -/

/-- The entry `dv_find` points to, if any: the route the program uses for a
destination. -/
def dv_lookup (dv : List dv_entry) (dest_port : Nat) : Option dv_entry :=
  (dv_find dv dest_port).map (fun i => dv.getD i default)

/-- The link cost of the neighbour with port `port`: the `cost` field of the record
`neighbor_list_find` returns for it. -/
def link_cost (l : List neighbor_list_node) (port : Nat) : Option Nat :=
  (neighbor_list_find l port).map (fun k => (l.getD k default).cost)

/-- The ports and link costs of the neighbour list, which no handler writes. -/
def link_table (l : List neighbor_list_node) : List (Nat × Nat) :=
  l.map (fun n => (n.port, n.cost))

/-- Removal of the entry in slot `i` in the words of the specification: the last
entry is moved into its slot and the length decreases by 1. -/
def spec_remove (T : List dv_entry) (i : Nat) : List dv_entry :=
  if i + 1 = T.length then T.take i
  else T.take i ++ T.getLast?.toList ++ (T.drop (i + 1)).dropLast

/-- The primitive `relax(dest, via, c_via)` in the words of the specification.
The result says whether a change is reported and gives the state afterwards.
`slot` is the position of the first entry for `dest`; there is no such entry
exactly when `slot` is past the end of the table. -/
def relax_spec (s : State) (dest via c_via : Nat) : Bool × State :=
  let slot := (s.my_dv.map dv_entry.dest_port).indexOf dest
  if dest = s.my_port then (false, s)
  else if s.my_dv.length ≤ slot then
    if MAX_POSSIBLE_COST ≤ c_via then (false, s)
    else if DV_CAPACITY ≤ s.my_dv.length then (false, s)
    else (true, { s with my_dv := s.my_dv ++ [dv_entry.mk dest via c_via] })
  else
    if MAX_POSSIBLE_COST ≤ c_via then (true, { s with my_dv := spec_remove s.my_dv slot })
    else if c_via < (s.my_dv.getD slot default).cost then
      let rewritten := s.my_dv.take slot ++ [dv_entry.mk dest via c_via] ++ s.my_dv.drop (slot + 1)
      (true, { s with my_dv := rewritten })
    else (false, s)

/-! ## Predicates on states and datagrams -/

/-- The states the program can be in: reached from a startup state by a sequence
of handler calls. -/
def Reachable (s : State) : Prop :=
  ∃ s0 calls, startup s0 ∧ run_calls s0 calls = s

/-- No 32-bit sum of the link cost and an advertised cost wraps around for the
entries a DV or INITIAL_DV datagram carries, the link cost being that of the
datagram's sender in state `s`. -/
def dv_no_wrap (s : State) (r : Received) : Prop :=
  (byte_at r.buffer 0 = DV_PACKET ∨ byte_at r.buffer 0 = INITIAL_DV_PACKET) →
  ∀ c, link_cost s.my_neighbor_list_head r.sender_port = some c →
    ∀ e ∈ received_dv r.buffer (((r.bytes_received.toNat / SIZEOF_DV_ENTRY : Nat) : Int) - 1),
      c + e.cost < 4294967296

/-- Well-formedness of the own DV with respect to the own port and the neighbour list. -/
def table_ok (s : State) : Prop :=
  (∀ e ∈ s.my_dv, e.cost < MAX_POSSIBLE_COST ∧ e.dest_port ≠ s.my_port ∧
      e.first_hop_port ∈ s.my_neighbor_list_head.map neighbor_list_node.port) ∧
    (s.my_dv.map dv_entry.dest_port).Nodup ∧ s.my_dv.length ≤ DV_CAPACITY

/-- Only a record that `neighbor_list_find` can return ever holds a cached DV. -/
def caches_ok (l : List neighbor_list_node) : Prop :=
  ∀ (m : Nat) (n : neighbor_list_node), l[m]? = some n → n.dv ≠ [] →
    neighbor_list_find l n.port = some m

/-- The invariant of the routing state. -/
def Inv (s : State) : Prop := table_ok s ∧ caches_ok s.my_neighbor_list_head

/-- The invariant behind the link-cost lower bound: every own-DV entry costs at
least the link to its first hop, no cached sum wraps, and `caches_ok`. -/
def link_bound_inv (s : State) : Prop :=
  (∀ e ∈ s.my_dv, ∃ c, link_cost s.my_neighbor_list_head e.first_hop_port = some c ∧
      c ≤ e.cost) ∧
    (∀ n ∈ s.my_neighbor_list_head, ∀ e ∈ n.dv, e.cost + n.cost < 4294967296) ∧
    caches_ok s.my_neighbor_list_head

/-- Where an entry written by the relaxation of `handle_dv_packet` comes from:
the sender itself at its link cost, or an entry of the sender's DV at the 32-bit
sum of link cost and advertised cost. -/
def relax_source (S : Nat) (sender : neighbor_list_node) (d c : Nat) : Prop :=
  (d = S ∧ c = sender.cost) ∨
    ∃ e ∈ sender.dv, d = e.dest_port ∧ c = u32 (sender.cost + e.cost)

/-- The increase/withdraw loop leaves entry `a` alone: its first hop is not the
sender, or it is the sender's own entry, or the sender's DV still offers its cost. -/
def entry_stable (sender_port : Nat) (sender : neighbor_list_node) (a : dv_entry) : Prop :=
  ¬ (a.first_hop_port = sender_port ∧ a.dest_port ≠ sender_port ∧
      path_worsened sender a = true)

/-- Every entry of the table for destination `d` already costs at most `c < 64`. -/
def relax_settled (dv : List dv_entry) (d c : Nat) : Prop :=
  ∀ a ∈ dv, a.dest_port = d → c < MAX_POSSIBLE_COST ∧ a.cost ≤ c

/-- If the table has no entry for `d`, a relaxation with cost `c` would not add one. -/
def relax_blocked (s : State) (d c : Nat) : Prop :=
  (∀ a ∈ s.my_dv, a.dest_port ≠ d) →
    d = s.my_port ∨ MAX_POSSIBLE_COST ≤ c ∨ DV_CAPACITY ≤ s.my_dv.length

/-! ## Example states and datagrams -/

/-- Router B of the triangle A-B(1), B-C(10) at startup (ports 10001..10003). -/
def example_start : State :=
  { my_port := 10002
    my_dv := []
    my_neighbor_list_head := [⟨10001, 1, []⟩, ⟨10003, 10, []⟩] }

/-- A startup state in which one neighbour record carries the router's own port. -/
def example_start_self : State :=
  { my_port := 10002
    my_dv := []
    my_neighbor_list_head := [⟨10002, 1, []⟩, ⟨10001, 1, []⟩] }

/-- Router B of the triangle A-B(1), B-C(10), A-C(2) once converged: own DV
`(A, A, 1), (C, A, 3)` and the neighbours' converged DVs cached. -/
def example_converged : State :=
  { my_port := 10002
    my_dv := [⟨10001, 10001, 1⟩, ⟨10003, 10001, 3⟩]
    my_neighbor_list_head :=
      [⟨10001, 1, [⟨10002, 10002, 1⟩, ⟨10003, 10003, 2⟩]⟩,
       ⟨10003, 10, [⟨10001, 10001, 2⟩, ⟨10002, 10001, 3⟩]⟩] }

/-- A 16-byte DV datagram advertising destination 10003 at cost 2. -/
def example_dv_buffer : List Nat := [2, 0, 0, 0, 0, 0, 0, 0, 39, 19, 39, 19, 0, 0, 0, 2]

/-- A 24-byte DV datagram advertising destinations 10002 (cost 1) and 10003 (cost 2). -/
def example_dv_buffer_self : List Nat :=
  [2, 0, 0, 0, 0, 0, 0, 0, 39, 18, 39, 18, 0, 0, 0, 1, 39, 19, 39, 19, 0, 0, 0, 2]

/-- A 16-byte DV datagram advertising destination 10005 at cost `2^32 - 5`. -/
def example_wrap_buffer : List Nat :=
  [2, 0, 0, 0, 0, 0, 0, 0, 39, 21, 0, 0, 255, 255, 255, 251]

/-- A 16-byte DV datagram in which the sender 10001 advertises its own port at
cost 100. -/
def example_self_advert_buffer : List Nat :=
  [2, 0, 0, 0, 0, 0, 0, 0, 39, 17, 0, 0, 0, 0, 0, 100]

/-- A 16-byte DV datagram advertising destination 10005 at cost 1. -/
def example_far_buffer : List Nat := [2, 0, 0, 0, 0, 0, 0, 0, 39, 21, 39, 21, 0, 0, 0, 1]

/-- A 16-byte DV datagram advertising destination 10001 at cost 63. -/
def example_poison_buffer : List Nat := [2, 0, 0, 0, 0, 0, 0, 0, 39, 17, 39, 17, 0, 0, 0, 63]

/-- The state of router 10002 after the DV of `example_dv_buffer` from 10001:
own DV `(10003, 10001, 3), (10001, 10001, 1)`. -/
def example_converged_reached : State :=
  run_calls example_start [Call.dv 10001 example_dv_buffer 16]

/-- The state of router 10002 after a DV from 10001 that advertises 10005 and then
a DV from 10003 that advertises 10001 at cost 63: the second takes the entry for
10001 out of the own DV, the route to 10005 through 10001 stays. -/
def example_before_kill : State :=
  run_server example_start [⟨16, 10001, example_far_buffer⟩, ⟨16, 10003, example_poison_buffer⟩]

/-- A 7-byte DATA packet for destination 10003 with the payload "hi". -/
def example_data_buffer : List Nat := [1, 65, 67, 39, 19, 104, 105]

/-- The wire image of a DV message as the specification lays it out: the type code,
seven pad bytes (which the program never writes), then the entries, 8 bytes each
in network order. -/
def dv_wire (type : Nat) (dv : List dv_entry) : List (Option Nat) :=
  some type :: List.replicate 7 none ++ ((dv.map hton_dv_entry).flatten).map some

/-- A datagram in flight: the port it was sent from, the port it goes to, and
its bytes. -/
structure Packet where
  src : Nat
  dst : Nat
  bytes : List (Option Nat)
  deriving DecidableEq, Repr

/-- Nodes running the program and the datagrams between them that were sent and
not yet received, in the order in which they were sent. -/
structure Network where
  nodes : List State
  flight : List Packet
  deriving DecidableEq, Repr

/-- The datagrams a node emits, stamped with the port of its socket. -/
def emit (src : Nat) (ds : List Datagram) : List Packet :=
  ds.map (fun d => Packet.mk src d.dest_port d.bytes)

/-- Whether a node of the network is bound to port `p`; a datagram sent to a port
no node is bound to is lost. -/
def bound (nodes : List State) (p : Nat) : Bool :=
  nodes.any (fun s => decide (s.my_port = p))

/-- What `main` does before its loop: every node broadcasts its (empty) own DV as
INITIAL_DV. -/
def boot (nodes : List State) : Network :=
  { nodes := nodes
    flight := ((nodes.map (fun s =>
      emit s.my_port (broadcast_my_dv s INITIAL_DV_PACKET))).flatten).filter
        (fun q => bound nodes q.dst) }

/-- The bytes `recvfrom` stores for a datagram; a byte the sender never
initialised arrives with some value, here 0 (the pad bytes 1..7 of a DV message,
which no handler reads). -/
def received_bytes (bytes : List (Option Nat)) : List Nat := bytes.map (fun b => b.getD 0)

/-- Reception of a datagram: the node bound to the destination port runs one
`server_loop` call on it; the result is the nodes afterwards and what was emitted.
`recvfrom` overwrites the first bytes of the local array of `server_loop`; `tail`
is what the array holds past them. -/
def deliver : List State → Packet → List Nat → List State × List Packet
  | [], _, _ => ([], [])
  | s :: rest, pk, tail =>
    if s.my_port = pk.dst then
      let r := server_loop s (pk.bytes.length : Int) pk.src (received_bytes pk.bytes ++ tail)
      (r.1 :: rest, emit s.my_port r.2)
    else
      let r := deliver rest pk tail
      (s :: r.1, r.2)

/-- Delivery of the `k`-th datagram in flight to a receiver whose array holds
`tail` past the received bytes; what the receiver emits joins the end of the
queue. -/
def net_step (net : Network) (k : Nat) (tail : List Nat) : Network :=
  match net.flight[k]? with
  | none => net
  | some pk =>
    let r := deliver net.nodes pk tail
    { nodes := r.1
      flight := net.flight.eraseIdx k ++ r.2.filter (fun q => bound r.1 q.dst) }

/-- A run of the network: the schedule names, step by step, which datagram in
flight is delivered next and what the receiver's array holds past it. -/
def net_run : Network → List (Nat × List Nat) → Network
  | net, [] => net
  | net, step :: steps => net_run (net_step net step.1 step.2) steps

/-- The `k`-th datagram in flight is the oldest in flight on its link: no
datagram sent before it from the same port to the same port is still in flight. -/
def in_order_step (flight : List Packet) (k : Nat) : Bool :=
  match flight[k]? with
  | none => false
  | some pk => (flight.take k).all (fun q => !(decide (q.src = pk.src) && decide (q.dst = pk.dst)))

/-- A schedule that delivers the datagrams of every link in the order in which
they were sent (datagrams of different links in any order). -/
def in_order : Network → List (Nat × List Nat) → Bool
  | _, [] => true
  | net, step :: steps =>
    in_order_step net.flight step.1 && in_order (net_step net step.1 step.2) steps

/-- The handler of SIGINT, SIGQUIT and SIGTERM: a one-byte KILLED datagram to
every neighbour, after which the process ends. -/
def handle_kill_signal (s : State) : List Datagram :=
  s.my_neighbor_list_head.map (fun node => send_message [some KILLED_PACKET] 1 node.port)

/-- The node bound to port `p` receives a kill signal: it sends its KILLED
datagrams and is gone; datagrams addressed to its port are lost. -/
def kill (net : Network) (p : Nat) : Network :=
  { nodes := net.nodes.filter (fun s => decide (s.my_port ≠ p))
    flight := (net.flight ++
        ((net.nodes.filter (fun s => decide (s.my_port = p))).map
          (fun s => emit p (handle_kill_signal s))).flatten).filter
      (fun q => bound (net.nodes.filter (fun s => decide (s.my_port ≠ p))) q.dst) }

/-- A datagram that is not a DATA packet, judged by its first byte. -/
def routing (pk : Packet) : Bool :=
  decide (byte_at (received_bytes pk.bytes) 0 ≠ DATA_PACKET)

/-- Exhaustive check of the runs of a network that carries routing datagrams
only: `P` holds in every state without a datagram in flight that a run of at most
`fuel` deliveries, in any order, ends in, and no longer run exists. -/
def all_runs (P : Network → Bool) : Nat → Network → Bool
  | 0, net => net.flight.isEmpty && P net
  | fuel + 1, net =>
    if net.flight.isEmpty then P net
    else net.flight.all routing &&
      (List.range net.flight.length).all (fun k => all_runs P fuel (net_step net k []))

/-- The four routers of the chain A-B(1), B-C(1), C-D(1) on ports 10001..10004 at
startup. -/
def chain_nodes : List State :=
  [ { my_port := 10001, my_dv := [], my_neighbor_list_head := [⟨10002, 1, []⟩] },
    { my_port := 10002, my_dv := [], my_neighbor_list_head := [⟨10001, 1, []⟩, ⟨10003, 1, []⟩] },
    { my_port := 10003, my_dv := [], my_neighbor_list_head := [⟨10002, 1, []⟩, ⟨10004, 1, []⟩] },
    { my_port := 10004, my_dv := [], my_neighbor_list_head := [⟨10003, 1, []⟩] } ]

/-- A schedule for the chain in which datagrams overtake earlier ones of the same
link. -/
def chain_overtaking_schedule : List (Nat × List Nat) :=
  [4, 2, 3, 2, 3, 5, 4, 8, 0, 4, 1, 2, 4, 2, 3, 2, 4, 1, 2, 1, 0, 0, 0, 0].map (fun k => (k, []))

/-- The schedule that delivers, 24 times, the oldest datagram in flight. -/
def chain_fifo_schedule : List (Nat × List Nat) := List.replicate 24 (0, [])

/-- The three routers of the triangle A-B(1), B-C(10), A-C(2) on ports
10001..10003 at startup. -/
def triangle_nodes : List State :=
  [ { my_port := 10001, my_dv := [], my_neighbor_list_head := [⟨10002, 1, []⟩, ⟨10003, 2, []⟩] },
    { my_port := 10002, my_dv := [], my_neighbor_list_head := [⟨10001, 1, []⟩, ⟨10003, 10, []⟩] },
    { my_port := 10003, my_dv := [], my_neighbor_list_head := [⟨10001, 2, []⟩, ⟨10002, 10, []⟩] } ]

/-- The triangle once converged: all datagrams delivered in the order sent, none
left in flight after 22 deliveries. -/
def triangle_converged : Network :=
  net_run (boot triangle_nodes) (List.replicate 22 (0, []))

/-- The converged triangle at the moment A (port 10001) is killed: B and C remain,
A's two KILLED datagrams are in flight. -/
def triangle_after_kill : Network := kill triangle_converged 10001

/-- A 24-byte DV datagram carrying A's converged DV in the triangle:
`(10002, 10002, 1), (10003, 10003, 2)`. -/
def example_triangle_a_buffer : List Nat :=
  [2, 0, 0, 0, 0, 0, 0, 0, 39, 18, 39, 18, 0, 0, 0, 1, 39, 19, 39, 19, 0, 0, 0, 2]

/-- A 24-byte DV datagram carrying C's converged DV in the triangle:
`(10001, 10001, 2), (10002, 10001, 3)`. -/
def example_triangle_c_buffer : List Nat :=
  [2, 0, 0, 0, 0, 0, 0, 0, 39, 17, 39, 17, 0, 0, 0, 2, 39, 18, 39, 17, 0, 0, 0, 3]

/-- Router B of the triangle A-B(1), B-C(10), A-C(2) after it received the
converged DVs of A and C: own DV `(C, A, 3), (A, A, 1)`. -/
def example_triangle : State :=
  run_server example_start
    [⟨24, 10001, example_triangle_a_buffer⟩, ⟨24, 10003, example_triangle_c_buffer⟩]

/-- What the neighbours offer for destination `d`, in list order: for every
neighbour record whose cached DV contains `d`, its port and the 32-bit sum of its
link cost and the cached cost. -/
def offers (neighbors : List neighbor_list_node) (d : Nat) : List (Nat × Nat) :=
  neighbors.filterMap (fun n =>
    (dv_lookup n.dv d).map (fun ne => (n.port, u32 (n.cost + ne.cost))))

/-- The first offer of minimal cost. -/
def best_offer : List (Nat × Nat) → Option (Nat × Nat)
  | [] => none
  | o :: os =>
    match best_offer os with
    | none => some o
    | some b => if b.2 < o.2 then some b else some o

/-- The global re-minimisation of the specification for an entry `e`: the entry
for the same destination through the first neighbour of minimal offered cost, if
there is an offer and the minimal cost is below `MAX_POSSIBLE_COST`. -/
def reminimise (neighbors : List neighbor_list_node) (e : dv_entry) : Option dv_entry :=
  match best_offer (offers neighbors e.dest_port) with
  | none => none
  | some b => if b.2 < MAX_POSSIBLE_COST then some (dv_entry.mk e.dest_port b.1 b.2) else none

/-- The entries the increase/withdraw pass reconsiders: first hop is the sender,
the destination is not the sender, and the sender's cached DV has no entry for
the destination or offers it at a higher cost than the entry has. -/
def reconsidered (sender_port : Nat) (sender : neighbor_list_node) (e : dv_entry) : Bool :=
  decide (e.first_hop_port = sender_port) && decide (e.dest_port ≠ sender_port) &&
    (match dv_lookup sender.dv e.dest_port with
     | none => true
     | some se => decide (e.cost < u32 (sender.cost + se.cost)))

/-- What the increase/withdraw pass makes of one entry: a reconsidered entry is
re-minimised (replaced, or removed when `none`), any other entry stays. -/
def increase_outcome (sender_port : Nat) (sender : neighbor_list_node)
    (neighbors : List neighbor_list_node) (e : dv_entry) : Option dv_entry :=
  if reconsidered sender_port sender e = true then reminimise neighbors e else some e

/-- Router A (port 10001) at startup with the single neighbour B (port 10002) at
link cost 1. -/
def example_threshold_start : State :=
  { my_port := 10001
    my_dv := []
    my_neighbor_list_head := [⟨10002, 1, []⟩] }

/-- A 16-byte DV datagram advertising destination 10003 at cost 62. -/
def example_threshold_62_buffer : List Nat :=
  [2, 0, 0, 0, 0, 0, 0, 0, 39, 19, 39, 19, 0, 0, 0, 62]

/-- A 16-byte DV datagram advertising destination 10003 at cost 63. -/
def example_threshold_63_buffer : List Nat :=
  [2, 0, 0, 0, 0, 0, 0, 0, 39, 19, 39, 19, 0, 0, 0, 63]

/-- Router A after B's DV advertising C (port 10003) at cost 62: own DV
`(10003, 10002, 63), (10002, 10002, 1)`. -/
def example_threshold_state : State :=
  run_calls example_threshold_start [Call.dv 10002 example_threshold_62_buffer 16]

/-- The route `a` is backed by the last announcement of its first hop: if the
destination is not the first hop itself, some neighbour record with the first
hop's port caches an entry for the destination whose cost plus the link cost, in
32-bit arithmetic, is the cost of `a`. -/
def backed (l : List neighbor_list_node) (a : dv_entry) : Prop :=
  a.dest_port ≠ a.first_hop_port →
    ∃ n ∈ l, n.port = a.first_hop_port ∧
      ∃ ne ∈ n.dv, ne.dest_port = a.dest_port ∧ u32 (ne.cost + n.cost) = a.cost

/-- During the relaxation loop over the entries `rest` still to come: the route
is backed already, or it goes through the sender and an entry still to come
offers its destination at a lower cost. -/
def backed_or_pending (l : List neighbor_list_node) (sender_port : Nat)
    (sender : neighbor_list_node) (rest : List dv_entry) (a : dv_entry) : Prop :=
  backed l a ∨ (a.first_hop_port = sender_port ∧
    ∃ e ∈ rest, e.dest_port = a.dest_port ∧ u32 (sender.cost + e.cost) < a.cost)

/-- The state the triangle is in once the kill of A has been dealt with: B is left
with the direct route to C, C with the direct route to B. -/
def triangle_rerouted (net : Network) : Bool :=
  decide (net.nodes.map (fun s => (s.my_port, s.my_dv)) =
    [(10002, [⟨10003, 10003, 10⟩]), (10003, [⟨10002, 10002, 10⟩])])

/-- Router B in the converged triangle: own DV `(A, A, 1), (C, A, 3)` and the
converged DVs of A and C cached. -/
def triangle_b : State :=
  { my_port := 10002
    my_dv := [⟨10001, 10001, 1⟩, ⟨10003, 10001, 3⟩]
    my_neighbor_list_head :=
      [⟨10001, 1, [⟨10002, 10002, 1⟩, ⟨10003, 10003, 2⟩]⟩,
       ⟨10003, 10, [⟨10001, 10001, 2⟩, ⟨10002, 10001, 3⟩]⟩] }

/-- The ports of the chain. -/
def chain_port (p : Nat) : Prop := 10001 ≤ p ∧ p ≤ 10004

/-- Neighbours in the chain. -/
def chain_adjacent (x y : Nat) : Prop :=
  chain_port x ∧ chain_port y ∧ (y = x + 1 ∨ x = y + 1)

/-- The entry `e` is the route of the chain from node `x` to the destination of
`e`: first hop the neighbour on the side of the destination, cost the distance. -/
def chain_route (x : Nat) (e : dv_entry) : Prop :=
  chain_port e.dest_port ∧
    ((x < e.dest_port ∧ e.first_hop_port = x + 1 ∧ e.cost + x = e.dest_port) ∨
      (e.dest_port < x ∧ e.first_hop_port + 1 = x ∧ e.cost + e.dest_port = x))

/-- The ports and link costs of the neighbour list of node `p` of the chain. -/
def chain_link_table (p : Nat) : List (Nat × Nat) :=
  (if 10001 < p then [(p - 1, 1)] else []) ++ (if p < 10004 then [(p + 1, 1)] else [])

/-- The DV cached for neighbour `p`: that of the record `neighbor_list_find`
returns. -/
def cached_dv (s : State) (p : Nat) : List dv_entry :=
  match neighbor_list_find s.my_neighbor_list_head p with
  | some k => (s.my_neighbor_list_head.getD k default).dv
  | none => []

/-- A node of the chain in a run: its neighbour list is that of the topology, the
routing state is well formed, every route is backed by the first hop's cached DV,
and every entry of the own DV is a route of the chain. -/
def chain_node_ok (s : State) : Prop :=
  chain_port s.my_port ∧
    link_table s.my_neighbor_list_head = chain_link_table s.my_port ∧
    Inv s ∧ (∀ a ∈ s.my_dv, backed s.my_neighbor_list_head a) ∧
    (∀ a ∈ s.my_dv, chain_route s.my_port a)

/-- The entries a receiver decodes from a datagram. -/
def carried_dv (pk : Packet) : List dv_entry :=
  received_dv (received_bytes pk.bytes) (((pk.bytes.length / SIZEOF_DV_ENTRY : Nat) : Int) - 1)

/-- A datagram in flight in a run of the chain: a DV or INITIAL_DV message between
neighbours that carries routes of its sender. -/
def chain_packet_ok (pk : Packet) : Prop :=
  chain_adjacent pk.src pk.dst ∧
    (pk.bytes = dv_wire DV_PACKET (carried_dv pk) ∨
      pk.bytes = dv_wire INITIAL_DV_PACKET (carried_dv pk)) ∧
    (carried_dv pk).length ≤ DV_CAPACITY ∧ ∀ e ∈ carried_dv pk, chain_route pk.src e

/-- The datagrams in flight from port `x` to port `y`, oldest first. -/
def on_link (flight : List Packet) (x y : Nat) : List Packet :=
  flight.filter (fun q => decide (q.src = x) && decide (q.dst = y))

/-- What the receiver has cached for a neighbour, the DVs on their way from that
neighbour, oldest first, and the neighbour's own DV: each is contained in the
next, and the last one sent (the cached one if none is on its way) holds all of
the own DV. -/
def link_chain : List dv_entry → List (List dv_entry) → List dv_entry → Prop
  | cache, [], own => (∀ e ∈ own, e ∈ cache) ∧ (∀ e ∈ cache, e ∈ own)
  | cache, m :: rest, own => (∀ e ∈ cache, e ∈ m) ∧ link_chain m rest own

/-- The link from node `sx` to node `sy` in a run of the chain, `msgs` being the
DVs on their way. -/
def link_ok (sx sy : State) (msgs : List (List dv_entry)) : Prop :=
  link_chain (cached_dv sy sx.my_port) msgs sx.my_dv ∧
    (∀ e ∈ sx.my_dv, e.first_hop_port = sy.my_port → e.dest_port ≠ sy.my_port →
      ∃ a ∈ sy.my_dv, a.dest_port = e.dest_port) ∧
    (∀ e ∈ cached_dv sy sx.my_port, e.dest_port ≠ sy.my_port →
      ∃ a ∈ sy.my_dv, a.dest_port = e.dest_port) ∧
    (msgs = [] → ∃ a ∈ sy.my_dv, a.dest_port = sx.my_port)

/-- The node bound to port `p`. -/
def node_at (nodes : List State) (p : Nat) : Option State :=
  nodes.find? (fun s => decide (s.my_port = p))

/-- The invariant of the runs of the chain that deliver every link in order. -/
def chain_inv (net : Network) : Prop :=
  net.nodes.map State.my_port = [10001, 10002, 10003, 10004] ∧
    (∀ s ∈ net.nodes, chain_node_ok s) ∧
    (∀ pk ∈ net.flight, chain_packet_ok pk) ∧
    ∀ x y sx sy, chain_adjacent x y → node_at net.nodes x = some sx →
      node_at net.nodes y = some sy →
      link_ok sx sy ((on_link net.flight x y).map carried_dv)

/-! ## Basic facts about the searches -/

theorem dv_find_some {dv : List dv_entry} {d i : Nat} (h : dv_find dv d = some i) :
    ∃ e, dv[i]? = some e ∧ e.dest_port = d := by
  induction dv generalizing i with
  | nil => simp [dv_find] at h
  | cons a rest ih =>
    unfold dv_find at h
    split at h
    · cases h
      exact ⟨a, by simp, by assumption⟩
    · cases hr : dv_find rest d with
      | none => simp [hr] at h
      | some j =>
        simp [hr] at h
        subst h
        obtain ⟨e, he, hd⟩ := ih hr
        exact ⟨e, by simpa using he, hd⟩

theorem dv_find_none {dv : List dv_entry} {d : Nat} (h : dv_find dv d = none) :
    ∀ e ∈ dv, e.dest_port ≠ d := by
  induction dv with
  | nil => simp
  | cons a rest ih =>
    unfold dv_find at h
    split at h
    · cases h
    · intro e he
      rcases List.mem_cons.mp he with rfl | he
      · assumption
      · exact ih (by simpa using h) e he

theorem dv_find_isSome_of_mem {dv : List dv_entry} {e : dv_entry} (he : e ∈ dv) :
    ∃ i, dv_find dv e.dest_port = some i := by
  cases h : dv_find dv e.dest_port with
  | none => exact absurd rfl (dv_find_none h e he)
  | some i => exact ⟨i, rfl⟩

theorem getD_of_getElem? {dv : List dv_entry} {i : Nat} {e : dv_entry} (h : dv[i]? = some e) :
    dv.getD i default = e := by
  simp [List.getD_eq_getElem?_getD, h]

theorem lt_of_getElem? {α : Type} {l : List α} {i : Nat} {e : α} (h : l[i]? = some e) :
    i < l.length := by
  by_contra hc
  rw [List.getElem?_eq_none (by omega)] at h
  cases h

theorem mem_of_getElem? {α : Type} {l : List α} {i : Nat} {e : α} (h : l[i]? = some e) :
    e ∈ l := by
  have hi := lt_of_getElem? h
  rw [List.getElem?_eq_getElem hi] at h
  cases h
  exact List.getElem_mem hi

/-- With pairwise distinct destinations an entry is determined by its destination. -/
theorem eq_of_dest_eq {dv : List dv_entry} (hn : (dv.map dv_entry.dest_port).Nodup)
    {a b : dv_entry} (ha : a ∈ dv) (hb : b ∈ dv) (h : a.dest_port = b.dest_port) : a = b :=
  List.inj_on_of_nodup_map hn ha hb h

/-! ## The deletion idiom -/

theorem swap_delete_getElem? (dv : List dv_entry) {i : Nat} (hi : i < dv.length) (j : Nat) :
    (swap_delete dv i)[j]? =
      if j < dv.length - 1 then (if j = i then dv[dv.length - 1]? else dv[j]?) else none := by
  unfold swap_delete
  have hl : dv.getD (dv.length - 1) default = dv[dv.length - 1] :=
    List.getD_eq_getElem _ _ (by omega)
  rw [List.getElem?_take]
  split
  · rw [List.getElem?_set]
    by_cases hji : j = i
    · subst hji
      rw [hl, List.getElem?_eq_getElem (by omega : dv.length - 1 < dv.length)]
      simp [hi]
    · have : ¬ i = j := fun h => hji h.symm
      simp [hji, this]
  · rfl

theorem length_swap_delete (dv : List dv_entry) (i : Nat) :
    (swap_delete dv i).length = dv.length - 1 := by
  simp [swap_delete]

theorem mem_swap_delete_iff (dv : List dv_entry) {i : Nat} (hi : i < dv.length) (e : dv_entry) :
    e ∈ swap_delete dv i ↔ ∃ m, m ≠ i ∧ dv[m]? = some e := by
  constructor
  · intro he
    obtain ⟨j, hj, rfl⟩ := List.mem_iff_getElem.mp he
    have h := swap_delete_getElem? dv hi j
    rw [length_swap_delete] at hj
    rw [List.getElem?_eq_getElem (by rw [length_swap_delete]; exact hj)] at h
    simp only [hj, if_true] at h
    by_cases hji : j = i
    · simp only [hji, if_true] at h
      exact ⟨dv.length - 1, by omega, by rw [← h]; simp [hji]⟩
    · simp only [hji, if_false] at h
      exact ⟨j, hji, by rw [← h]⟩
  · rintro ⟨m, hm, he⟩
    have hml := lt_of_getElem? he
    by_cases hlast : m = dv.length - 1
    · have h := swap_delete_getElem? dv hi i
      have hi' : i < dv.length - 1 := by omega
      simp only [hi', if_true] at h
      rw [← hlast, he] at h
      exact mem_of_getElem? h
    · have h := swap_delete_getElem? dv hi m
      have hm' : m < dv.length - 1 := by omega
      simp only [hm', if_true, hm, if_false] at h
      rw [he] at h
      exact mem_of_getElem? h

theorem mem_of_mem_swap_delete {dv : List dv_entry} {i : Nat} {e : dv_entry}
    (he : e ∈ swap_delete dv i) : e ∈ dv := by
  by_cases hi : i < dv.length
  · obtain ⟨m, _, hm⟩ := (mem_swap_delete_iff dv hi e).mp he
    exact mem_of_getElem? hm
  · unfold swap_delete at he
    rw [List.set_eq_of_length_le (by omega)] at he
    exact List.mem_of_mem_take he

/-- Pairwise distinct destinations, stated on slots. -/
theorem nodup_dest_iff (dv : List dv_entry) :
    (dv.map dv_entry.dest_port).Nodup ↔
      ∀ (j k : Nat) (ej ek : dv_entry), dv[j]? = some ej → dv[k]? = some ek →
        ej.dest_port = ek.dest_port → j = k := by
  constructor
  · intro hn j k ej ek hj hk hd
    have hjl := lt_of_getElem? hj
    have hkl := lt_of_getElem? hk
    rw [List.getElem?_eq_getElem hjl] at hj
    rw [List.getElem?_eq_getElem hkl] at hk
    cases hj
    cases hk
    have hjm : j < (dv.map dv_entry.dest_port).length := by simpa using hjl
    have hkm : k < (dv.map dv_entry.dest_port).length := by simpa using hkl
    have hinj := (@List.Nodup.getElem_inj_iff _ _ hn j hjm k hkm).mp (by simpa using hd)
    exact hinj
  · intro h
    rw [List.nodup_iff_getElem?_ne_getElem?]
    intro i j hij hj heq
    have hjl : j < dv.length := by simpa using hj
    have hil : i < dv.length := by omega
    have := h i j dv[i] dv[j] (List.getElem?_eq_getElem hil) (List.getElem?_eq_getElem hjl)
      (by simpa [List.getElem?_map, List.getElem?_eq_getElem hil, List.getElem?_eq_getElem hjl]
        using heq)
    omega

theorem nodup_swap_delete {dv : List dv_entry} {i : Nat} (hi : i < dv.length)
    (hn : (dv.map dv_entry.dest_port).Nodup) :
    ((swap_delete dv i).map dv_entry.dest_port).Nodup := by
  rw [nodup_dest_iff] at hn ⊢
  intro j k ej ek hj hk hd
  have key : ∀ j e, (swap_delete dv i)[j]? = some e →
      j < dv.length - 1 ∧ dv[if j = i then dv.length - 1 else j]? = some e := by
    intro j e hje
    rw [swap_delete_getElem? dv hi j] at hje
    by_cases hjl : j < dv.length - 1
    · simp only [hjl, if_true] at hje
      refine ⟨hjl, ?_⟩
      by_cases hji : j = i
      · simpa [hji] using hje
      · simpa [hji] using hje
    · simp [hjl] at hje
  obtain ⟨hj1, hj2⟩ := key j ej hj
  obtain ⟨hk1, hk2⟩ := key k ek hk
  have := hn _ _ ej ek hj2 hk2 hd
  by_cases hji : j = i <;> by_cases hki : k = i <;> simp [hji, hki] at this <;> omega

/-- After deleting slot `i` of a table with distinct destinations no entry for
the destination of slot `i` is left. -/
theorem dest_ne_of_mem_swap_delete {dv : List dv_entry} {i : Nat} {a e : dv_entry}
    (hn : (dv.map dv_entry.dest_port).Nodup) (ha : dv[i]? = some a)
    (he : e ∈ swap_delete dv i) : e.dest_port ≠ a.dest_port := by
  obtain ⟨m, hm, hme⟩ := (mem_swap_delete_iff dv (lt_of_getElem? ha) e).mp he
  intro hd
  exact hm ((nodup_dest_iff dv).mp hn m i e a hme ha hd)

theorem mem_set_of_getElem? {dv : List dv_entry} {i : Nat} {x e : dv_entry}
    (he : e ∈ dv.set i x) : e = x ∨ ∃ m, m ≠ i ∧ dv[m]? = some e := by
  obtain ⟨j, hj, rfl⟩ := List.mem_iff_getElem.mp he
  rw [List.getElem_set]
  by_cases hij : i = j
  · left; simp [hij]
  · right
    refine ⟨j, fun h => hij h.symm, ?_⟩
    simp only [hij, if_false]
    exact List.getElem?_eq_getElem (by simpa using hj)

theorem nodup_set_same_dest {dv : List dv_entry} {i : Nat} {a x : dv_entry}
    (ha : dv[i]? = some a) (hx : x.dest_port = a.dest_port)
    (hn : (dv.map dv_entry.dest_port).Nodup) :
    ((dv.set i x).map dv_entry.dest_port).Nodup := by
  have hi := lt_of_getElem? ha
  rw [List.getElem?_eq_getElem hi] at ha
  cases ha
  have : (dv.set i x).map dv_entry.dest_port = dv.map dv_entry.dest_port := by
    rw [List.map_set, hx]
    apply List.ext_getElem
    · simp
    · intro n h1 h2
      rw [List.getElem_set]
      by_cases hin : i = n
      · subst hin; simp
      · simp [hin]
  rw [this]
  exact hn

theorem nodup_append_new {dv : List dv_entry} {x : dv_entry}
    (hf : dv_find dv x.dest_port = none) (hn : (dv.map dv_entry.dest_port).Nodup) :
    ((dv ++ [x]).map dv_entry.dest_port).Nodup := by
  rw [List.map_append, List.nodup_append]
  refine ⟨hn, by simp, ?_⟩
  intro d hd hd'
  simp only [List.map_cons, List.map_nil, List.mem_singleton] at hd'
  obtain ⟨e, he, hed⟩ := List.mem_map.mp hd
  exact dv_find_none hf e he (by rw [hed, hd'])

/-! ## `bellman_ford_decrease` -/

/-- The branches of `bellman_ford_decrease`, one disjunct per `return`. -/
theorem bellman_ford_decrease_cases (s : State) (d v c : Nat) :
    (d = s.my_port ∧ bellman_ford_decrease s d v c = (0, s)) ∨
    (d ≠ s.my_port ∧ dv_find s.my_dv d = none ∧ MAX_POSSIBLE_COST ≤ c ∧
      bellman_ford_decrease s d v c = (0, s)) ∨
    (d ≠ s.my_port ∧ dv_find s.my_dv d = none ∧ c < MAX_POSSIBLE_COST ∧
      DV_CAPACITY ≤ s.my_dv.length ∧ bellman_ford_decrease s d v c = (-1, s)) ∨
    (d ≠ s.my_port ∧ dv_find s.my_dv d = none ∧ c < MAX_POSSIBLE_COST ∧
      s.my_dv.length < DV_CAPACITY ∧
      bellman_ford_decrease s d v c = (1, { s with my_dv := s.my_dv ++ [dv_entry.mk d v c] })) ∨
    (∃ i a, d ≠ s.my_port ∧ dv_find s.my_dv d = some i ∧ s.my_dv[i]? = some a ∧
      a.dest_port = d ∧ MAX_POSSIBLE_COST ≤ c ∧
      bellman_ford_decrease s d v c = (1, { s with my_dv := swap_delete s.my_dv i })) ∨
    (∃ i a, d ≠ s.my_port ∧ dv_find s.my_dv d = some i ∧ s.my_dv[i]? = some a ∧
      a.dest_port = d ∧ c < MAX_POSSIBLE_COST ∧ c < a.cost ∧
      bellman_ford_decrease s d v c =
        (1, { s with my_dv := s.my_dv.set i (dv_entry.mk d v c) })) ∨
    (∃ i a, d ≠ s.my_port ∧ dv_find s.my_dv d = some i ∧ s.my_dv[i]? = some a ∧
      a.dest_port = d ∧ c < MAX_POSSIBLE_COST ∧ a.cost ≤ c ∧
      bellman_ford_decrease s d v c = (0, s)) := by
  by_cases hp : d = s.my_port
  · left
    exact ⟨hp, by simp [bellman_ford_decrease, hp]⟩
  · right
    cases hf : dv_find s.my_dv d with
    | none =>
      by_cases hc : MAX_POSSIBLE_COST ≤ c
      · left
        exact ⟨hp, rfl, hc, by simp [bellman_ford_decrease, hp, hf, hc]⟩
      · right
        by_cases hl : DV_CAPACITY ≤ s.my_dv.length
        · left
          exact ⟨hp, rfl, by omega, hl, by simp [bellman_ford_decrease, hp, hf, hc, hl]⟩
        · right; left
          exact ⟨hp, rfl, by omega, by omega, by simp [bellman_ford_decrease, hp, hf, hc, hl]⟩
    | some i =>
      obtain ⟨a, ha, had⟩ := dv_find_some hf
      right; right; right
      by_cases hc : MAX_POSSIBLE_COST ≤ c
      · left
        exact ⟨i, a, hp, rfl, ha, had, hc, by simp [bellman_ford_decrease, hp, hf, hc]⟩
      · right
        by_cases hlt : c < a.cost
        · left
          exact ⟨i, a, hp, rfl, ha, had, by omega, hlt,
            by simp [bellman_ford_decrease, hp, hf, hc, ha, hlt, had]⟩
        · right
          exact ⟨i, a, hp, rfl, ha, had, by omega, by omega,
            by simp [bellman_ford_decrease, hp, hf, hc, ha, hlt]⟩

theorem bellman_ford_decrease_my_port (s : State) (d v c : Nat) :
    (bellman_ford_decrease s d v c).2.my_port = s.my_port := by
  rcases bellman_ford_decrease_cases s d v c with
    ⟨_, h⟩ | ⟨_, _, _, h⟩ | ⟨_, _, _, _, h⟩ | ⟨_, _, _, _, h⟩ | ⟨_, _, _, _, _, _, _, h⟩ |
    ⟨_, _, _, _, _, _, _, _, h⟩ | ⟨_, _, _, _, _, _, _, _, h⟩ <;> rw [h]

theorem bellman_ford_decrease_neighbors (s : State) (d v c : Nat) :
    (bellman_ford_decrease s d v c).2.my_neighbor_list_head = s.my_neighbor_list_head := by
  rcases bellman_ford_decrease_cases s d v c with
    ⟨_, h⟩ | ⟨_, _, _, h⟩ | ⟨_, _, _, _, h⟩ | ⟨_, _, _, _, h⟩ | ⟨_, _, _, _, _, _, _, h⟩ |
    ⟨_, _, _, _, _, _, _, _, h⟩ | ⟨_, _, _, _, _, _, _, _, h⟩ <;> rw [h]

/-- A property of entries survives a relaxation if the candidate entry has it. -/
theorem bellman_ford_decrease_forall (P : dv_entry → Prop) (s : State) (d v c : Nat)
    (h : ∀ e ∈ s.my_dv, P e)
    (hnew : d ≠ s.my_port → c < MAX_POSSIBLE_COST → P (dv_entry.mk d v c)) :
    ∀ e ∈ (bellman_ford_decrease s d v c).2.my_dv, P e := by
  rcases bellman_ford_decrease_cases s d v c with
    ⟨_, hr⟩ | ⟨_, _, _, hr⟩ | ⟨_, _, _, _, hr⟩ | ⟨hp, _, hc, _, hr⟩ |
    ⟨i, a, _, _, _, _, _, hr⟩ | ⟨i, a, hp, _, _, _, hc, _, hr⟩ |
    ⟨_, _, _, _, _, _, _, _, hr⟩ <;> rw [hr] <;> intro e he
  · exact h e he
  · exact h e he
  · exact h e he
  · rcases List.mem_append.mp he with he | he
    · exact h e he
    · rw [List.mem_singleton.mp he]
      exact hnew hp hc
  · exact h e (mem_of_mem_swap_delete he)
  · rcases List.mem_or_eq_of_mem_set he with he | he
    · exact h e he
    · rw [he]; exact hnew hp hc
  · exact h e he

theorem bellman_ford_decrease_nodup (s : State) (d v c : Nat)
    (h : (s.my_dv.map dv_entry.dest_port).Nodup) :
    ((bellman_ford_decrease s d v c).2.my_dv.map dv_entry.dest_port).Nodup := by
  rcases bellman_ford_decrease_cases s d v c with
    ⟨_, hr⟩ | ⟨_, _, _, hr⟩ | ⟨_, _, _, _, hr⟩ | ⟨_, hf, _, _, hr⟩ |
    ⟨i, a, _, _, ha, _, _, hr⟩ | ⟨i, a, _, _, ha, had, _, _, hr⟩ |
    ⟨_, _, _, _, _, _, _, _, hr⟩ <;> rw [hr]
  · exact h
  · exact h
  · exact h
  · exact nodup_append_new hf h
  · exact nodup_swap_delete (lt_of_getElem? ha) h
  · exact nodup_set_same_dest ha had.symm h
  · exact h

theorem bellman_ford_decrease_length (s : State) (d v c : Nat)
    (h : s.my_dv.length ≤ DV_CAPACITY) :
    (bellman_ford_decrease s d v c).2.my_dv.length ≤ DV_CAPACITY := by
  rcases bellman_ford_decrease_cases s d v c with
    ⟨_, hr⟩ | ⟨_, _, _, hr⟩ | ⟨_, _, _, _, hr⟩ | ⟨_, _, _, hl, hr⟩ |
    ⟨i, a, _, _, _, _, _, hr⟩ | ⟨i, a, _, _, _, _, _, _, hr⟩ |
    ⟨_, _, _, _, _, _, _, _, hr⟩ <;> rw [hr]
  · exact h
  · exact h
  · exact h
  · simp only [List.length_append, List.length_singleton]; omega
  · simp only [length_swap_delete]; omega
  · simpa using h
  · exact h

/-! ## The relaxation loop -/

/-- A state property kept by every relaxation of the loop is kept by the loop. -/
theorem decrease_pass_induct (Q : State → Prop) (sender_port : Nat) (sender : neighbor_list_node)
    (D : List dv_entry)
    (hstep : ∀ s e, e ∈ D → Q s →
      Q (bellman_ford_decrease s e.dest_port sender_port (u32 (sender.cost + e.cost))).2)
    (s : State) (cc : Int) (h : Q s) :
    Q (decrease_pass sender_port sender D s cc).1 := by
  induction D generalizing s cc with
  | nil => simpa [decrease_pass] using h
  | cons e rest ih =>
    simp only [decrease_pass]
    apply ih
    · intro s' e' he' hq
      exact hstep s' e' (List.mem_cons_of_mem _ he') hq
    · exact hstep s e (List.mem_cons_self _ _) h

/-! ## The scan over all neighbours -/

/-- The scan either leaves its locals as they were or holds the offer of one
neighbour record: that record caches an entry for the destination, and the
locals are its port and the 32-bit sum of the cached cost and the link cost. -/
theorem scan_neighbors_spec (neighbors : List neighbor_list_node) (d : Nat) (acc : scan_state) :
    scan_neighbors neighbors d acc = acc ∨
    ((scan_neighbors neighbors d acc).is_reachable = true ∧
      ∃ (m : Nat) (n : neighbor_list_node) (j : Nat) (ne : dv_entry),
        neighbors[m]? = some n ∧ dv_find n.dv d = some j ∧ n.dv[j]? = some ne ∧
        (scan_neighbors neighbors d acc).min_cost = u32 (ne.cost + n.cost) ∧
        (scan_neighbors neighbors d acc).best_first_hop_port = n.port) := by
  induction neighbors generalizing acc with
  | nil => left; rfl
  | cons nb next ih =>
    have lift : ∀ acc', (scan_neighbors next d acc').is_reachable = true ∧
        (∃ (m : Nat) (n : neighbor_list_node) (j : Nat) (ne : dv_entry),
          next[m]? = some n ∧ dv_find n.dv d = some j ∧ n.dv[j]? = some ne ∧
          (scan_neighbors next d acc').min_cost = u32 (ne.cost + n.cost) ∧
          (scan_neighbors next d acc').best_first_hop_port = n.port) →
        (scan_neighbors next d acc').is_reachable = true ∧
        (∃ (m : Nat) (n : neighbor_list_node) (j : Nat) (ne : dv_entry),
          (nb :: next)[m]? = some n ∧ dv_find n.dv d = some j ∧ n.dv[j]? = some ne ∧
          (scan_neighbors next d acc').min_cost = u32 (ne.cost + n.cost) ∧
          (scan_neighbors next d acc').best_first_hop_port = n.port) := by
      rintro acc' ⟨hr, m, n, j, ne, h1, h2, h3, h4, h5⟩
      exact ⟨hr, m + 1, n, j, ne, by simpa using h1, h2, h3, h4, h5⟩
    cases hf : dv_find nb.dv d with
    | none =>
      simp only [scan_neighbors, hf]
      rcases ih acc with h | h
      · left; exact h
      · right; exact lift acc h
    | some j =>
      obtain ⟨ne, hne, _⟩ := dv_find_some hf
      have hg := getD_of_getElem? hne
      simp only [scan_neighbors, hf, hg]
      split
      · right
        rcases ih ⟨u32 (ne.cost + nb.cost), nb.port, true⟩ with h | h
        · rw [h]
          exact ⟨rfl, 0, nb, j, ne, by simp, hf, hne, rfl, rfl⟩
        · exact lift _ h
      · rcases ih acc with h | h
        · left; exact h
        · right; exact lift acc h

/-! ## The increase/withdraw loop -/

/-- Induction principle for the `while` loop: `Q` is a loop invariant on the loop
variables, kept by each of the three ways an iteration can end, and `R` follows
from `Q` at loop exit.  The fuel hypothesis says the iteration budget covers the
`my_dv.length - i` iterations the loop can make. -/
theorem increase_pass_induct (sender_port : Nat) (sender : neighbor_list_node)
    (neighbors : List neighbor_list_node)
    (Q : Nat → List dv_entry → Int → Prop) (R : List dv_entry → Int → Prop)
    (hskip : ∀ i dv cc a, dv[i]? = some a → Q i dv cc →
      ¬ (a.first_hop_port = sender_port ∧ a.dest_port ≠ sender_port ∧
          path_worsened sender a = true) → Q (i + 1) dv cc)
    (hset : ∀ i dv cc a, dv[i]? = some a → Q i dv cc →
      a.first_hop_port = sender_port → a.dest_port ≠ sender_port →
      path_worsened sender a = true →
      (scan_neighbors neighbors a.dest_port scan_init).is_reachable = true →
      (scan_neighbors neighbors a.dest_port scan_init).min_cost < MAX_POSSIBLE_COST →
      Q (i + 1) (dv.set i (dv_entry.mk a.dest_port
        (scan_neighbors neighbors a.dest_port scan_init).best_first_hop_port
        (scan_neighbors neighbors a.dest_port scan_init).min_cost)) (cc + 1))
    (hdel : ∀ i dv cc a, dv[i]? = some a → Q i dv cc →
      a.first_hop_port = sender_port → a.dest_port ≠ sender_port →
      path_worsened sender a = true →
      ¬ ((scan_neighbors neighbors a.dest_port scan_init).is_reachable = true ∧
        (scan_neighbors neighbors a.dest_port scan_init).min_cost < MAX_POSSIBLE_COST) →
      Q i (swap_delete dv i) (cc + 1))
    (hexit : ∀ i dv cc, dv.length ≤ i → Q i dv cc → R dv cc) :
    ∀ (fuel i : Nat) (dv : List dv_entry) (cc : Int), dv.length - i ≤ fuel → Q i dv cc →
      R (increase_pass sender_port sender neighbors fuel i dv cc).1
        (increase_pass sender_port sender neighbors fuel i dv cc).2 := by
  intro fuel
  induction fuel with
  | zero =>
    intro i dv cc hf hq
    simp only [increase_pass]
    exact hexit i dv cc (by omega) hq
  | succ fuel ih =>
    intro i dv cc hf hq
    by_cases hi : i < dv.length
    · have ha : dv[i]? = some dv[i] := List.getElem?_eq_getElem hi
      have hg : dv.getD i default = dv[i] := List.getD_eq_getElem _ _ hi
      simp only [increase_pass, hi, if_true, hg]
      by_cases h1 : dv[i].first_hop_port = sender_port ∧ dv[i].dest_port ≠ sender_port
      · rw [if_pos h1]
        by_cases h2 : path_worsened sender dv[i] = true
        · rw [if_pos h2]
          by_cases h3 : (scan_neighbors neighbors dv[i].dest_port scan_init).is_reachable = true ∧
              (scan_neighbors neighbors dv[i].dest_port scan_init).min_cost < MAX_POSSIBLE_COST
          · rw [if_pos h3]
            apply ih
            · simp only [List.length_set]; omega
            · exact hset i dv cc dv[i] ha hq h1.1 h1.2 h2 h3.1 h3.2
          · rw [if_neg h3]
            apply ih
            · simp only [length_swap_delete]; omega
            · exact hdel i dv cc dv[i] ha hq h1.1 h1.2 h2 h3
        · rw [if_neg h2]
          apply ih
          · omega
          · exact hskip i dv cc dv[i] ha hq (fun h => h2 h.2.2)
      · rw [if_neg h1]
        apply ih
        · omega
        · exact hskip i dv cc dv[i] ha hq (fun h => h1 ⟨h.1, h.2.1⟩)
    · simp only [increase_pass, hi, if_false]
      exact hexit i dv cc (by omega) hq

/-- More fuel than the loop needs changes nothing: the loop ends by its own
exit test `i < my_dv_length`, not by the iteration budget. -/
theorem increase_pass_fuel (sender_port : Nat) (sender : neighbor_list_node)
    (neighbors : List neighbor_list_node) :
    ∀ (fuel i : Nat) (dv : List dv_entry) (cc : Int), dv.length - i ≤ fuel →
      increase_pass sender_port sender neighbors (fuel + 1) i dv cc =
        increase_pass sender_port sender neighbors fuel i dv cc := by
  intro fuel
  induction fuel with
  | zero =>
    intro i dv cc hf
    have hi : ¬ i < dv.length := by omega
    simp [increase_pass, hi]
  | succ fuel ih =>
    intro i dv cc hf
    rw [increase_pass]
    conv_rhs => rw [increase_pass]
    by_cases hi : i < dv.length
    · simp only [hi, if_true]
      split
      · split
        · split
          · exact ih _ _ _ (by simp only [List.length_set]; omega)
          · exact ih _ _ _ (by simp only [length_swap_delete]; omega)
        · exact ih _ _ _ (by omega)
      · exact ih _ _ _ (by omega)
    · simp only [hi, if_false]

/-! ## Neighbour list -/

theorem neighbor_list_find_some {l : List neighbor_list_node} {p k : Nat}
    (h : neighbor_list_find l p = some k) : ∃ n, l[k]? = some n ∧ n.port = p := by
  induction l generalizing k with
  | nil => simp [neighbor_list_find] at h
  | cons a rest ih =>
    unfold neighbor_list_find at h
    split at h
    · cases h
      exact ⟨a, by simp, by assumption⟩
    · cases hr : neighbor_list_find rest p with
      | none => simp [hr] at h
      | some j =>
        simp [hr] at h
        subst h
        obtain ⟨n, hn, hp⟩ := ih hr
        exact ⟨n, by simpa using hn, hp⟩

theorem neighbor_list_find_none {l : List neighbor_list_node} {p : Nat}
    (h : neighbor_list_find l p = none) : ∀ n ∈ l, n.port ≠ p := by
  induction l with
  | nil => simp
  | cons a rest ih =>
    unfold neighbor_list_find at h
    split at h
    · cases h
    · intro n hn
      rcases List.mem_cons.mp hn with rfl | hn
      · assumption
      · exact ih (by simpa using h) n hn

/-- The search only looks at the ports of the records. -/
theorem neighbor_list_find_congr {l1 l2 : List neighbor_list_node}
    (h : l1.map neighbor_list_node.port = l2.map neighbor_list_node.port) (p : Nat) :
    neighbor_list_find l1 p = neighbor_list_find l2 p := by
  induction l1 generalizing l2 with
  | nil =>
    cases l2 with
    | nil => rfl
    | cons b r2 => simp at h
  | cons a r1 ih =>
    cases l2 with
    | nil => simp at h
    | cons b r2 =>
      simp only [List.map_cons, List.cons.injEq] at h
      simp only [neighbor_list_find, h.1, ih h.2]

theorem map_set_of_eq {α β : Type} (f : α → β) {l : List α} {k : Nat} {n x : α}
    (hk : l[k]? = some n) (hx : f x = f n) : (l.set k x).map f = l.map f := by
  have hi := lt_of_getElem? hk
  rw [List.getElem?_eq_getElem hi] at hk
  cases hk
  rw [List.map_set, hx]
  apply List.ext_getElem
  · simp
  · intro m h1 h2
    rw [List.getElem_set]
    by_cases hin : k = m
    · subst hin; simp
    · simp [hin]

/-! ## `handle_dv_packet` -/

/-- A datagram is either rejected, leaving the state as it was, or the record of
the sender takes the received DV and the Bellman-Ford part runs. -/
theorem handle_dv_packet_cases (s : State) (S : Nat) (buffer : List Nat) (L : Nat) :
    handle_dv_packet s S buffer L = (-1, s) ∨
    ∃ k n, neighbor_list_find s.my_neighbor_list_head S = some k ∧
      s.my_neighbor_list_head[k]? = some n ∧ n.port = S ∧ L % SIZEOF_DV_ENTRY = 0 ∧
      (((L / SIZEOF_DV_ENTRY : Nat) : Int) - 1 ≤ (DV_CAPACITY : Int)) ∧
      handle_dv_packet s S buffer L =
        bellman_ford_update
          (State.mk s.my_port s.my_dv (s.my_neighbor_list_head.set k
              (neighbor_list_node.mk n.port n.cost
                (received_dv buffer (((L / SIZEOF_DV_ENTRY : Nat) : Int) - 1)))))
          S (neighbor_list_node.mk n.port n.cost
                (received_dv buffer (((L / SIZEOF_DV_ENTRY : Nat) : Int) - 1))) := by
  by_cases h1 : L % SIZEOF_DV_ENTRY ≠ 0
  · left
    rw [handle_dv_packet, if_pos h1]
  · rw [handle_dv_packet, if_neg h1]
    cases hf : neighbor_list_find s.my_neighbor_list_head S with
    | none =>
      left
      rfl
    | some k =>
      obtain ⟨n, hn, hp⟩ := neighbor_list_find_some hf
      have hg : s.my_neighbor_list_head.getD k default = n := by
        simp [List.getD_eq_getElem?_getD, hn]
      by_cases h2 : (((L / SIZEOF_DV_ENTRY : Nat) : Int) - 1 > (DV_CAPACITY : Int))
      · left
        simp only [h2, if_true]
      · right
        refine ⟨k, n, rfl, hn, hp, by simpa using h1, by omega, ?_⟩
        simp only [h2, if_false, hg]

theorem bellman_ford_update_my_port (s : State) (S : Nat) (sender : neighbor_list_node) :
    (bellman_ford_update s S sender).2.my_port = s.my_port := by
  simp only [bellman_ford_update, bellman_ford_decrease_my_port]
  exact decrease_pass_induct (fun s' => s'.my_port = s.my_port) S sender sender.dv
    (fun s' e _ h => by simpa only [bellman_ford_decrease_my_port] using h) _ _ rfl

theorem bellman_ford_update_neighbors (s : State) (S : Nat) (sender : neighbor_list_node) :
    (bellman_ford_update s S sender).2.my_neighbor_list_head = s.my_neighbor_list_head := by
  simp only [bellman_ford_update, bellman_ford_decrease_neighbors]
  exact decrease_pass_induct
    (fun s' => s'.my_neighbor_list_head = s.my_neighbor_list_head) S sender sender.dv
    (fun s' e _ h => by simpa only [bellman_ford_decrease_neighbors] using h) _ _ rfl

/-- A property of the own DV that is kept by the four table writes of the
Bellman-Ford part holds after it. -/
theorem bellman_ford_update_induct (Q : List dv_entry → Prop) (s : State) (S : Nat)
    (sender : neighbor_list_node)
    (hscan : ∀ (dv : List dv_entry) (i : Nat) (a : dv_entry) (m : Nat)
      (n : neighbor_list_node) (j : Nat) (ne : dv_entry), Q dv → dv[i]? = some a →
      s.my_neighbor_list_head[m]? = some n → dv_find n.dv a.dest_port = some j →
      n.dv[j]? = some ne → u32 (ne.cost + n.cost) < MAX_POSSIBLE_COST →
      Q (dv.set i (dv_entry.mk a.dest_port n.port (u32 (ne.cost + n.cost)))))
    (hdel : ∀ (dv : List dv_entry) (i : Nat) (a : dv_entry), Q dv → dv[i]? = some a →
      Q (swap_delete dv i))
    (happ : ∀ (dv : List dv_entry) (d c : Nat), Q dv → d ≠ s.my_port → dv_find dv d = none → c < MAX_POSSIBLE_COST →
      dv.length < DV_CAPACITY → relax_source S sender d c → Q (dv ++ [dv_entry.mk d S c]))
    (hset : ∀ (dv : List dv_entry) (i : Nat) (a : dv_entry) (c : Nat), Q dv →
      dv[i]? = some a → a.dest_port ≠ s.my_port →
      c < MAX_POSSIBLE_COST → c < a.cost → relax_source S sender a.dest_port c →
      Q (dv.set i (dv_entry.mk a.dest_port S c)))
    (h0 : Q s.my_dv) : Q (bellman_ford_update s S sender).2.my_dv := by
  have relax : ∀ (s' : State) (d c : Nat), s'.my_port = s.my_port → Q s'.my_dv →
      relax_source S sender d c →
      (bellman_ford_decrease s' d S c).2.my_port = s.my_port ∧
        Q (bellman_ford_decrease s' d S c).2.my_dv := by
    intro s' d c hp hq hsrc
    refine ⟨by rw [bellman_ford_decrease_my_port]; exact hp, ?_⟩
    rcases bellman_ford_decrease_cases s' d S c with
      ⟨_, hr⟩ | ⟨_, _, _, hr⟩ | ⟨_, _, _, _, hr⟩ | ⟨hd, hf, hc, hl, hr⟩ |
      ⟨i, a, _, _, ha, _, _, hr⟩ | ⟨i, a, hd, _, ha, had, hc, hlt, hr⟩ |
      ⟨_, _, _, _, _, _, _, _, hr⟩ <;> rw [hr]
    · exact hq
    · exact hq
    · exact hq
    · exact happ _ d c hq (by rw [← hp]; exact hd) hf hc hl hsrc
    · exact hdel _ i a hq ha
    · have := hset _ i a c hq ha (by rw [had, ← hp]; exact hd) hc hlt (by rw [had]; exact hsrc)
      rw [had] at this
      exact this
    · exact hq
  have h1 : Q (increase_pass S sender s.my_neighbor_list_head s.my_dv.length 0 s.my_dv 0).1 := by
    refine increase_pass_induct S sender s.my_neighbor_list_head (fun _ dv _ => Q dv)
      (fun dv _ => Q dv) ?_ ?_ ?_ ?_ s.my_dv.length 0 s.my_dv 0 (by omega) h0
    · intro i dv cc a _ hq _
      exact hq
    · intro i dv cc a ha hq _ _ _ hr hm
      rcases scan_neighbors_spec s.my_neighbor_list_head a.dest_port scan_init with h | h
      · rw [h] at hr
        simp [scan_init] at hr
      · obtain ⟨_, m, n, j, ne, hn, hj, hne, hmin, hbest⟩ := h
        rw [hmin, hbest]
        rw [hmin] at hm
        exact hscan dv i a m n j ne hq ha hn hj hne hm
    · intro i dv cc a ha hq _ _ _ _
      exact hdel dv i a hq ha
    · intro i dv cc _ hq
      exact hq
  have h2 := decrease_pass_induct (fun s' => s'.my_port = s.my_port ∧ Q s'.my_dv) S sender
    sender.dv (fun s' e he hq => relax s' e.dest_port _ hq.1 hq.2 (Or.inr ⟨e, he, rfl, rfl⟩))
    { s with my_dv :=
        (increase_pass S sender s.my_neighbor_list_head s.my_dv.length 0 s.my_dv 0).1 }
    (increase_pass S sender s.my_neighbor_list_head s.my_dv.length 0 s.my_dv 0).2 ⟨rfl, h1⟩
  exact (relax _ S sender.cost h2.1 h2.2 (Or.inl ⟨rfl, rfl⟩)).2

theorem caches_ok_set {l : List neighbor_list_node} {k : Nat} {n : neighbor_list_node}
    (D : List dv_entry) (hk : l[k]? = some n) (hf : neighbor_list_find l n.port = some k)
    (h : caches_ok l) : caches_ok (l.set k (neighbor_list_node.mk n.port n.cost D)) := by
  intro m x hm hx
  have hports : (l.set k (neighbor_list_node.mk n.port n.cost D)).map neighbor_list_node.port
      = l.map neighbor_list_node.port := map_set_of_eq _ hk rfl
  rw [neighbor_list_find_congr hports]
  rw [List.getElem?_set] at hm
  by_cases hkm : k = m
  · subst hkm
    simp only [if_true, lt_of_getElem? hk] at hm
    cases hm
    exact hf
  · simp only [hkm, if_false] at hm
    exact h m x hm hx

theorem bellman_ford_update_table_ok (s : State) (S : Nat) (sender : neighbor_list_node)
    (hS : S ∈ s.my_neighbor_list_head.map neighbor_list_node.port) (h : table_ok s) :
    table_ok (bellman_ford_update s S sender).2 := by
  unfold table_ok
  rw [bellman_ford_update_my_port, bellman_ford_update_neighbors]
  refine bellman_ford_update_induct
    (fun dv => (∀ e ∈ dv, e.cost < MAX_POSSIBLE_COST ∧ e.dest_port ≠ s.my_port ∧
        e.first_hop_port ∈ s.my_neighbor_list_head.map neighbor_list_node.port) ∧
      (dv.map dv_entry.dest_port).Nodup ∧ dv.length ≤ DV_CAPACITY) s S sender ?_ ?_ ?_ ?_ h
  · intro dv i a m n j ne hq ha hn _ _ hc
    refine ⟨?_, nodup_set_same_dest ha rfl hq.2.1, by simpa using hq.2.2⟩
    intro e he
    rcases List.mem_or_eq_of_mem_set he with he | he
    · exact hq.1 e he
    · rw [he]
      exact ⟨hc, (hq.1 a (mem_of_getElem? ha)).2.1,
        List.mem_map.mpr ⟨n, mem_of_getElem? hn, rfl⟩⟩
  · intro dv i a hq ha
    refine ⟨fun e he => hq.1 e (mem_of_mem_swap_delete he),
      nodup_swap_delete (lt_of_getElem? ha) hq.2.1, ?_⟩
    rw [length_swap_delete]
    omega
  · intro dv d c hq hd hf hc hl _
    refine ⟨?_, nodup_append_new hf hq.2.1, ?_⟩
    · intro e he
      rcases List.mem_append.mp he with he | he
      · exact hq.1 e he
      · rw [List.mem_singleton.mp he]
        exact ⟨hc, hd, hS⟩
    · simp only [List.length_append, List.length_singleton]
      omega
  · intro dv i a c hq ha hd hc _ _
    refine ⟨?_, nodup_set_same_dest ha rfl hq.2.1, by simpa using hq.2.2⟩
    intro e he
    rcases List.mem_or_eq_of_mem_set he with he | he
    · exact hq.1 e he
    · rw [he]
      exact ⟨hc, hd, hS⟩

theorem startup_inv {s : State} (h : startup s) : Inv s := by
  refine ⟨⟨?_, ?_, ?_⟩, ?_⟩
  · rw [h.1]; simp
  · rw [h.1]; simp
  · rw [h.1]; simp
  · intro m n hm hn
    exact absurd (h.2 n (mem_of_getElem? hm)) hn

theorem handle_dv_packet_inv (s : State) (S : Nat) (buffer : List Nat) (L : Nat) (h : Inv s) :
    Inv (handle_dv_packet s S buffer L).2 := by
  rcases handle_dv_packet_cases s S buffer L with hr | ⟨k, n, hf, hn, hp, _, _, hr⟩
  · rw [hr]; exact h
  · rw [hr]
    have hports : (s.my_neighbor_list_head.set k (neighbor_list_node.mk n.port n.cost
        (received_dv buffer (((L / SIZEOF_DV_ENTRY : Nat) : Int) - 1)))).map
          neighbor_list_node.port = s.my_neighbor_list_head.map neighbor_list_node.port :=
      map_set_of_eq _ hn rfl
    refine ⟨?_, ?_⟩
    · apply bellman_ford_update_table_ok
      · show S ∈ (s.my_neighbor_list_head.set k _).map neighbor_list_node.port
        rw [hports]
        exact List.mem_map.mpr ⟨n, mem_of_getElem? hn, hp⟩
      · unfold table_ok
        simp only [hports]
        exact h.1
    · rw [bellman_ford_update_neighbors]
      exact caches_ok_set _ hn (by rw [hp]; exact hf) h.2

theorem handle_killed_packet_inv (s : State) (S : Nat) (h : Inv s) :
    Inv (handle_killed_packet s S).1 := by
  unfold handle_killed_packet
  cases hf : neighbor_list_find s.my_neighbor_list_head S with
  | none => exact h
  | some k =>
    simp only
    cases hd : dv_find s.my_dv (s.my_neighbor_list_head.getD k default).port with
    | none => exact h
    | some i =>
      simp only
      have h1 := handle_dv_packet_inv s S (List.replicate SIZEOF_DV_ENTRY 0) SIZEOF_DV_ENTRY h
      cases hd2 : dv_find (handle_dv_packet s S (List.replicate SIZEOF_DV_ENTRY 0)
          SIZEOF_DV_ENTRY).2.my_dv (s.my_neighbor_list_head.getD k default).port with
      | none => exact h1
      | some i2 =>
        simp only
        obtain ⟨a, ha, _⟩ := dv_find_some hd2
        refine ⟨⟨fun e he => h1.1.1 e (mem_of_mem_swap_delete he),
          nodup_swap_delete (lt_of_getElem? ha) h1.1.2.1, ?_⟩, h1.2⟩
        show (swap_delete _ i2).length ≤ DV_CAPACITY
        rw [length_swap_delete]
        have := h1.1.2.2
        omega

theorem apply_call_inv (s : State) (c : Call) (h : Inv s) : Inv (apply_call s c) := by
  cases c with
  | dv S buffer L => exact handle_dv_packet_inv s S buffer L h
  | killed S => exact handle_killed_packet_inv s S h
  | data S buffer => exact h

theorem run_calls_inv (s : State) (cs : List Call) (h : Inv s) : Inv (run_calls s cs) := by
  induction cs generalizing s with
  | nil => exact h
  | cons c cs ih => exact ih _ (apply_call_inv s c h)

/-- What `server_loop` does to the routing state is what one handler call does,
or nothing. -/
theorem server_loop_state (s : State) (b : Int) (S : Nat) (buffer : List Nat) :
    (server_loop s b S buffer).1 = s ∨ ∃ c, (server_loop s b S buffer).1 = apply_call s c := by
  unfold server_loop
  split
  · left; rfl
  · split
    · left; rfl
    · split
      · left; rfl
      · split
        · right
          refine ⟨Call.dv S buffer b.toNat, ?_⟩
          simp only [apply_call]
          split <;> rfl
        · split
          · right
            exact ⟨Call.killed S, rfl⟩
          · split
            · right
              refine ⟨Call.dv S buffer b.toNat, ?_⟩
              simp only [apply_call]
              split <;> rfl
            · left; rfl

theorem run_server_eq_run_calls (s : State) (rs : List Received) :
    ∃ cs, run_server s rs = run_calls s cs := by
  induction rs generalizing s with
  | nil => exact ⟨[], rfl⟩
  | cons r rs ih =>
    simp only [run_server]
    rcases server_loop_state s r.bytes_received r.sender_port r.buffer with h | ⟨c, h⟩
    · rw [h]
      exact ih s
    · rw [h]
      obtain ⟨cs, hcs⟩ := ih (apply_call s c)
      exact ⟨c :: cs, by rw [hcs]; rfl⟩

theorem run_server_inv (s : State) (rs : List Received) (h : Inv s) : Inv (run_server s rs) := by
  obtain ⟨cs, hcs⟩ := run_server_eq_run_calls s rs
  rw [hcs]
  exact run_calls_inv s cs h

/-! ## Invariants of the reachable states -/

/-- C1 (cost bound): in every state reached from a startup state by any sequence
of `handle_dv_packet`, `handle_killed_packet` and `handle_data_packet` calls, with
any sender ports and any datagram contents, every entry of the own DV has a cost
below `MAX_POSSIBLE_COST = 64`. -/
theorem cost_bound_invariant (s0 : State) (calls : List Call) (e : dv_entry)
    (h0 : startup s0) (he : e ∈ (run_calls s0 calls).my_dv) :
    e.cost < MAX_POSSIBLE_COST :=
  ((run_calls_inv s0 calls (startup_inv h0)).1.1 e he).1

theorem cost_bound_invariant_witness :
    startup example_start ∧
      dv_entry.mk 10003 10001 3 ∈
        (run_calls example_start [Call.dv 10001 example_dv_buffer 16]).my_dv ∧
      (dv_entry.mk 10003 10001 3).cost < MAX_POSSIBLE_COST :=
  ⟨by simp [startup, example_start], by decide,
    cost_bound_invariant example_start [Call.dv 10001 example_dv_buffer 16]
      (dv_entry.mk 10003 10001 3) (by simp [startup, example_start]) (by decide)⟩

/-- C2 (first hop): in every state reached from a startup state by any sequence
of received datagrams, every entry of the own DV has as first hop the port of
some record of the neighbour list. -/
theorem first_hop_invariant (s0 : State) (rs : List Received) (e : dv_entry)
    (h0 : startup s0) (he : e ∈ (run_server s0 rs).my_dv) :
    ∃ n ∈ (run_server s0 rs).my_neighbor_list_head, n.port = e.first_hop_port := by
  obtain ⟨n, hn, hp⟩ := List.mem_map.mp ((run_server_inv s0 rs (startup_inv h0)).1.1 e he).2.2
  exact ⟨n, hn, hp⟩

theorem first_hop_invariant_witness :
    startup example_start ∧
      dv_entry.mk 10003 10001 3 ∈
        (run_server example_start [⟨16, 10001, example_dv_buffer⟩]).my_dv ∧
      ∃ n ∈ (run_server example_start [⟨16, 10001, example_dv_buffer⟩]).my_neighbor_list_head,
        n.port = (dv_entry.mk 10003 10001 3).first_hop_port :=
  ⟨by simp [startup, example_start], by decide,
    first_hop_invariant example_start [⟨16, 10001, example_dv_buffer⟩]
      (dv_entry.mk 10003 10001 3) (by simp [startup, example_start]) (by decide)⟩

/-- C3 (unique key): in every state reached from a startup state by any sequence
of received datagrams, no two entries of the own DV have the same `dest_port`. -/
theorem unique_key_invariant (s0 : State) (rs : List Received) (h0 : startup s0) :
    (run_server s0 rs).my_dv.Pairwise (fun a b => a.dest_port ≠ b.dest_port) := by
  have h := (run_server_inv s0 rs (startup_inv h0)).1.2.1
  exact (List.pairwise_map).mp h

theorem unique_key_invariant_witness :
    startup example_start ∧
      (run_server example_start [⟨16, 10001, example_dv_buffer⟩]).my_dv.Pairwise
        (fun a b => a.dest_port ≠ b.dest_port) :=
  ⟨by simp [startup, example_start],
    unique_key_invariant example_start [⟨16, 10001, example_dv_buffer⟩]
      (by simp [startup, example_start])⟩

/-- C4 (no self entry): in every state reached from a startup state by any
sequence of received datagrams, also when a DV advertises the router's own port
or a neighbour record carries it, no entry of the own DV has `dest_port` equal
to `my_port`. -/
theorem no_self_entry_invariant (s0 : State) (rs : List Received) (e : dv_entry)
    (h0 : startup s0) (he : e ∈ (run_server s0 rs).my_dv) :
    e.dest_port ≠ (run_server s0 rs).my_port :=
  ((run_server_inv s0 rs (startup_inv h0)).1.1 e he).2.1

theorem no_self_entry_invariant_witness :
    startup example_start_self ∧
      dv_entry.mk 10003 10001 3 ∈
        (run_server example_start_self [⟨24, 10001, example_dv_buffer_self⟩,
          ⟨24, 10002, example_dv_buffer_self⟩]).my_dv ∧
      (dv_entry.mk 10003 10001 3).dest_port ≠
        (run_server example_start_self [⟨24, 10001, example_dv_buffer_self⟩,
          ⟨24, 10002, example_dv_buffer_self⟩]).my_port :=
  ⟨by simp [startup, example_start_self], by decide,
    no_self_entry_invariant example_start_self [⟨24, 10001, example_dv_buffer_self⟩,
        ⟨24, 10002, example_dv_buffer_self⟩]
      (dv_entry.mk 10003 10001 3) (by simp [startup, example_start_self]) (by decide)⟩

/-- C5 (capacity): in every state reached from a startup state by any sequence
of received datagrams, `0 <= my_dv_length <= DV_CAPACITY = 16`. -/
theorem capacity_invariant (s0 : State) (rs : List Received) (h0 : startup s0) :
    0 ≤ (run_server s0 rs).my_dv.length ∧ (run_server s0 rs).my_dv.length ≤ DV_CAPACITY :=
  ⟨Nat.zero_le _, (run_server_inv s0 rs (startup_inv h0)).1.2.2⟩

theorem capacity_invariant_witness :
    startup example_start ∧
      0 ≤ (run_server example_start [⟨16, 10001, example_dv_buffer⟩]).my_dv.length ∧
      (run_server example_start [⟨16, 10001, example_dv_buffer⟩]).my_dv.length ≤ DV_CAPACITY :=
  ⟨by simp [startup, example_start],
    capacity_invariant example_start [⟨16, 10001, example_dv_buffer⟩]
      (by simp [startup, example_start])⟩

/-! ## Relaxation against the specification -/

theorem dv_find_eq_indexOf (dv : List dv_entry) (d : Nat) :
    dv_find dv d =
      if (dv.map dv_entry.dest_port).indexOf d < dv.length
      then some ((dv.map dv_entry.dest_port).indexOf d) else none := by
  induction dv with
  | nil => simp [dv_find]
  | cons a rest ih =>
    by_cases h : a.dest_port = d
    · simp [dv_find, h, List.indexOf_cons]
    · have hne : (a.dest_port == d) = false := by simpa using h
      simp only [dv_find, h, if_false, ih, List.map_cons, List.indexOf_cons, hne, cond_false,
        List.length_cons, Nat.add_lt_add_iff_right]
      split <;> simp

theorem swap_delete_eq_spec_remove (dv : List dv_entry) {i : Nat} (hi : i < dv.length) :
    swap_delete dv i = spec_remove dv i := by
  unfold swap_delete spec_remove
  have hl : dv.getD (dv.length - 1) default = dv[dv.length - 1] :=
    List.getD_eq_getElem _ _ (by omega)
  rw [List.set_eq_take_append_cons_drop, if_pos hi, List.take_append_eq_append_take,
    List.take_take, List.length_take]
  have h1 : min (dv.length - 1) i = i := by omega
  have h2 : min i dv.length = i := by omega
  rw [h1, h2]
  by_cases hlast : i + 1 = dv.length
  · rw [if_pos hlast]
    have : dv.length - 1 - i = 0 := by omega
    rw [this]
    simp
  · rw [if_neg hlast]
    have h3 : dv.length - 1 - i = (dv.length - 2 - i) + 1 := by omega
    rw [h3, List.take_succ_cons, List.getLast?_eq_getElem?,
      List.getElem?_eq_getElem (by omega : dv.length - 1 < dv.length), hl,
      List.dropLast_eq_take, List.length_drop]
    have h4 : dv.length - (i + 1) - 1 = dv.length - 2 - i := by omega
    rw [h4]
    simp

/-- C9: `bellman_ford_decrease` is the relax primitive of the specification on
every state.  The state afterwards is the one `relax_spec` gives (nothing for
`dest == my_port`; without an entry nothing for `c_via >= 64` or a full table and
otherwise `(dest, via, c_via)` appended; with an entry `E` removal by moving the
last entry into its slot for `c_via >= 64`, `E` rewritten to `(dest, via, c_via)`
with all other slots untouched for `c_via < E.cost`, nothing otherwise); the
return value is 1 exactly when the specification reports a change and is never
positive otherwise, and it is 0 when an existing entry is kept as it is. -/
theorem bellman_ford_decrease_eq_relax_spec (s : State) (dest via c_via : Nat) :
    (bellman_ford_decrease s dest via c_via).2 = (relax_spec s dest via c_via).2 ∧
    ((relax_spec s dest via c_via).1 = true → (bellman_ford_decrease s dest via c_via).1 = 1) ∧
    ((relax_spec s dest via c_via).1 = false →
      (bellman_ford_decrease s dest via c_via).1 ≤ 0) ∧
    ((relax_spec s dest via c_via).1 = false → s.my_dv.length < DV_CAPACITY →
      (bellman_ford_decrease s dest via c_via).1 = 0) ∧
    ((relax_spec s dest via c_via).1 = false →
      (∃ e ∈ s.my_dv, e.dest_port = dest) → (bellman_ford_decrease s dest via c_via).1 = 0) := by
  have hidx := dv_find_eq_indexOf s.my_dv dest
  rcases bellman_ford_decrease_cases s dest via c_via with
    ⟨hp, hr⟩ | ⟨hp, hf, hc, hr⟩ | ⟨hp, hf, hc, hl, hr⟩ | ⟨hp, hf, hc, hl, hr⟩ |
    ⟨i, a, hp, hf, ha, had, hc, hr⟩ | ⟨i, a, hp, hf, ha, had, hc, hlt, hr⟩ |
    ⟨i, a, hp, hf, ha, had, hc, hle, hr⟩
  · rw [hr]
    simp [relax_spec, hp]
  · rw [hf] at hidx
    have hno : s.my_dv.length ≤ (s.my_dv.map dv_entry.dest_port).indexOf dest := by
      by_contra hcon
      rw [if_pos (by omega)] at hidx
      cases hidx
    rw [hr]
    simp [relax_spec, hp, hno, hc]
  · rw [hf] at hidx
    have hno : s.my_dv.length ≤ (s.my_dv.map dv_entry.dest_port).indexOf dest := by
      by_contra hcon
      rw [if_pos (by omega)] at hidx
      cases hidx
    have hc' : ¬ MAX_POSSIBLE_COST ≤ c_via := by omega
    rw [hr]
    simp only [relax_spec, hp, hno, hc', hl, if_true, if_false]
    refine ⟨trivial, by simp, by simp, ?_, ?_⟩
    · intro _ hlt
      omega
    · rintro _ ⟨e, he, hed⟩
      exact absurd hed (dv_find_none hf e he)
  · rw [hf] at hidx
    have hno : s.my_dv.length ≤ (s.my_dv.map dv_entry.dest_port).indexOf dest := by
      by_contra hcon
      rw [if_pos (by omega)] at hidx
      cases hidx
    have hc' : ¬ MAX_POSSIBLE_COST ≤ c_via := by omega
    have hl' : ¬ DV_CAPACITY ≤ s.my_dv.length := by omega
    rw [hr]
    simp [relax_spec, hp, hno, hc', hl']
  · rw [hf] at hidx
    have hil := lt_of_getElem? ha
    have hslot : (s.my_dv.map dv_entry.dest_port).indexOf dest = i := by
      by_cases hcon : (s.my_dv.map dv_entry.dest_port).indexOf dest < s.my_dv.length
      · rw [if_pos hcon] at hidx
        exact (Option.some.inj hidx).symm
      · rw [if_neg hcon] at hidx
        cases hidx
    have hno : ¬ s.my_dv.length ≤ i := by omega
    rw [hr]
    simp [relax_spec, hp, hslot, hno, hc, swap_delete_eq_spec_remove s.my_dv hil]
  · rw [hf] at hidx
    have hil := lt_of_getElem? ha
    have hslot : (s.my_dv.map dv_entry.dest_port).indexOf dest = i := by
      by_cases hcon : (s.my_dv.map dv_entry.dest_port).indexOf dest < s.my_dv.length
      · rw [if_pos hcon] at hidx
        exact (Option.some.inj hidx).symm
      · rw [if_neg hcon] at hidx
        cases hidx
    have hno : ¬ s.my_dv.length ≤ i := by omega
    have hc' : ¬ MAX_POSSIBLE_COST ≤ c_via := by omega
    have hg := getD_of_getElem? ha
    rw [hr]
    simp only [relax_spec, hp, hslot, hno, hc', hg, hlt, if_true, if_false]
    refine ⟨?_, by simp, by simp, by simp, by simp⟩
    rw [List.set_eq_take_append_cons_drop, if_pos hil]
    simp
  · rw [hf] at hidx
    have hil := lt_of_getElem? ha
    have hslot : (s.my_dv.map dv_entry.dest_port).indexOf dest = i := by
      by_cases hcon : (s.my_dv.map dv_entry.dest_port).indexOf dest < s.my_dv.length
      · rw [if_pos hcon] at hidx
        exact (Option.some.inj hidx).symm
      · rw [if_neg hcon] at hidx
        cases hidx
    have hno : ¬ s.my_dv.length ≤ i := by omega
    have hc' : ¬ MAX_POSSIBLE_COST ≤ c_via := by omega
    have hlt : ¬ c_via < a.cost := by omega
    rw [hr]
    simp [relax_spec, hp, hslot, hno, hc', ha, hlt]

/-! ## Relaxation never worsens a cost -/

theorem dv_lookup_eq_some_iff {dv : List dv_entry} (hn : (dv.map dv_entry.dest_port).Nodup)
    (x : Nat) (e : dv_entry) : dv_lookup dv x = some e ↔ e ∈ dv ∧ e.dest_port = x := by
  unfold dv_lookup
  constructor
  · intro h
    cases hf : dv_find dv x with
    | none => simp [hf] at h
    | some i =>
      obtain ⟨a, ha, had⟩ := dv_find_some hf
      rw [hf, Option.map_some', getD_of_getElem? ha] at h
      cases h
      exact ⟨mem_of_getElem? ha, had⟩
  · rintro ⟨he, hd⟩
    cases hf : dv_find dv x with
    | none => exact absurd hd (dv_find_none hf e he)
    | some i =>
      obtain ⟨a, ha, had⟩ := dv_find_some hf
      rw [Option.map_some', getD_of_getElem? ha]
      exact congrArg some (eq_of_dest_eq hn (mem_of_getElem? ha) he (by rw [had, hd]))

/-- Two tables with distinct destinations that hold the same entries for `x`
give the same lookup for `x`. -/
theorem dv_lookup_congr {dv dv' : List dv_entry} (hn : (dv.map dv_entry.dest_port).Nodup)
    (hn' : (dv'.map dv_entry.dest_port).Nodup) (x : Nat)
    (h : ∀ e, e.dest_port = x → (e ∈ dv' ↔ e ∈ dv)) : dv_lookup dv' x = dv_lookup dv x := by
  apply Option.ext
  intro e
  simp only [Option.mem_def]
  rw [dv_lookup_eq_some_iff hn', dv_lookup_eq_some_iff hn]
  constructor
  · rintro ⟨he, hd⟩
    exact ⟨(h e hd).mp he, hd⟩
  · rintro ⟨he, hd⟩
    exact ⟨(h e hd).mpr he, hd⟩

theorem mem_set_of_ne {dv : List dv_entry} {i m : Nat} {e y : dv_entry}
    (hm : dv[m]? = some e) (hne : m ≠ i) : e ∈ dv.set i y := by
  apply mem_of_getElem? (i := m)
  rw [List.getElem?_set]
  have hne' : ¬ i = m := fun h => hne h.symm
  simp [hne', hm]

/-- A relaxation for `d` neither adds nor removes an entry of another destination. -/
theorem bellman_ford_decrease_mem_other (s : State) (d v c : Nat) (e : dv_entry)
    (hex : e.dest_port ≠ d) :
    e ∈ (bellman_ford_decrease s d v c).2.my_dv ↔ e ∈ s.my_dv := by
  rcases bellman_ford_decrease_cases s d v c with
    ⟨_, hr⟩ | ⟨_, _, _, hr⟩ | ⟨_, _, _, _, hr⟩ | ⟨_, _, _, _, hr⟩ |
    ⟨i, a, _, _, ha, had, _, hr⟩ | ⟨i, a, _, _, ha, had, _, _, hr⟩ |
    ⟨_, _, _, _, _, _, _, _, hr⟩ <;> rw [hr]
  · simp only [List.mem_append, List.mem_singleton]
    constructor
    · rintro (h | h)
      · exact h
      · rw [h] at hex
        exact absurd rfl hex
    · exact Or.inl
  · simp only
    rw [mem_swap_delete_iff _ (lt_of_getElem? ha)]
    constructor
    · rintro ⟨m, _, hm⟩
      exact mem_of_getElem? hm
    · intro he
      obtain ⟨m, hm, rfl⟩ := List.mem_iff_getElem.mp he
      refine ⟨m, ?_, List.getElem?_eq_getElem hm⟩
      rintro rfl
      rw [List.getElem?_eq_getElem hm] at ha
      cases ha
      exact hex had
  · simp only
    constructor
    · intro he
      rcases List.mem_or_eq_of_mem_set he with h | h
      · exact h
      · rw [h] at hex
        exact absurd rfl hex
    · intro he
      obtain ⟨m, hm, rfl⟩ := List.mem_iff_getElem.mp he
      apply mem_set_of_ne (List.getElem?_eq_getElem hm)
      rintro rfl
      rw [List.getElem?_eq_getElem hm] at ha
      cases ha
      exact hex had

/-- A relaxation for `d` leaves the lookup of every other destination as it was. -/
theorem bellman_ford_decrease_lookup_other (s : State) (d v c x : Nat)
    (hn : (s.my_dv.map dv_entry.dest_port).Nodup) (hx : x ≠ d) :
    dv_lookup (bellman_ford_decrease s d v c).2.my_dv x = dv_lookup s.my_dv x := by
  apply dv_lookup_congr hn (bellman_ford_decrease_nodup s d v c hn)
  intro e hex
  exact bellman_ford_decrease_mem_other s d v c e (by rw [hex]; exact hx)

/-- Every entry for `d` left by a relaxation for `d` is an entry from before, or
costs less than one from before, or is the first entry for `d`. -/
theorem bellman_ford_decrease_mem_dest (s : State) (d v c : Nat) (ea : dv_entry)
    (hea : ea ∈ (bellman_ford_decrease s d v c).2.my_dv) (hd : ea.dest_port = d)
    (hex : ∃ e ∈ s.my_dv, e.dest_port = d) :
    ∃ eb ∈ s.my_dv, eb.dest_port = d ∧ ea.cost ≤ eb.cost := by
  rcases bellman_ford_decrease_cases s d v c with
    ⟨_, hr⟩ | ⟨_, _, _, hr⟩ | ⟨_, _, _, _, hr⟩ | ⟨_, hf, _, _, hr⟩ |
    ⟨i, a, _, _, ha, had, _, hr⟩ | ⟨i, a, _, _, ha, had, _, hlt, hr⟩ |
    ⟨_, _, _, _, _, _, _, _, hr⟩ <;> rw [hr] at hea
  · exact ⟨ea, hea, hd, Nat.le_refl _⟩
  · exact ⟨ea, hea, hd, Nat.le_refl _⟩
  · exact ⟨ea, hea, hd, Nat.le_refl _⟩
  · obtain ⟨e, he, hed⟩ := hex
    exact absurd hed (dv_find_none hf e he)
  · exact ⟨ea, mem_of_mem_swap_delete hea, hd, Nat.le_refl _⟩
  · rcases List.mem_or_eq_of_mem_set hea with h | h
    · exact ⟨ea, h, hd, Nat.le_refl _⟩
    · rw [h]
      exact ⟨a, mem_of_getElem? ha, had, Nat.le_of_lt hlt⟩
  · exact ⟨ea, hea, hd, Nat.le_refl _⟩

theorem bellman_ford_decrease_lookup_le (s : State) (dest via c_via x : Nat)
    (hn : (s.my_dv.map dv_entry.dest_port).Nodup) (eb ea : dv_entry)
    (hb : dv_lookup s.my_dv x = some eb)
    (ha : dv_lookup (bellman_ford_decrease s dest via c_via).2.my_dv x = some ea) :
    ea.cost ≤ eb.cost := by
  by_cases hx : x = dest
  · subst hx
    have hn' := bellman_ford_decrease_nodup s x via c_via hn
    rw [dv_lookup_eq_some_iff hn'] at ha
    rw [dv_lookup_eq_some_iff hn] at hb
    obtain ⟨e, he, hed, hle⟩ := bellman_ford_decrease_mem_dest s x via c_via ea ha.1 ha.2
      ⟨eb, hb.1, hb.2⟩
    rw [eq_of_dest_eq hn hb.1 he (by rw [hb.2, hed])]
    exact hle
  · rw [bellman_ford_decrease_lookup_other s dest via c_via x hn hx, hb] at ha
    cases ha
    exact Nat.le_refl _

/-- C10: relaxation never worsens a cost.  On every state and for every call
`bellman_ford_decrease(dest, via, c_via)`: the entries of destinations other than
`dest` are after the call exactly those from before, and an entry the call leaves
for a destination that had one before costs no more than an entry of that
destination before.  When the own DV is keyed uniquely by `dest_port`, this says
for the entry `dv_find` returns: a destination with an entry both before and
after has cost after `<=` cost before, and for a destination other than `dest`
the entry is unchanged. -/
theorem bellman_ford_decrease_never_worsens (s : State) (dest via c_via : Nat) :
    (∀ e : dv_entry, e.dest_port ≠ dest →
      (e ∈ (bellman_ford_decrease s dest via c_via).2.my_dv ↔ e ∈ s.my_dv)) ∧
    (∀ ea ∈ (bellman_ford_decrease s dest via c_via).2.my_dv,
      (∃ e ∈ s.my_dv, e.dest_port = ea.dest_port) →
      ∃ eb ∈ s.my_dv, eb.dest_port = ea.dest_port ∧ ea.cost ≤ eb.cost) ∧
    ((s.my_dv.map dv_entry.dest_port).Nodup → ∀ x : Nat,
      (∀ eb ea, dv_lookup s.my_dv x = some eb →
        dv_lookup (bellman_ford_decrease s dest via c_via).2.my_dv x = some ea →
        ea.cost ≤ eb.cost) ∧
      (x ≠ dest →
        dv_lookup (bellman_ford_decrease s dest via c_via).2.my_dv x = dv_lookup s.my_dv x)) := by
  refine ⟨bellman_ford_decrease_mem_other s dest via c_via, ?_, ?_⟩
  · intro ea hea hex
    by_cases hd : ea.dest_port = dest
    · rw [hd] at hex ⊢
      exact bellman_ford_decrease_mem_dest s dest via c_via ea hea hd hex
    · exact ⟨ea, (bellman_ford_decrease_mem_other s dest via c_via ea hd).mp hea, rfl,
        Nat.le_refl _⟩
  · intro hn x
    exact ⟨fun eb ea hb ha => bellman_ford_decrease_lookup_le s dest via c_via x hn eb ea hb ha,
      bellman_ford_decrease_lookup_other s dest via c_via x hn⟩

theorem bellman_ford_decrease_never_worsens_witness :
    (example_converged.my_dv.map dv_entry.dest_port).Nodup ∧
    dv_lookup example_converged.my_dv 10003 = some (dv_entry.mk 10003 10001 3) ∧
    dv_lookup (bellman_ford_decrease example_converged 10003 10003 2).2.my_dv 10003 =
      some (dv_entry.mk 10003 10003 2) ∧
    (dv_entry.mk 10003 10003 2).cost ≤ (dv_entry.mk 10003 10001 3).cost ∧
    dv_lookup (bellman_ford_decrease example_converged 10003 10003 2).2.my_dv 10001 =
      dv_lookup example_converged.my_dv 10001 :=
  ⟨by decide, by decide, by decide,
    ((bellman_ford_decrease_never_worsens example_converged 10003 10003 2).2.2 (by decide)
      10003).1 _ _ (by decide) (by decide),
    ((bellman_ford_decrease_never_worsens example_converged 10003 10003 2).2.2 (by decide)
      10001).2 (by decide)⟩

/-! ## Link costs -/

theorem link_cost_cons (n : neighbor_list_node) (rest : List neighbor_list_node) (p : Nat) :
    link_cost (n :: rest) p = if n.port = p then some n.cost else link_cost rest p := by
  unfold link_cost
  by_cases h : n.port = p
  · simp [neighbor_list_find, h]
  · simp only [neighbor_list_find, h, if_false]
    cases neighbor_list_find rest p with
    | none => rfl
    | some k => simp

theorem link_cost_congr {l1 l2 : List neighbor_list_node} (h : link_table l1 = link_table l2)
    (p : Nat) : link_cost l1 p = link_cost l2 p := by
  induction l1 generalizing l2 with
  | nil =>
    cases l2 with
    | nil => rfl
    | cons b r2 => simp [link_table] at h
  | cons a r1 ih =>
    cases l2 with
    | nil => simp [link_table] at h
    | cons b r2 =>
      simp only [link_table, List.map_cons, List.cons.injEq, Prod.mk.injEq] at h
      rw [link_cost_cons, link_cost_cons, h.1.1, h.1.2, ih h.2]

theorem link_cost_of_find {l : List neighbor_list_node} {p k : Nat} {n : neighbor_list_node}
    (hf : neighbor_list_find l p = some k) (hn : l[k]? = some n) :
    link_cost l p = some n.cost := by
  unfold link_cost
  rw [hf, Option.map_some']
  simp [List.getD_eq_getElem?_getD, hn]

theorem link_table_set {l : List neighbor_list_node} {k : Nat} {n : neighbor_list_node}
    (D : List dv_entry) (hn : l[k]? = some n) :
    link_table (l.set k (neighbor_list_node.mk n.port n.cost D)) = link_table l :=
  map_set_of_eq _ hn rfl

theorem handle_dv_packet_link_table (s : State) (S : Nat) (buffer : List Nat) (L : Nat) :
    link_table (handle_dv_packet s S buffer L).2.my_neighbor_list_head =
      link_table s.my_neighbor_list_head := by
  rcases handle_dv_packet_cases s S buffer L with hr | ⟨k, n, _, hn, _, _, _, hr⟩
  · rw [hr]
  · rw [hr, bellman_ford_update_neighbors]
    exact link_table_set _ hn

theorem handle_killed_packet_link_table (s : State) (S : Nat) :
    link_table (handle_killed_packet s S).1.my_neighbor_list_head =
      link_table s.my_neighbor_list_head := by
  unfold handle_killed_packet
  cases neighbor_list_find s.my_neighbor_list_head S with
  | none => rfl
  | some k =>
    simp only
    cases dv_find s.my_dv (s.my_neighbor_list_head.getD k default).port with
    | none => rfl
    | some i =>
      simp only
      split <;> exact handle_dv_packet_link_table s S _ _

/-- The three things `server_loop` can do to the routing state. -/
theorem server_loop_state_cases (s : State) (b : Int) (S : Nat) (buffer : List Nat) :
    (server_loop s b S buffer).1 = s ∨
    ((byte_at buffer 0 = DV_PACKET ∨ byte_at buffer 0 = INITIAL_DV_PACKET) ∧
      (server_loop s b S buffer).1 = (handle_dv_packet s S buffer b.toNat).2) ∨
    (server_loop s b S buffer).1 = (handle_killed_packet s S).1 := by
  unfold server_loop
  split
  · left; rfl
  · split
    · left; rfl
    · split
      · left; rfl
      · split
        · right; left
          refine ⟨Or.inl (by assumption), ?_⟩
          simp only
          split <;> rfl
        · split
          · right; right; rfl
          · split
            · right; left
              refine ⟨Or.inr (by assumption), ?_⟩
              simp only
              split <;> rfl
            · left; rfl

theorem server_loop_link_table (s : State) (b : Int) (S : Nat) (buffer : List Nat) :
    link_table (server_loop s b S buffer).1.my_neighbor_list_head =
      link_table s.my_neighbor_list_head := by
  rcases server_loop_state_cases s b S buffer with h | ⟨_, h⟩ | h <;> rw [h]
  · exact handle_dv_packet_link_table s S buffer _
  · exact handle_killed_packet_link_table s S

/-! ## The link-cost lower bound -/

theorem handle_dv_packet_link_bound (s : State) (S : Nat) (buffer : List Nat) (L : Nat)
    (hw : ∀ c, link_cost s.my_neighbor_list_head S = some c →
      ∀ e ∈ received_dv buffer (((L / SIZEOF_DV_ENTRY : Nat) : Int) - 1),
        c + e.cost < 4294967296)
    (h : link_bound_inv s) : link_bound_inv (handle_dv_packet s S buffer L).2 := by
  rcases handle_dv_packet_cases s S buffer L with hr | ⟨k, n, hf, hn, hp, _, _, hr⟩
  · rw [hr]; exact h
  · rw [hr]
    have hlt := link_table_set (received_dv buffer (((L / SIZEOF_DV_ENTRY : Nat) : Int) - 1)) hn
    have hcaches := caches_ok_set (received_dv buffer (((L / SIZEOF_DV_ENTRY : Nat) : Int) - 1))
      hn (by rw [hp]; exact hf) h.2.2
    have hkl := lt_of_getElem? hn
    have hnowrap : ∀ x ∈ s.my_neighbor_list_head.set k (neighbor_list_node.mk n.port n.cost
        (received_dv buffer (((L / SIZEOF_DV_ENTRY : Nat) : Int) - 1))),
        ∀ e ∈ x.dv, e.cost + x.cost < 4294967296 := by
      intro x hx e he
      rcases List.mem_or_eq_of_mem_set hx with hx | hx
      · exact h.2.1 x hx e he
      · rw [hx] at he ⊢
        have := hw n.cost (link_cost_of_find hf hn) e he
        simp only
        omega
    have hsender : link_cost (s.my_neighbor_list_head.set k (neighbor_list_node.mk n.port n.cost
        (received_dv buffer (((L / SIZEOF_DV_ENTRY : Nat) : Int) - 1)))) S = some n.cost := by
      rw [link_cost_congr hlt]
      exact link_cost_of_find hf hn
    have hsrc : ∀ d c, relax_source S (neighbor_list_node.mk n.port n.cost
        (received_dv buffer (((L / SIZEOF_DV_ENTRY : Nat) : Int) - 1))) d c → n.cost ≤ c := by
      rintro d c (⟨_, hc⟩ | ⟨e, he, _, hc⟩)
      · rw [hc]
      · rw [hc]
        have := hw n.cost (link_cost_of_find hf hn) e he
        simp only [u32]
        rw [Nat.mod_eq_of_lt this]
        omega
    refine ⟨?_, ?_, ?_⟩
    · rw [bellman_ford_update_neighbors]
      refine bellman_ford_update_induct
        (fun dv => ∀ e ∈ dv, ∃ c, link_cost (s.my_neighbor_list_head.set k
          (neighbor_list_node.mk n.port n.cost
            (received_dv buffer (((L / SIZEOF_DV_ENTRY : Nat) : Int) - 1)))) e.first_hop_port
              = some c ∧ c ≤ e.cost) _ S _ ?_ ?_ ?_ ?_ ?_
      · intro dv i a m x j ne hq ha hx hj hne _ e he
        rcases List.mem_or_eq_of_mem_set he with he | he
        · exact hq e he
        · rw [he]
          have hxne : x.dv ≠ [] := by
            intro hnil
            rw [hnil] at hne
            simp at hne
          refine ⟨x.cost, link_cost_of_find (hcaches m x hx hxne) hx, ?_⟩
          have := hnowrap x (mem_of_getElem? hx) ne (mem_of_getElem? hne)
          simp only [u32]
          rw [Nat.mod_eq_of_lt this]
          omega
      · intro dv i a hq _ e he
        exact hq e (mem_of_mem_swap_delete he)
      · intro dv d c hq _ _ _ _ hs e he
        rcases List.mem_append.mp he with he | he
        · exact hq e he
        · rw [List.mem_singleton.mp he]
          exact ⟨n.cost, hsender, hsrc d c hs⟩
      · intro dv i a c hq _ _ _ _ hs e he
        rcases List.mem_or_eq_of_mem_set he with he | he
        · exact hq e he
        · rw [he]
          exact ⟨n.cost, hsender, hsrc _ c hs⟩
      · intro e he
        obtain ⟨c, hc, hle⟩ := h.1 e he
        exact ⟨c, by rw [link_cost_congr hlt]; exact hc, hle⟩
    · rw [bellman_ford_update_neighbors]
      exact hnowrap
    · rw [bellman_ford_update_neighbors]
      exact hcaches

theorem handle_killed_packet_link_bound (s : State) (S : Nat) (h : link_bound_inv s) :
    link_bound_inv (handle_killed_packet s S).1 := by
  have h1 : link_bound_inv (handle_dv_packet s S (List.replicate SIZEOF_DV_ENTRY 0)
      SIZEOF_DV_ENTRY).2 := by
    apply handle_dv_packet_link_bound _ _ _ _ _ h
    intro c _ e he
    simp [received_dv, SIZEOF_DV_ENTRY] at he
  unfold handle_killed_packet
  cases neighbor_list_find s.my_neighbor_list_head S with
  | none => exact h
  | some k =>
    simp only
    cases dv_find s.my_dv (s.my_neighbor_list_head.getD k default).port with
    | none => exact h
    | some i =>
      simp only
      split
      · exact h1
      · exact ⟨fun e he => h1.1 e (mem_of_mem_swap_delete he), h1.2⟩

theorem run_server_link_bound (s0 : State) (rs : List Received) (s : State)
    (hlt : link_table s.my_neighbor_list_head = link_table s0.my_neighbor_list_head)
    (hw : ∀ r ∈ rs, dv_no_wrap s0 r) (h : link_bound_inv s) :
    link_bound_inv (run_server s rs) := by
  induction rs generalizing s with
  | nil => exact h
  | cons r rs ih =>
    simp only [run_server]
    apply ih
    · rw [server_loop_link_table]
      exact hlt
    · exact fun r' hr' => hw r' (List.mem_cons_of_mem _ hr')
    · rcases server_loop_state_cases s r.bytes_received r.sender_port r.buffer with
        hs | ⟨hty, hs⟩ | hs <;> rw [hs]
      · exact h
      · apply handle_dv_packet_link_bound _ _ _ _ _ h
        intro c hc
        rw [link_cost_congr hlt] at hc
        exact hw r (List.mem_cons_self _ _) hty c hc
      · exact handle_killed_packet_link_bound s r.sender_port h

theorem startup_link_bound {s : State} (h : startup s) : link_bound_inv s := by
  refine ⟨?_, ?_, (startup_inv h).2⟩
  · rw [h.1]; simp
  · intro n hn e he
    rw [h.2 n hn] at he
    simp at he

/-- C6 as the program has it: in every state reached from a startup state by any
sequence of received datagrams in which no 32-bit sum of the sender's link cost
and an advertised cost wraps around, every own-DV entry `(d, h, c)` satisfies
`c >= link_cost(h)`, the cost field of the neighbour record with port `h`. -/
theorem link_cost_lower_bound (s0 : State) (rs : List Received) (e : dv_entry)
    (h0 : startup s0) (hw : ∀ r ∈ rs, dv_no_wrap s0 r)
    (he : e ∈ (run_server s0 rs).my_dv) :
    ∃ c, link_cost (run_server s0 rs).my_neighbor_list_head e.first_hop_port = some c ∧
      c ≤ e.cost :=
  (run_server_link_bound s0 rs s0 rfl hw (startup_link_bound h0)).1 e he

/-- C6 as stated fails: with link cost 10 to neighbour 10003, a DV from 10003
advertising destination 10005 at cost `2^32 - 5` makes the 32-bit sum wrap to 5,
and the entry `(10005, 10003, 5)` enters the own DV below the link cost. -/
theorem link_cost_lower_bound_counterexample :
    startup example_start ∧
      dv_entry.mk 10005 10003 5 ∈
        (run_server example_start [⟨16, 10003, example_wrap_buffer⟩]).my_dv ∧
      link_cost (run_server example_start [⟨16, 10003, example_wrap_buffer⟩]).my_neighbor_list_head
        (dv_entry.mk 10005 10003 5).first_hop_port = some 10 ∧
      ¬ (10 ≤ (dv_entry.mk 10005 10003 5).cost) :=
  ⟨by simp [startup, example_start], by decide, by decide, by decide⟩

theorem example_dv_no_wrap :
    ∀ r ∈ [Received.mk 16 10001 example_dv_buffer], dv_no_wrap example_start r := by
  intro r hr
  rw [List.mem_singleton] at hr
  subst hr
  intro _ c hc e he
  have h1 : link_cost example_start.my_neighbor_list_head 10001 = some 1 := by decide
  have h2 : received_dv example_dv_buffer
      ((((16 : Int).toNat / SIZEOF_DV_ENTRY : Nat) : Int) - 1) = [⟨10003, 10003, 2⟩] := by
    decide
  simp only [h1, Option.some.injEq] at hc
  simp only [h2, List.mem_singleton] at he
  subst hc
  subst he
  decide

theorem link_cost_lower_bound_witness :
    startup example_start ∧
      (∀ r ∈ [Received.mk 16 10001 example_dv_buffer], dv_no_wrap example_start r) ∧
      dv_entry.mk 10003 10001 3 ∈
        (run_server example_start [⟨16, 10001, example_dv_buffer⟩]).my_dv ∧
      ∃ c, link_cost (run_server example_start
          [⟨16, 10001, example_dv_buffer⟩]).my_neighbor_list_head
            (dv_entry.mk 10003 10001 3).first_hop_port = some c ∧
        c ≤ (dv_entry.mk 10003 10001 3).cost :=
  ⟨by simp [startup, example_start], example_dv_no_wrap, by decide,
    link_cost_lower_bound example_start [⟨16, 10001, example_dv_buffer⟩]
      (dv_entry.mk 10003 10001 3) (by simp [startup, example_start]) example_dv_no_wrap
      (by decide)⟩

/-! ## Calls that change nothing -/

theorem set_self {α : Type} {l : List α} {k : Nat} {x : α} (h : l[k]? = some x) :
    l.set k x = l := by
  apply List.ext_getElem?
  intro m
  rw [List.getElem?_set]
  by_cases hkm : k = m
  · subst hkm
    simp [lt_of_getElem? h, h]
  · simp [hkm]

theorem handle_dv_packet_accept {s : State} {S k : Nat} {n : neighbor_list_node}
    (buffer : List Nat) {L : Nat}
    (hf : neighbor_list_find s.my_neighbor_list_head S = some k)
    (hn : s.my_neighbor_list_head[k]? = some n) (hL : L % SIZEOF_DV_ENTRY = 0)
    (hcap : ((L / SIZEOF_DV_ENTRY : Nat) : Int) - 1 ≤ (DV_CAPACITY : Int)) :
    handle_dv_packet s S buffer L =
      bellman_ford_update
        (State.mk s.my_port s.my_dv (s.my_neighbor_list_head.set k
          (neighbor_list_node.mk n.port n.cost
            (received_dv buffer (((L / SIZEOF_DV_ENTRY : Nat) : Int) - 1)))))
        S (neighbor_list_node.mk n.port n.cost
            (received_dv buffer (((L / SIZEOF_DV_ENTRY : Nat) : Int) - 1))) := by
  have h1 : ¬ (L % SIZEOF_DV_ENTRY ≠ 0) := by simpa using hL
  have h2 : ¬ (((L / SIZEOF_DV_ENTRY : Nat) : Int) - 1 > (DV_CAPACITY : Int)) := by omega
  have hg : s.my_neighbor_list_head.getD k default = n := by
    simp [List.getD_eq_getElem?_getD, hn]
  rw [handle_dv_packet, if_neg h1]
  simp only [hf, h2, if_false, hg]

theorem increase_pass_noop (S : Nat) (sender : neighbor_list_node)
    (neighbors : List neighbor_list_node) (dv : List dv_entry)
    (h : ∀ a ∈ dv, entry_stable S sender a) :
    ∀ (fuel i : Nat) (cc : Int), increase_pass S sender neighbors fuel i dv cc = (dv, cc) := by
  intro fuel
  induction fuel with
  | zero => intro i cc; rfl
  | succ fuel ih =>
    intro i cc
    rw [increase_pass]
    by_cases hi : i < dv.length
    · rw [if_pos hi]
      have hg : dv.getD i default = dv[i] := List.getD_eq_getElem _ _ hi
      have hst := h dv[i] (List.getElem_mem hi)
      rw [hg]
      by_cases h1 : dv[i].first_hop_port = S ∧ dv[i].dest_port ≠ S
      · rw [if_pos h1]
        have h2 : ¬ path_worsened sender dv[i] = true := fun hw => hst ⟨h1.1, h1.2, hw⟩
        rw [if_neg h2]
        exact ih _ _
      · rw [if_neg h1]
        exact ih _ _
    · rw [if_neg hi]

theorem bellman_ford_decrease_noop (s : State) (d v c : Nat)
    (hs : relax_settled s.my_dv d c) (hb : relax_blocked s d c) :
    (bellman_ford_decrease s d v c).2 = s ∧ (bellman_ford_decrease s d v c).1 ≤ 0 := by
  rcases bellman_ford_decrease_cases s d v c with
    ⟨_, hr⟩ | ⟨_, _, _, hr⟩ | ⟨_, _, _, _, hr⟩ | ⟨hp, hf, hc, hl, hr⟩ |
    ⟨i, a, _, _, ha, had, hc, hr⟩ | ⟨i, a, _, _, ha, had, _, hlt, hr⟩ |
    ⟨_, _, _, _, _, _, _, _, hr⟩
  · rw [hr]; exact ⟨rfl, by simp⟩
  · rw [hr]; exact ⟨rfl, by simp⟩
  · rw [hr]; exact ⟨rfl, by simp⟩
  · rcases hb (dv_find_none hf) with h | h | h
    · exact absurd h hp
    · omega
    · omega
  · have := (hs a (mem_of_getElem? ha) had).1
    omega
  · have := (hs a (mem_of_getElem? ha) had).2
    omega
  · rw [hr]; exact ⟨rfl, by simp⟩

theorem decrease_pass_noop (S : Nat) (sender : neighbor_list_node) (D : List dv_entry)
    (s : State) (cc : Int)
    (h : ∀ e ∈ D, relax_settled s.my_dv e.dest_port (u32 (sender.cost + e.cost)) ∧
      relax_blocked s e.dest_port (u32 (sender.cost + e.cost))) :
    decrease_pass S sender D s cc = (s, cc) := by
  induction D generalizing cc with
  | nil => rfl
  | cons e rest ih =>
    obtain ⟨h1, h2⟩ := bellman_ford_decrease_noop s e.dest_port S (u32 (sender.cost + e.cost))
      (h e (List.mem_cons_self _ _)).1 (h e (List.mem_cons_self _ _)).2
    have h3 : ¬ (bellman_ford_decrease s e.dest_port S (u32 (sender.cost + e.cost))).1 > 0 := by
      omega
    simp only [decrease_pass, h1, if_neg h3]
    exact ih cc (fun e' he' => h e' (List.mem_cons_of_mem _ he'))

theorem bellman_ford_update_noop (s : State) (S : Nat) (sender : neighbor_list_node)
    (h1 : ∀ a ∈ s.my_dv, entry_stable S sender a)
    (h2 : ∀ e ∈ sender.dv, relax_settled s.my_dv e.dest_port (u32 (sender.cost + e.cost)) ∧
      relax_blocked s e.dest_port (u32 (sender.cost + e.cost)))
    (h3 : relax_settled s.my_dv S sender.cost) (h4 : relax_blocked s S sender.cost) :
    bellman_ford_update s S sender = (0, s) := by
  have hs : (State.mk s.my_port s.my_dv s.my_neighbor_list_head) = s := by
    cases s; rfl
  obtain ⟨h5, h6⟩ := bellman_ford_decrease_noop s S S sender.cost h3 h4
  have h7 : ¬ (bellman_ford_decrease s S S sender.cost).1 > 0 := by omega
  simp only [bellman_ford_update, increase_pass_noop S sender s.my_neighbor_list_head s.my_dv h1,
    hs, decrease_pass_noop S sender sender.dv s 0 h2, h5, if_neg h7]

/-! ## What a relaxation establishes -/

theorem bellman_ford_decrease_settles (s : State) (d v c : Nat)
    (hn : (s.my_dv.map dv_entry.dest_port).Nodup)
    (hself : ∀ a ∈ s.my_dv, a.dest_port ≠ s.my_port) :
    relax_settled (bellman_ford_decrease s d v c).2.my_dv d c ∧
      relax_blocked (bellman_ford_decrease s d v c).2 d c := by
  rcases bellman_ford_decrease_cases s d v c with
    ⟨hp, hr⟩ | ⟨_, hf, hc, hr⟩ | ⟨_, hf, _, hl, hr⟩ | ⟨_, hf, hc, _, hr⟩ |
    ⟨i, a, _, _, ha, had, hc, hr⟩ | ⟨i, a, _, _, ha, had, hc, hlt, hr⟩ |
    ⟨i, a, _, _, ha, had, hc, hle, hr⟩ <;> rw [hr]
  · exact ⟨fun a ha had => absurd (had.trans hp) (hself a ha), fun _ => Or.inl hp⟩
  · exact ⟨fun a ha had => absurd had (dv_find_none hf a ha), fun _ => Or.inr (Or.inl hc)⟩
  · exact ⟨fun a ha had => absurd had (dv_find_none hf a ha), fun _ => Or.inr (Or.inr hl)⟩
  · refine ⟨?_, ?_⟩
    · intro a ha had
      rcases List.mem_append.mp ha with ha | ha
      · exact absurd had (dv_find_none hf a ha)
      · rw [List.mem_singleton.mp ha]
        exact ⟨hc, Nat.le_refl _⟩
    · intro hno
      exact absurd rfl (hno (dv_entry.mk d v c) (by simp))
  · exact ⟨fun x hx hxd => absurd (hxd.trans had.symm) (dest_ne_of_mem_swap_delete hn ha hx),
      fun _ => Or.inr (Or.inl hc)⟩
  · refine ⟨?_, ?_⟩
    · intro x hx hxd
      rcases mem_set_of_getElem? hx with h | ⟨m, hm, hme⟩
      · rw [h]
        exact ⟨hc, Nat.le_refl _⟩
      · exact absurd ((nodup_dest_iff s.my_dv).mp hn m i x a hme ha (by rw [hxd, had])) hm
    · intro hno
      have hmem : dv_entry.mk d v c ∈ s.my_dv.set i (dv_entry.mk d v c) :=
        @mem_of_getElem? _ _ i _ (by rw [List.getElem?_set]; simp [lt_of_getElem? ha])
      exact absurd rfl (hno (dv_entry.mk d v c) hmem)
  · refine ⟨?_, ?_⟩
    · intro x hx hxd
      rw [eq_of_dest_eq hn hx (mem_of_getElem? ha) (by rw [hxd, had])]
      exact ⟨hc, hle⟩
    · intro hno
      exact absurd had (hno a (mem_of_getElem? ha))

/-- A relaxation for another destination keeps what holds of the entries for `x`. -/
theorem bellman_ford_decrease_keeps (P : dv_entry → Prop) (s : State) (d v c x : Nat)
    (hx : d ≠ x) (h : ∀ a ∈ s.my_dv, a.dest_port = x → P a) :
    ∀ a ∈ (bellman_ford_decrease s d v c).2.my_dv, a.dest_port = x → P a :=
  bellman_ford_decrease_forall (fun a => a.dest_port = x → P a) s d v c h
    (fun _ _ hd => absurd hd hx)

theorem bellman_ford_decrease_table_ok (s : State) (d S c : Nat)
    (hS : S ∈ s.my_neighbor_list_head.map neighbor_list_node.port) (h : table_ok s) :
    table_ok (bellman_ford_decrease s d S c).2 := by
  unfold table_ok
  rw [bellman_ford_decrease_my_port, bellman_ford_decrease_neighbors]
  refine ⟨?_, bellman_ford_decrease_nodup s d S c h.2.1, bellman_ford_decrease_length s d S c h.2.2⟩
  exact bellman_ford_decrease_forall _ s d S c h.1 (fun hd hc => ⟨hc, hd, hS⟩)

/-! ## Idempotence of `handle_dv_packet` -/

/-- In a DV with pairwise distinct destinations the search for the destination of
an entry finds that entry. -/
theorem dv_find_of_mem_nodup {dv : List dv_entry} (hn : (dv.map dv_entry.dest_port).Nodup)
    {e : dv_entry} (he : e ∈ dv) : ∃ j, dv_find dv e.dest_port = some j ∧ dv[j]? = some e := by
  obtain ⟨j, hj⟩ := dv_find_isSome_of_mem he
  obtain ⟨a, ha, had⟩ := dv_find_some hj
  exact ⟨j, hj, by rw [ha, eq_of_dest_eq hn (mem_of_getElem? ha) he had]⟩

/-- An entry through the sender at exactly the cost the sender's DV offers is
left alone by the increase/withdraw loop. -/
theorem entry_stable_of_offer (S : Nat) (sender : neighbor_list_node) {j : Nat}
    {ne : dv_entry} (d : Nat) (hj : dv_find sender.dv d = some j)
    (hne : sender.dv[j]? = some ne) :
    entry_stable S sender (dv_entry.mk d S (u32 (sender.cost + ne.cost))) := by
  rintro ⟨_, _, hw⟩
  simp [path_worsened, hj, hne] at hw

theorem increase_pass_stable (s : State) (S k : Nat) (sender : neighbor_list_node)
    (htab : table_ok s) (hc : caches_ok s.my_neighbor_list_head)
    (hfk : neighbor_list_find s.my_neighbor_list_head S = some k)
    (hsk : s.my_neighbor_list_head[k]? = some sender) :
    table_ok (State.mk s.my_port
        (increase_pass S sender s.my_neighbor_list_head s.my_dv.length 0 s.my_dv 0).1
        s.my_neighbor_list_head) ∧
      ∀ a ∈ (increase_pass S sender s.my_neighbor_list_head s.my_dv.length 0 s.my_dv 0).1,
        entry_stable S sender a := by
  refine increase_pass_induct S sender s.my_neighbor_list_head
    (fun i dv _ => table_ok (State.mk s.my_port dv s.my_neighbor_list_head) ∧
      ∀ j a, j < i → dv[j]? = some a → entry_stable S sender a)
    (fun dv _ => table_ok (State.mk s.my_port dv s.my_neighbor_list_head) ∧
      ∀ a ∈ dv, entry_stable S sender a) ?_ ?_ ?_ ?_ s.my_dv.length 0 s.my_dv 0 (by omega)
    ⟨htab, fun j a hj _ => absurd hj (Nat.not_lt_zero j)⟩
  · intro i dv cc a ha hq hst
    refine ⟨hq.1, ?_⟩
    intro j x hj hx
    by_cases hji : j = i
    · subst hji
      rw [ha] at hx
      cases hx
      exact hst
    · exact hq.2 j x (by omega) hx
  · intro i dv cc a ha hq _ _ _ hr hm
    rcases scan_neighbors_spec s.my_neighbor_list_head a.dest_port scan_init with h | h
    · rw [h] at hr
      simp [scan_init] at hr
    · obtain ⟨_, m, nb, j, ne, hnb, hj, hne, hmin, hbest⟩ := h
      rw [hmin, hbest]
      rw [hmin] at hm
      have hold := hq.1.1 a (mem_of_getElem? ha)
      refine ⟨⟨?_, nodup_set_same_dest ha rfl hq.1.2.1, by simpa using hq.1.2.2⟩, ?_⟩
      · intro e he
        rcases List.mem_or_eq_of_mem_set he with he | he
        · exact hq.1.1 e he
        · rw [he]
          exact ⟨hm, hold.2.1, List.mem_map.mpr ⟨nb, mem_of_getElem? hnb, rfl⟩⟩
      · intro j' x hj' hx
        rw [List.getElem?_set] at hx
        by_cases hji : i = j'
        · subst hji
          simp only [if_true, lt_of_getElem? ha] at hx
          cases hx
          by_cases hport : nb.port = S
          · have hnbne : nb.dv ≠ [] := by
              intro hnil
              rw [hnil] at hne
              simp at hne
            have hmk := hc m nb hnb hnbne
            rw [hport, hfk] at hmk
            cases hmk
            rw [hsk] at hnb
            cases hnb
            rw [hport, Nat.add_comm]
            exact entry_stable_of_offer S sender a.dest_port hj hne
          · rintro ⟨h1, _, _⟩
            exact hport h1
        · simp only [hji, if_false] at hx
          exact hq.2 j' x (by omega) hx
  · intro i dv cc a ha hq _ _ _ _
    have hil := lt_of_getElem? ha
    refine ⟨⟨fun e he => hq.1.1 e (mem_of_mem_swap_delete he),
      nodup_swap_delete hil hq.1.2.1, ?_⟩, ?_⟩
    · show (swap_delete dv i).length ≤ DV_CAPACITY
      rw [length_swap_delete]
      have := hq.1.2.2
      show dv.length - 1 ≤ DV_CAPACITY
      exact Nat.le_trans (Nat.sub_le _ _) this
    · intro j x hj hx
      rw [swap_delete_getElem? dv hil j] at hx
      by_cases hjl : j < dv.length - 1
      · have hji : ¬ j = i := by omega
        simp only [hjl, if_true, hji, if_false] at hx
        exact hq.2 j x hj hx
      · simp [hjl] at hx
  · intro i dv cc hlen hq
    refine ⟨hq.1, ?_⟩
    intro a ha
    obtain ⟨j, hj, rfl⟩ := List.mem_iff_getElem.mp ha
    exact hq.2 j _ (by omega) (List.getElem?_eq_getElem hj)

theorem decrease_pass_frame (S : Nat) (sender : neighbor_list_node) (D : List dv_entry)
    (s : State) (cc : Int) (hS : S ∈ s.my_neighbor_list_head.map neighbor_list_node.port)
    (hdist : (sender.dv.map dv_entry.dest_port).Nodup) (hD : ∀ e ∈ D, e ∈ sender.dv)
    (htab : table_ok s) (hst : ∀ a ∈ s.my_dv, entry_stable S sender a) :
    (decrease_pass S sender D s cc).1.my_port = s.my_port ∧
      (decrease_pass S sender D s cc).1.my_neighbor_list_head = s.my_neighbor_list_head ∧
      table_ok (decrease_pass S sender D s cc).1 ∧
      ∀ a ∈ (decrease_pass S sender D s cc).1.my_dv, entry_stable S sender a := by
  refine decrease_pass_induct
    (fun t => t.my_port = s.my_port ∧ t.my_neighbor_list_head = s.my_neighbor_list_head ∧
      table_ok t ∧ ∀ a ∈ t.my_dv, entry_stable S sender a) S sender D ?_ s cc
    ⟨rfl, rfl, htab, hst⟩
  intro t e he hq
  refine ⟨by rw [bellman_ford_decrease_my_port]; exact hq.1,
    by rw [bellman_ford_decrease_neighbors]; exact hq.2.1,
    bellman_ford_decrease_table_ok t _ S _ (by rw [hq.2.1]; exact hS) hq.2.2.1, ?_⟩
  apply bellman_ford_decrease_forall _ t _ S _ hq.2.2.2
  intro _ _
  obtain ⟨j, hj, hje⟩ := dv_find_of_mem_nodup hdist (hD e he)
  exact entry_stable_of_offer S sender e.dest_port hj hje

theorem decrease_pass_settled (S : Nat) (sender : neighbor_list_node)
    (hdist : (sender.dv.map dv_entry.dest_port).Nodup) :
    ∀ (D : List dv_entry) (s : State) (cc : Int),
      (D.map dv_entry.dest_port).Nodup → (∀ e ∈ D, e ∈ sender.dv) →
      S ∈ s.my_neighbor_list_head.map neighbor_list_node.port → table_ok s →
      (∀ a ∈ s.my_dv, entry_stable S sender a) →
      ∀ e ∈ D, relax_settled (decrease_pass S sender D s cc).1.my_dv e.dest_port
        (u32 (sender.cost + e.cost)) := by
  intro D
  induction D with
  | nil => intro s cc _ _ _ _ _ e he; cases he
  | cons e rest ih =>
    intro s cc hn hD hS htab hst e0 he0
    have hn' : (rest.map dv_entry.dest_port).Nodup := (List.nodup_cons.mp hn).2
    have hnot : e.dest_port ∉ rest.map dv_entry.dest_port := (List.nodup_cons.mp hn).1
    have hD' : ∀ x ∈ rest, x ∈ sender.dv := fun x hx => hD x (List.mem_cons_of_mem _ hx)
    have hfirst := decrease_pass_frame S sender [e] s cc hS hdist
      (fun x hx => hD x (by rw [List.mem_singleton.mp hx]; exact List.mem_cons_self _ _))
      htab hst
    simp only [decrease_pass] at hfirst ⊢
    rcases List.mem_cons.mp he0 with rfl | he0
    · have hset := (bellman_ford_decrease_settles s e0.dest_port S (u32 (sender.cost + e0.cost))
        htab.2.1 (fun a ha => (htab.1 a ha).2.1)).1
      refine decrease_pass_induct
        (fun t => relax_settled t.my_dv e0.dest_port (u32 (sender.cost + e0.cost)))
        S sender rest ?_ _ _ hset
      intro t x hx hq
      apply bellman_ford_decrease_keeps _ t x.dest_port S _ e0.dest_port _ hq
      intro hxe
      exact hnot (List.mem_map.mpr ⟨x, hx, hxe⟩)
    · exact ih _ _ hn' hD' (by rw [hfirst.2.1]; exact hS) hfirst.2.2.1 hfirst.2.2.2 e0 he0

/-- What the Bellman-Ford part leaves behind when the sender's DV has pairwise
distinct destinations, none of them the sender: a table on which the same DV
from the same sender finds nothing to do, except possibly inserting a
destination that was discarded for lack of room. -/
theorem bellman_ford_update_settled (s : State) (S k : Nat) (sender : neighbor_list_node)
    (htab : table_ok s) (hc : caches_ok s.my_neighbor_list_head)
    (hfk : neighbor_list_find s.my_neighbor_list_head S = some k)
    (hsk : s.my_neighbor_list_head[k]? = some sender)
    (hdist : (sender.dv.map dv_entry.dest_port).Nodup)
    (hnoself : ∀ e ∈ sender.dv, e.dest_port ≠ S) :
    (∀ a ∈ (bellman_ford_update s S sender).2.my_dv, entry_stable S sender a) ∧
    (∀ e ∈ sender.dv, relax_settled (bellman_ford_update s S sender).2.my_dv e.dest_port
      (u32 (sender.cost + e.cost))) ∧
    relax_settled (bellman_ford_update s S sender).2.my_dv S sender.cost ∧
    relax_blocked (bellman_ford_update s S sender).2 S sender.cost := by
  obtain ⟨hA1, hA2⟩ := increase_pass_stable s S k sender htab hc hfk hsk
  have hS : S ∈ s.my_neighbor_list_head.map neighbor_list_node.port := by
    obtain ⟨n, hn, hp⟩ := neighbor_list_find_some hfk
    exact List.mem_map.mpr ⟨n, mem_of_getElem? hn, hp⟩
  have hB := decrease_pass_frame S sender sender.dv
    (State.mk s.my_port
      (increase_pass S sender s.my_neighbor_list_head s.my_dv.length 0 s.my_dv 0).1
      s.my_neighbor_list_head)
    (increase_pass S sender s.my_neighbor_list_head s.my_dv.length 0 s.my_dv 0).2
    hS hdist (fun _ h => h) hA1 hA2
  have hB' := decrease_pass_settled S sender hdist sender.dv
    (State.mk s.my_port
      (increase_pass S sender s.my_neighbor_list_head s.my_dv.length 0 s.my_dv 0).1
      s.my_neighbor_list_head)
    (increase_pass S sender s.my_neighbor_list_head s.my_dv.length 0 s.my_dv 0).2
    hdist (fun _ h => h) hS hA1 hA2
  simp only [bellman_ford_update]
  refine ⟨?_, ?_, ?_⟩
  · apply bellman_ford_decrease_forall _ _ S S _ hB.2.2.2
    intro _ _ h
    exact h.2.1 rfl
  · intro e he
    exact bellman_ford_decrease_keeps _ _ S S _ e.dest_port (fun h => hnoself e he h.symm)
      (hB' e he)
  · exact bellman_ford_decrease_settles _ S S sender.cost hB.2.2.1.2.1
      (fun a ha => (hB.2.2.1.1 a ha).2.1)

theorem reachable_inv {s : State} (h : Reachable s) : Inv s := by
  obtain ⟨s0, calls, h0, rfl⟩ := h
  exact run_calls_inv s0 calls (startup_inv h0)

theorem link_cost_some {l : List neighbor_list_node} {p c : Nat} (h : link_cost l p = some c) :
    ∃ k n, neighbor_list_find l p = some k ∧ l[k]? = some n ∧ n.cost = c := by
  unfold link_cost at h
  cases hf : neighbor_list_find l p with
  | none => simp [hf] at h
  | some k =>
    obtain ⟨n, hn, _⟩ := neighbor_list_find_some hf
    refine ⟨k, n, rfl, hn, ?_⟩
    simpa [hf, List.getD_eq_getElem?_getD, hn] using h

/-- C7 as the program has it: for every reachable state, every neighbour `S` and
every well-framed DV whose destinations are pairwise distinct and do not include
`S` itself, if no advertised route that the first call left out of the table for
lack of room would fit afterwards, then processing the identical DV from `S` a
second time returns change count 0 and leaves the whole routing state unchanged,
and `server_loop` emits nothing for it. -/
theorem handle_dv_packet_idempotent (s : State) (S : Nat) (buffer : List Nat) (L c : Nat)
    (hs : Reachable s)
    (hlink : link_cost s.my_neighbor_list_head S = some c)
    (hL : L % SIZEOF_DV_ENTRY = 0)
    (hcap : ((L / SIZEOF_DV_ENTRY : Nat) : Int) - 1 ≤ (DV_CAPACITY : Int))
    (hdist : ((received_dv buffer (((L / SIZEOF_DV_ENTRY : Nat) : Int) - 1)).map
      dv_entry.dest_port).Nodup)
    (hnoself : ∀ e ∈ received_dv buffer (((L / SIZEOF_DV_ENTRY : Nat) : Int) - 1),
      e.dest_port ≠ S)
    (hroom : ∀ e ∈ received_dv buffer (((L / SIZEOF_DV_ENTRY : Nat) : Int) - 1),
      e.dest_port ≠ s.my_port → u32 (c + e.cost) < MAX_POSSIBLE_COST →
      (∃ a ∈ (handle_dv_packet s S buffer L).2.my_dv, a.dest_port = e.dest_port) ∨
        DV_CAPACITY ≤ (handle_dv_packet s S buffer L).2.my_dv.length) :
    handle_dv_packet (handle_dv_packet s S buffer L).2 S buffer L =
        (0, (handle_dv_packet s S buffer L).2) ∧
      (byte_at buffer 0 = DV_PACKET → 0 < L →
        server_loop (handle_dv_packet s S buffer L).2 (L : Int) S buffer =
          ((handle_dv_packet s S buffer L).2, [])) := by
  obtain ⟨k, n, hf, hn, hnc⟩ := link_cost_some hlink
  subst hnc
  have hinv := reachable_inv hs
  have hacc := handle_dv_packet_accept buffer hf hn hL hcap
  have hkl := lt_of_getElem? hn
  have hports : (s.my_neighbor_list_head.set k (neighbor_list_node.mk n.port n.cost
      (received_dv buffer (((L / SIZEOF_DV_ENTRY : Nat) : Int) - 1)))).map
        neighbor_list_node.port = s.my_neighbor_list_head.map neighbor_list_node.port :=
    map_set_of_eq _ hn rfl
  have hp := (neighbor_list_find_some hf)
  obtain ⟨n', hn', hpn⟩ := hp
  rw [hn] at hn'
  cases hn'
  -- the state in which the Bellman-Ford part of the first call runs
  have hfk' : neighbor_list_find (s.my_neighbor_list_head.set k (neighbor_list_node.mk n.port
      n.cost (received_dv buffer (((L / SIZEOF_DV_ENTRY : Nat) : Int) - 1)))) S = some k := by
    rw [neighbor_list_find_congr hports]
    exact hf
  have hsk' : (s.my_neighbor_list_head.set k (neighbor_list_node.mk n.port
      n.cost (received_dv buffer (((L / SIZEOF_DV_ENTRY : Nat) : Int) - 1))))[k]? =
      some (neighbor_list_node.mk n.port
        n.cost (received_dv buffer (((L / SIZEOF_DV_ENTRY : Nat) : Int) - 1))) := by
    rw [List.getElem?_set]
    simp [hkl]
  have htab' : table_ok (State.mk s.my_port s.my_dv (s.my_neighbor_list_head.set k
      (neighbor_list_node.mk n.port n.cost
        (received_dv buffer (((L / SIZEOF_DV_ENTRY : Nat) : Int) - 1))))) := by
    unfold table_ok
    simp only [hports]
    exact hinv.1
  have hc' := caches_ok_set (received_dv buffer (((L / SIZEOF_DV_ENTRY : Nat) : Int) - 1))
    hn (by rw [hpn]; exact hf) hinv.2
  obtain ⟨h1, h2, h3, h4⟩ := bellman_ford_update_settled _ S k _ htab' hc' hfk' hsk' hdist hnoself
  -- the second call
  have hnb1 : (handle_dv_packet s S buffer L).2.my_neighbor_list_head =
      s.my_neighbor_list_head.set k (neighbor_list_node.mk n.port n.cost
        (received_dv buffer (((L / SIZEOF_DV_ENTRY : Nat) : Int) - 1))) := by
    rw [hacc, bellman_ford_update_neighbors]
  have hmp1 : (handle_dv_packet s S buffer L).2.my_port = s.my_port := by
    rw [hacc, bellman_ford_update_my_port]
  have hacc2 := handle_dv_packet_accept (s := (handle_dv_packet s S buffer L).2) buffer
    (by rw [hnb1]; exact hfk') (by rw [hnb1]; exact hsk') hL hcap
  have heta : State.mk (handle_dv_packet s S buffer L).2.my_port
      (handle_dv_packet s S buffer L).2.my_dv
      ((handle_dv_packet s S buffer L).2.my_neighbor_list_head.set k
        (neighbor_list_node.mk n.port n.cost
          (received_dv buffer (((L / SIZEOF_DV_ENTRY : Nat) : Int) - 1)))) =
      (handle_dv_packet s S buffer L).2 := by
    rw [set_self (by rw [hnb1]; exact hsk')]
  simp only at hacc2
  rw [heta] at hacc2
  have hsecond : handle_dv_packet (handle_dv_packet s S buffer L).2 S buffer L =
      (0, (handle_dv_packet s S buffer L).2) := by
    rw [hacc2]
    apply bellman_ford_update_noop
    · rw [hacc]; exact h1
    · intro e he
      refine ⟨by rw [hacc]; exact h2 e he, ?_⟩
      intro hno
      by_cases hmy : e.dest_port = (handle_dv_packet s S buffer L).2.my_port
      · exact Or.inl hmy
      · right
        by_cases hcost : MAX_POSSIBLE_COST ≤ u32 (n.cost + e.cost)
        · exact Or.inl hcost
        · right
          rcases hroom e he (by rw [← hmp1]; exact hmy) (by omega) with ⟨a, ha, had⟩ | hfull
          · exact absurd had (hno a ha)
          · exact hfull
    · rw [hacc]; exact h3
    · rw [hacc]; exact h4
  refine ⟨hsecond, ?_⟩
  intro hty hpos
  have hb1 : ¬ ((L : Int) < 0) := by omega
  have hb2 : ¬ ((L : Int) = 0) := by omega
  have hb3 : ¬ (byte_at buffer 0 = DATA_PACKET) := by
    rw [hty]; decide
  rw [server_loop, if_neg hb1, if_neg hb2, if_neg hb3, if_pos hty]
  simp only [Int.toNat_ofNat, hsecond]
  simp

/-- C7 as stated fails: neighbour 10001 (link cost 1) sends a DV that advertises
its own port at cost 100.  The first call adds `(10001, 10001, 1)`; on the second,
identical call the relaxation of the advertised entry deletes it (cost 101 >= 64)
and the relaxation of the sender puts it back, so the change count is 2. -/
theorem handle_dv_packet_idempotent_counterexample :
    startup example_start ∧
      link_cost example_start.my_neighbor_list_head 10001 = some 1 ∧
      (handle_dv_packet
        (handle_dv_packet example_start 10001 example_self_advert_buffer 16).2
        10001 example_self_advert_buffer 16).1 = 2 :=
  ⟨by simp [startup, example_start], by decide, by decide⟩

theorem handle_dv_packet_idempotent_witness :
    Reachable example_start ∧
      link_cost example_start.my_neighbor_list_head 10001 = some 1 ∧
      16 % SIZEOF_DV_ENTRY = 0 ∧
      (((16 / SIZEOF_DV_ENTRY : Nat) : Int) - 1 ≤ (DV_CAPACITY : Int)) ∧
      ((received_dv example_dv_buffer (((16 / SIZEOF_DV_ENTRY : Nat) : Int) - 1)).map
        dv_entry.dest_port).Nodup ∧
      (∀ e ∈ received_dv example_dv_buffer (((16 / SIZEOF_DV_ENTRY : Nat) : Int) - 1),
        e.dest_port ≠ 10001) ∧
      (handle_dv_packet example_start 10001 example_dv_buffer 16).1 = 2 ∧
      (handle_dv_packet (handle_dv_packet example_start 10001 example_dv_buffer 16).2 10001
          example_dv_buffer 16 =
        (0, (handle_dv_packet example_start 10001 example_dv_buffer 16).2) ∧
      (byte_at example_dv_buffer 0 = DV_PACKET → 0 < 16 →
        server_loop (handle_dv_packet example_start 10001 example_dv_buffer 16).2
            ((16 : Nat) : Int) 10001 example_dv_buffer =
          ((handle_dv_packet example_start 10001 example_dv_buffer 16).2, []))) :=
  ⟨⟨example_start, [], by simp [startup, example_start], rfl⟩, by decide, by decide, by decide,
    by decide, by decide, by decide,
    handle_dv_packet_idempotent example_start 10001 example_dv_buffer 16 1
      ⟨example_start, [], by simp [startup, example_start], rfl⟩ (by decide) (by decide)
      (by decide) (by decide) (by decide) (by decide)⟩

/-! ## Neighbour death -/

/-- C8 at a state the program reaches: router 10002 holds the route
`(10005, 10001, 2)` but no entry for destination 10001 (a DV from 10003
advertising 10001 at cost 63 removed it).  The KILLED packet from the registered
neighbour 10001 then returns early: the state is unchanged, nothing is sent, and
the route with first hop 10001 is still in the own DV. -/
theorem handle_killed_packet_keeps_first_hop :
    startup example_start ∧
      (neighbor_list_find example_before_kill.my_neighbor_list_head 10001).isSome = true ∧
      dv_find example_before_kill.my_dv 10001 = none ∧
      handle_killed_packet example_before_kill 10001 = (example_before_kill, []) ∧
      dv_entry.mk 10005 10001 2 ∈ (handle_killed_packet example_before_kill 10001).1.my_dv ∧
      (dv_entry.mk 10005 10001 2).first_hop_port = 10001 :=
  ⟨by simp [startup, example_start], by decide, by decide, by decide, by decide, rfl⟩

/-- The path of `handle_killed_packet` that does run the sweep does what C8 says:
from a reachable state in which the own DV holds an entry for the registered
neighbour `N`, no entry with first hop `N` and no entry for destination `N` is
left after the call. -/
theorem handle_killed_packet_sweeps (s : State) (N : Nat) (hs : Reachable s)
    (hN : (neighbor_list_find s.my_neighbor_list_head N).isSome = true)
    (hd : (dv_find s.my_dv N).isSome = true) :
    ∀ a ∈ (handle_killed_packet s N).1.my_dv, a.first_hop_port ≠ N ∧ a.dest_port ≠ N := by
  have hinv := reachable_inv hs
  obtain ⟨k, hf⟩ := Option.isSome_iff_exists.mp hN
  obtain ⟨i, hi⟩ := Option.isSome_iff_exists.mp hd
  obtain ⟨n, hn, hpn⟩ := neighbor_list_find_some hf
  have hg : s.my_neighbor_list_head.getD k default = n := by
    simp [List.getD_eq_getElem?_getD, hn]
  have hkl := lt_of_getElem? hn
  have hrecv : received_dv (List.replicate SIZEOF_DV_ENTRY 0)
      (((SIZEOF_DV_ENTRY / SIZEOF_DV_ENTRY : Nat) : Int) - 1) = [] := by decide
  have hacc := handle_dv_packet_accept (List.replicate SIZEOF_DV_ENTRY 0) hf hn
    (by decide : SIZEOF_DV_ENTRY % SIZEOF_DV_ENTRY = 0) (by decide)
  rw [hrecv] at hacc
  have hports : (s.my_neighbor_list_head.set k (neighbor_list_node.mk n.port n.cost [])).map
      neighbor_list_node.port = s.my_neighbor_list_head.map neighbor_list_node.port :=
    map_set_of_eq _ hn rfl
  have hfk' : neighbor_list_find (s.my_neighbor_list_head.set k
      (neighbor_list_node.mk n.port n.cost [])) N = some k := by
    rw [neighbor_list_find_congr hports]
    exact hf
  have hsk' : (s.my_neighbor_list_head.set k (neighbor_list_node.mk n.port n.cost []))[k]? =
      some (neighbor_list_node.mk n.port n.cost []) := by
    rw [List.getElem?_set]
    simp [hkl]
  have htab' : table_ok (State.mk s.my_port s.my_dv (s.my_neighbor_list_head.set k
      (neighbor_list_node.mk n.port n.cost []))) := by
    unfold table_ok
    simp only [hports]
    exact hinv.1
  have hc' := caches_ok_set [] hn (by rw [hpn]; exact hf) hinv.2
  have hstable := (bellman_ford_update_settled _ N k _ htab' hc' hfk' hsk' (by simp)
    (by simp)).1
  rw [← hacc] at hstable
  have hinv1 := handle_dv_packet_inv s N (List.replicate SIZEOF_DV_ENTRY 0) SIZEOF_DV_ENTRY hinv
  have hhop : ∀ a ∈ (handle_dv_packet s N (List.replicate SIZEOF_DV_ENTRY 0)
      SIZEOF_DV_ENTRY).2.my_dv, a.dest_port ≠ N → a.first_hop_port ≠ N := by
    intro a ha hne hhop
    exact hstable a ha ⟨hhop, hne, by simp [path_worsened, dv_find]⟩
  unfold handle_killed_packet
  simp only [hf, hg, hpn, hi]
  cases hd2 : dv_find (handle_dv_packet s N (List.replicate SIZEOF_DV_ENTRY 0)
      SIZEOF_DV_ENTRY).2.my_dv N with
  | none =>
    intro a ha
    have hne := dv_find_none hd2 a ha
    exact ⟨hhop a ha hne, hne⟩
  | some i2 =>
    obtain ⟨x, hx, hxd⟩ := dv_find_some hd2
    intro a ha
    have hne : a.dest_port ≠ N := by
      rw [← hxd]
      exact dest_ne_of_mem_swap_delete hinv1.1.2.1 hx ha
    exact ⟨hhop a (mem_of_mem_swap_delete ha) hne, hne⟩

theorem handle_killed_packet_sweeps_witness :
    Reachable example_converged_reached ∧
      (neighbor_list_find example_converged_reached.my_neighbor_list_head 10001).isSome = true ∧
      (dv_find example_converged_reached.my_dv 10001).isSome = true ∧
      ∀ a ∈ (handle_killed_packet example_converged_reached 10001).1.my_dv,
        a.first_hop_port ≠ 10001 ∧ a.dest_port ≠ 10001 :=
  ⟨⟨example_start, [Call.dv 10001 example_dv_buffer 16],
      by simp [startup, example_start], rfl⟩, by decide, by decide,
    handle_killed_packet_sweeps example_converged_reached 10001
      ⟨example_start, [Call.dv 10001 example_dv_buffer 16],
        by simp [startup, example_start], rfl⟩ (by decide) (by decide)⟩

/-! ## Rejection and dispatch -/

theorem decrease_pass_count_le (S : Nat) (sender : neighbor_list_node) (D : List dv_entry)
    (s : State) (cc : Int) : cc ≤ (decrease_pass S sender D s cc).2 := by
  induction D generalizing s cc with
  | nil => exact Int.le_refl _
  | cons e rest ih =>
    simp only [decrease_pass]
    refine Int.le_trans ?_ (ih _ _)
    split <;> omega

theorem increase_pass_count_nonneg (S : Nat) (sender : neighbor_list_node)
    (neighbors : List neighbor_list_node) (dv : List dv_entry) :
    0 ≤ (increase_pass S sender neighbors dv.length 0 dv 0).2 := by
  refine increase_pass_induct S sender neighbors (fun _ _ cc => 0 ≤ cc) (fun _ cc => 0 ≤ cc)
    ?_ ?_ ?_ ?_ dv.length 0 dv 0 (by omega) (Int.le_refl _)
  · intro i dv cc a _ h _
    exact h
  · intro i dv cc a _ h _ _ _ _ _
    show 0 ≤ cc + 1
    omega
  · intro i dv cc a _ h _ _ _ _
    show 0 ≤ cc + 1
    omega
  · intro i dv cc _ h
    exact h

/-- The Bellman-Ford part never reports a negative change count. -/
theorem bellman_ford_update_count_nonneg (s : State) (S : Nat) (sender : neighbor_list_node) :
    0 ≤ (bellman_ford_update s S sender).1 := by
  have h1 := increase_pass_count_nonneg S sender s.my_neighbor_list_head s.my_dv
  have h2 := decrease_pass_count_le S sender sender.dv
    (State.mk s.my_port (increase_pass S sender s.my_neighbor_list_head s.my_dv.length 0
      s.my_dv 0).1 s.my_neighbor_list_head)
    (increase_pass S sender s.my_neighbor_list_head s.my_dv.length 0 s.my_dv 0).2
  simp only [bellman_ford_update]
  split <;> omega

/-- C12: `handle_dv_packet` returns a negative value exactly when the length is
not a multiple of 8, or the sender port is not the port of a registered
neighbour, or the entry count `L/8 - 1` exceeds 16; whenever it does, the whole
routing state (own DV and every cached DV) is as before.  A datagram of length 0
is dropped by `server_loop` before any handler runs. -/
theorem handle_dv_packet_rejection (s : State) (p : Nat) (buffer : List Nat) (L : Nat) :
    ((handle_dv_packet s p buffer L).1 < 0 ↔
      (L % SIZEOF_DV_ENTRY ≠ 0 ∨ neighbor_list_find s.my_neighbor_list_head p = none ∨
        ((L / SIZEOF_DV_ENTRY : Nat) : Int) - 1 > (DV_CAPACITY : Int))) ∧
    ((handle_dv_packet s p buffer L).1 < 0 → (handle_dv_packet s p buffer L).2 = s) ∧
    server_loop s 0 p buffer = (s, []) := by
  have key : (L % SIZEOF_DV_ENTRY ≠ 0 ∨ neighbor_list_find s.my_neighbor_list_head p = none ∨
        ((L / SIZEOF_DV_ENTRY : Nat) : Int) - 1 > (DV_CAPACITY : Int)) →
      handle_dv_packet s p buffer L = (-1, s) := by
    intro h
    by_cases h1 : L % SIZEOF_DV_ENTRY ≠ 0
    · rw [handle_dv_packet, if_pos h1]
    · rw [handle_dv_packet, if_neg h1]
      cases hf : neighbor_list_find s.my_neighbor_list_head p with
      | none => rfl
      | some k =>
        rcases h with h | h | h
        · exact absurd h h1
        · rw [hf] at h
          cases h
        · simp only [h, if_true]
  have key2 : ¬ (L % SIZEOF_DV_ENTRY ≠ 0 ∨ neighbor_list_find s.my_neighbor_list_head p = none ∨
        ((L / SIZEOF_DV_ENTRY : Nat) : Int) - 1 > (DV_CAPACITY : Int)) →
      0 ≤ (handle_dv_packet s p buffer L).1 := by
    intro h
    cases hf : neighbor_list_find s.my_neighbor_list_head p with
    | none => exact absurd (Or.inr (Or.inl hf)) h
    | some k =>
      obtain ⟨n, hn, _⟩ := neighbor_list_find_some hf
      rw [handle_dv_packet_accept buffer hf hn
        (by by_contra hc; exact h (Or.inl hc))
        (by by_contra hc; exact h (Or.inr (Or.inr (by omega))))]
      exact bellman_ford_update_count_nonneg _ _ _
  refine ⟨⟨?_, ?_⟩, ?_, ?_⟩
  · intro hneg
    by_contra hc
    have := key2 hc
    omega
  · intro h
    rw [key h]
    show (-1 : Int) < 0
    decide
  · intro hneg
    by_cases hc : (L % SIZEOF_DV_ENTRY ≠ 0 ∨
        neighbor_list_find s.my_neighbor_list_head p = none ∨
        ((L / SIZEOF_DV_ENTRY : Nat) : Int) - 1 > (DV_CAPACITY : Int))
    · rw [key hc]
    · have := key2 hc
      omega
  · simp [server_loop]

/-- A datagram that fails one of the three guards of `handle_dv_packet` is
answered with -1 and the state as it was. -/
theorem handle_dv_packet_rejected (s : State) (p : Nat) (buffer : List Nat) (L : Nat)
    (h : L % SIZEOF_DV_ENTRY ≠ 0 ∨ neighbor_list_find s.my_neighbor_list_head p = none ∨
      ((L / SIZEOF_DV_ENTRY : Nat) : Int) - 1 > (DV_CAPACITY : Int)) :
    handle_dv_packet s p buffer L = (-1, s) := by
  by_cases h1 : L % SIZEOF_DV_ENTRY ≠ 0
  · rw [handle_dv_packet, if_pos h1]
  · rw [handle_dv_packet, if_neg h1]
    cases hf : neighbor_list_find s.my_neighbor_list_head p with
    | none => rfl
    | some k =>
      rcases h with h | h | h
      · exact absurd h h1
      · rw [hf] at h
        cases h
      · simp only [h, if_true]

/-- What `server_loop` does with a protocol-error datagram: one of type DV that is
malformed (length not a multiple of 8), comes from a non-neighbour port or carries
more than 16 entries changes no routing state and nothing is emitted; one of type
KILLED from a non-neighbour port likewise; one of type INITIAL_DV with such an
error changes no routing state either, but the own DV is sent to the sender's
port all the same. -/
theorem protocol_error_dropped (s : State) (b : Int) (p : Nat) (buffer : List Nat)
    (hb : 0 < b) :
    (byte_at buffer 0 = DV_PACKET →
      (b.toNat % SIZEOF_DV_ENTRY ≠ 0 ∨ neighbor_list_find s.my_neighbor_list_head p = none ∨
        ((b.toNat / SIZEOF_DV_ENTRY : Nat) : Int) - 1 > (DV_CAPACITY : Int)) →
      server_loop s b p buffer = (s, [])) ∧
    (byte_at buffer 0 = INITIAL_DV_PACKET →
      (b.toNat % SIZEOF_DV_ENTRY ≠ 0 ∨ neighbor_list_find s.my_neighbor_list_head p = none ∨
        ((b.toNat / SIZEOF_DV_ENTRY : Nat) : Int) - 1 > (DV_CAPACITY : Int)) →
      server_loop s b p buffer = (s, send_my_dv s p)) ∧
    (byte_at buffer 0 = KILLED_PACKET →
      neighbor_list_find s.my_neighbor_list_head p = none →
      server_loop s b p buffer = (s, [])) := by
  have hb1 : ¬ b < 0 := by omega
  have hb2 : ¬ b = 0 := by omega
  refine ⟨?_, ?_, ?_⟩
  · intro hty herr
    have hk := handle_dv_packet_rejected s p buffer b.toNat herr
    have hneg : (handle_dv_packet s p buffer b.toNat).1 < 0 := by
      rw [hk]
      show (-1 : Int) < 0
      decide
    have hst : (handle_dv_packet s p buffer b.toNat).2 = s := by rw [hk]
    have h3 : ¬ byte_at buffer 0 = DATA_PACKET := by rw [hty]; decide
    have h4 : ¬ (handle_dv_packet s p buffer b.toNat).1 > 0 := by omega
    rw [server_loop, if_neg hb1, if_neg hb2, if_neg h3, if_pos hty]
    simp only [if_neg h4, hst]
  · intro hty herr
    have hk := handle_dv_packet_rejected s p buffer b.toNat herr
    have hneg : (handle_dv_packet s p buffer b.toNat).1 < 0 := by
      rw [hk]
      show (-1 : Int) < 0
      decide
    have hst : (handle_dv_packet s p buffer b.toNat).2 = s := by rw [hk]
    have h3 : ¬ byte_at buffer 0 = DATA_PACKET := by rw [hty]; decide
    have h4 : ¬ byte_at buffer 0 = DV_PACKET := by rw [hty]; decide
    have h5 : ¬ byte_at buffer 0 = KILLED_PACKET := by rw [hty]; decide
    have h6 : ¬ (handle_dv_packet s p buffer b.toNat).1 > 0 := by omega
    rw [server_loop, if_neg hb1, if_neg hb2, if_neg h3, if_neg h4, if_neg h5, if_pos hty]
    simp only [if_neg h6, hst]
  · intro hty hnone
    have h3 : ¬ byte_at buffer 0 = DATA_PACKET := by rw [hty]; decide
    have h4 : ¬ byte_at buffer 0 = DV_PACKET := by rw [hty]; decide
    rw [server_loop, if_neg hb1, if_neg hb2, if_neg h3, if_neg h4, if_pos hty,
      handle_killed_packet, hnone]

theorem protocol_error_dropped_witness :
    (0 : Int) < 15 ∧ byte_at (2 :: List.replicate 14 0) 0 = DV_PACKET ∧
      (15 : Int).toNat % SIZEOF_DV_ENTRY ≠ 0 ∧
      server_loop example_start 15 10001 (2 :: List.replicate 14 0) = (example_start, []) :=
  ⟨by decide, by decide, by decide,
    (protocol_error_dropped example_start 15 10001 (2 :: List.replicate 14 0)
      (by decide)).1 (by decide) (Or.inl (by decide))⟩

/-- C13 fails for INITIAL_DV: a 16-byte INITIAL_DV datagram from port 12345, which
is no neighbour of router 10002, is rejected by `handle_dv_packet` (return value
-1) and changes no routing state, but `server_loop` takes its `else` branch for
every return value that is not positive and answers with one 8-byte DV message to
port 12345.  The same datagram with type DV is dropped without any emission. -/
theorem rejected_initial_dv_answered :
    neighbor_list_find example_start.my_neighbor_list_head 12345 = none ∧
      (handle_dv_packet example_start 12345 (INITIAL_DV_PACKET :: List.replicate 15 0) 16).1
        = -1 ∧
      (server_loop example_start 16 12345 (INITIAL_DV_PACKET :: List.replicate 15 0)).1 =
        example_start ∧
      (server_loop example_start 16 12345 (INITIAL_DV_PACKET :: List.replicate 15 0)).2 =
        send_my_dv example_start 12345 ∧
      (server_loop example_start 16 12345 (INITIAL_DV_PACKET :: List.replicate 15 0)).2.map
        (fun d => (d.dest_port, d.bytes.length)) = [(12345, 8)] ∧
      server_loop example_start 16 12345 (DV_PACKET :: List.replicate 15 0) =
        (example_start, []) :=
  ⟨by decide, by decide, by decide, by decide, by decide, by decide⟩

/-! ## Forwarding -/

/-- C15: with `p` the big-endian 16-bit value at bytes 3..4 of a DATA packet,
`handle_data_packet` emits no datagram if `p == my_port` or if the own DV has no
entry for `p`, and otherwise emits exactly one datagram, addressed to the first
hop of the own-DV entry found for `p`; the routing state is untouched (through
`server_loop` as well). -/
theorem forwarding_decision (s : State) (sender_port : Nat) (buffer : List Nat) :
    (byte_at buffer 3 * 256 + byte_at buffer 4 = s.my_port →
      handle_data_packet s sender_port buffer = []) ∧
    (byte_at buffer 3 * 256 + byte_at buffer 4 ≠ s.my_port →
      dv_lookup s.my_dv (byte_at buffer 3 * 256 + byte_at buffer 4) = none →
      handle_data_packet s sender_port buffer = []) ∧
    (byte_at buffer 3 * 256 + byte_at buffer 4 ≠ s.my_port →
      ∀ e, dv_lookup s.my_dv (byte_at buffer 3 * 256 + byte_at buffer 4) = some e →
      ∃ d, handle_data_packet s sender_port buffer = [d] ∧ d.dest_port = e.first_hop_port) ∧
    (∀ b : Int, byte_at buffer 0 = DATA_PACKET →
      (server_loop s b sender_port buffer).1 = s) := by
  refine ⟨?_, ?_, ?_, ?_⟩
  · intro hp
    simp [handle_data_packet, ntohs, hp]
  · intro hp hnone
    cases hf : dv_find s.my_dv (byte_at buffer 3 * 256 + byte_at buffer 4) with
    | none => simp [handle_data_packet, ntohs, hp, hf]
    | some i => simp [dv_lookup, hf] at hnone
  · intro hp e he
    cases hf : dv_find s.my_dv (byte_at buffer 3 * 256 + byte_at buffer 4) with
    | none => simp [dv_lookup, hf] at he
    | some i =>
      simp only [dv_lookup, hf, Option.map_some', Option.some.injEq] at he
      refine ⟨send_message (buffer.map some) (5 * 1 + MAX_BODY_LEN + 1) e.first_hop_port,
        ?_, rfl⟩
      simp only [handle_data_packet, ntohs, hf, if_pos hp, he]
  · intro b hty
    unfold server_loop
    split
    · rfl
    · split
      · rfl
      · rfl

theorem forwarding_decision_witness :
    byte_at example_data_buffer 3 * 256 + byte_at example_data_buffer 4 ≠
        example_converged.my_port ∧
      dv_lookup example_converged.my_dv
        (byte_at example_data_buffer 3 * 256 + byte_at example_data_buffer 4) =
          some (dv_entry.mk 10003 10001 3) ∧
      ∃ d, handle_data_packet example_converged 10001 example_data_buffer = [d] ∧
        d.dest_port = (dv_entry.mk 10003 10001 3).first_hop_port :=
  ⟨by decide, by decide,
    (forwarding_decision example_converged 10001 example_data_buffer).2.2.1 (by decide)
      (dv_entry.mk 10003 10001 3) (by decide)⟩

/-- C16 as the program has it: the datagram a forwarded DATA packet goes out in
always has `5 + MAX_BODY_LEN + 1 = 87` bytes, byte for byte those of the receive
buffer; so it consists of exactly the bytes received when the received length is
87 (the size the traffic generator sends), whatever the payload. -/
theorem forwarding_sends_buffer (s : State) (sender_port : Nat) (buffer : List Nat)
    (d : Datagram) (hd : d ∈ handle_data_packet s sender_port buffer) :
    d.bytes.length = 87 ∧ (∀ i, i < 87 → d.bytes[i]? = some buffer[i]?) ∧
      (buffer.length = 87 → d.bytes = buffer.map some) := by
  have hbytes : d.bytes = (List.range 87).map (fun i => buffer[i]?) := by
    unfold handle_data_packet at hd
    simp only at hd
    split at hd
    · split at hd
      · cases hd
      · rw [List.mem_singleton] at hd
        subst hd
        simp only [send_message, MAX_BODY_LEN]
        apply List.map_congr_left
        intro i _
        simp only [List.get?_eq_getElem?, List.getElem?_map]
        cases buffer[i]? <;> rfl
    · cases hd
  refine ⟨by rw [hbytes]; simp, ?_, ?_⟩
  · intro i hi
    rw [hbytes, List.getElem?_map, List.getElem?_range hi]
    rfl
  · intro hlen
    rw [hbytes]
    apply List.ext_getElem?
    intro i
    by_cases hi : i < 87
    · rw [List.getElem?_map, List.getElem?_range hi, List.getElem?_map]
      simp only [Option.map_some']
      rw [List.getElem?_eq_getElem (by omega)]
      rfl
    · rw [List.getElem?_eq_none (by simp; omega), List.getElem?_eq_none (by simp; omega)]

theorem forwarding_sends_buffer_witness :
    Datagram.mk 10001 ((List.range 87).map (fun i => example_data_buffer[i]?)) ∈
        handle_data_packet example_converged 10001 example_data_buffer ∧
      (Datagram.mk 10001 ((List.range 87).map (fun i => example_data_buffer[i]?))).bytes.length
        = 87 :=
  ⟨by decide, (forwarding_sends_buffer example_converged 10001 example_data_buffer _
    (by decide)).1⟩

/-- C16 as stated fails: a forwarded DATA packet of 7 received bytes goes out as a
datagram of 87 bytes. -/
theorem forwarding_sends_buffer_counterexample :
    example_data_buffer.length = 7 ∧
      (handle_data_packet example_converged 10001 example_data_buffer).map
        (fun d => (d.dest_port, d.bytes.length)) = [(10001, 87)] :=
  ⟨by decide, by decide⟩

/-! ## The DV message on the wire -/

theorem length_store_bytes (buf : List (Option Nat)) (off : Nat) (bs : List Nat) :
    (store_bytes buf off bs).length = buf.length := by
  induction bs generalizing buf off with
  | nil => rfl
  | cons b bs ih => simp [store_bytes, ih]

theorem store_bytes_getElem? (buf : List (Option Nat)) (off : Nat) (bs : List Nat) (k : Nat) :
    (store_bytes buf off bs)[k]? =
      if off ≤ k ∧ k < off + bs.length ∧ k < buf.length then bs[k - off]?.map some
      else buf[k]? := by
  induction bs generalizing buf off with
  | nil =>
    have : ¬ (off ≤ k ∧ k < off + ([] : List Nat).length ∧ k < buf.length) := by
      simp only [List.length_nil]; omega
    rw [if_neg this]
    rfl
  | cons b bs ih =>
    rw [store_bytes, ih, List.length_set, List.getElem?_set]
    by_cases hk : k = off
    · subst hk
      have h1 : ¬ (k + 1 ≤ k ∧ k < k + 1 + bs.length ∧ k < buf.length) := by omega
      rw [if_neg h1]
      by_cases hl : k < buf.length
      · have h2 : k ≤ k ∧ k < k + (b :: bs).length ∧ k < buf.length := by
          simp only [List.length_cons]; omega
        rw [if_pos h2]
        simp [hl]
      · have h2 : ¬ (k ≤ k ∧ k < k + (b :: bs).length ∧ k < buf.length) := by omega
        rw [if_neg h2]
        simp only [if_true, if_neg hl]
        rw [List.getElem?_eq_none (by omega)]
    · have hne : ¬ off = k := fun h => hk h.symm
      by_cases hc : off + 1 ≤ k ∧ k < off + 1 + bs.length ∧ k < buf.length
      · have h2 : off ≤ k ∧ k < off + (b :: bs).length ∧ k < buf.length := by
          simp only [List.length_cons]; omega
        rw [if_pos hc, if_pos h2]
        have : k - off = (k - (off + 1)) + 1 := by omega
        rw [this, List.getElem?_cons_succ]
      · have h2 : ¬ (off ≤ k ∧ k < off + (b :: bs).length ∧ k < buf.length) := by
          simp only [List.length_cons]; omega
        rw [if_neg hc, if_neg h2, if_neg hne]

theorem store_bytes_append (buf : List (Option Nat)) (off : Nat) (a b : List Nat) :
    store_bytes buf off (a ++ b) = store_bytes (store_bytes buf off a) (off + a.length) b := by
  induction a generalizing buf off with
  | nil => rfl
  | cons x a ih =>
    show store_bytes (buf.set off (some x)) (off + 1) (a ++ b) =
      store_bytes (store_bytes (buf.set off (some x)) (off + 1) a) (off + (a.length + 1)) b
    rw [ih, Nat.add_assoc, Nat.add_comm 1 a.length]

theorem length_hton_dv_entry (e : dv_entry) : (hton_dv_entry e).length = 8 := rfl

theorem store_entries_eq (buf : List (Option Nat)) (slot : Nat) (es : List dv_entry) :
    store_entries buf slot es =
      store_bytes buf (SIZEOF_DV_ENTRY * slot) (es.map hton_dv_entry).flatten := by
  induction es generalizing buf slot with
  | nil => rfl
  | cons e es ih =>
    simp only [store_entries, ih, List.map_cons, List.flatten_cons, store_bytes_append,
      length_hton_dv_entry]
    rfl

theorem length_flatten_hton (dv : List dv_entry) :
    (dv.map hton_dv_entry).flatten.length = 8 * dv.length := by
  induction dv with
  | nil => rfl
  | cons e es ih =>
    simp only [List.map_cons, List.flatten_cons, List.length_append, length_hton_dv_entry, ih,
      List.length_cons]
    omega

/-- Byte `j` of entry `i` sits at offset `8 * i + j` of the serialised entries. -/
theorem flatten_hton_getElem? (dv : List dv_entry) (i j : Nat) (hj : j < 8) :
    (dv.map hton_dv_entry).flatten[8 * i + j]? =
      dv[i]?.bind (fun e => (hton_dv_entry e)[j]?) := by
  induction dv generalizing i with
  | nil => simp
  | cons e es ih =>
    simp only [List.map_cons, List.flatten_cons]
    cases i with
    | zero =>
      rw [List.getElem?_append_left (by rw [length_hton_dv_entry]; omega)]
      simp
    | succ i =>
      rw [List.getElem?_append_right (by rw [length_hton_dv_entry]; omega),
        length_hton_dv_entry]
      have : 8 * (i + 1) + j - 8 = 8 * i + j := by omega
      rw [this, ih]
      simp

/-- The bytes handed to `sendto` for a DV message are the wire image of the own DV. -/
theorem dv_message_bytes (s : State) (type p : Nat) (hn : s.my_dv.length ≤ DV_CAPACITY) :
    (send_message (create_dv_message s fresh_message type)
      ((s.my_dv.length + 1) * SIZEOF_DV_ENTRY) p).bytes = dv_wire type s.my_dv := by
  have hlen := length_flatten_hton s.my_dv
  have hcap : s.my_dv.length ≤ 16 := hn
  apply List.ext_getElem?
  intro k
  simp only [send_message, create_dv_message, store_entries_eq, List.getElem?_map,
    List.get?_eq_getElem?, dv_wire, SIZEOF_DV_ENTRY]
  by_cases hk : k < (s.my_dv.length + 1) * 8
  · rw [List.getElem?_range hk]
    simp only [Option.map_some', store_bytes_getElem?, List.length_set, fresh_message,
      List.length_replicate, DV_CAPACITY, SIZEOF_DV_ENTRY, hlen]
    by_cases h8 : 8 ≤ k
    · have hc : 8 * 1 ≤ k ∧ k < 8 * 1 + 8 * s.my_dv.length ∧ k < (16 + 1) * 8 := by omega
      rw [if_pos hc]
      have hk8 : k = (k - 8) + 8 := by omega
      have hW : k - 8 < (s.my_dv.map hton_dv_entry).flatten.length := by omega
      rw [show k - 8 * 1 = k - 8 by omega, List.getElem?_eq_getElem hW]
      conv_rhs => rw [hk8]
      rw [show some type :: List.replicate 7 none ++
          List.map some (s.my_dv.map hton_dv_entry).flatten =
          (some type :: List.replicate 7 none) ++
            List.map some (s.my_dv.map hton_dv_entry).flatten by rfl,
        List.getElem?_append_right (by simp), List.getElem?_map]
      simp [List.getElem?_eq_getElem hW]
    · have hc : ¬ (8 * 1 ≤ k ∧ k < 8 * 1 + 8 * s.my_dv.length ∧ k < (16 + 1) * 8) := by omega
      rw [if_neg hc]
      rw [List.getElem?_set, List.getElem?_replicate,
        show some type :: List.replicate 7 none ++
          List.map some (s.my_dv.map hton_dv_entry).flatten =
          (some type :: List.replicate 7 none) ++
            List.map some (s.my_dv.map hton_dv_entry).flatten by rfl,
        List.getElem?_append_left (by simp only [List.length_cons, List.length_replicate]; omega)]
      cases k with
      | zero =>
        simp only [List.length_replicate, List.getElem?_cons_zero, if_true]
        rfl
      | succ k' =>
        have h1 : ¬ (0 = k' + 1) := by omega
        have h2 : k' + 1 < (16 + 1) * 8 := by omega
        have h3 : k' < 7 := by omega
        rw [if_neg h1, if_pos h2, List.getElem?_cons_succ, List.getElem?_replicate, if_pos h3]
        rfl
  · rw [List.getElem?_eq_none (by simp; omega)]
    simp only [Option.map_none']
    rw [List.getElem?_eq_none]
    simp only [List.length_cons, List.length_append, List.length_replicate, List.length_map, hlen]
    omega

theorem length_dv_wire (type : Nat) (dv : List dv_entry) :
    (dv_wire type dv).length = (dv.length + 1) * 8 := by
  simp only [dv_wire, List.length_cons, List.length_append, List.length_replicate,
    List.length_map, length_flatten_hton]
  omega

/-- Byte `j` of entry `i` in the wire image. -/
theorem dv_wire_entry (type : Nat) (dv : List dv_entry) (i j : Nat) (e : dv_entry)
    (hi : dv[i]? = some e) (hj : j < 8) :
    (dv_wire type dv)[8 * (i + 1) + j]? = (hton_dv_entry e)[j]?.map some := by
  have h8 : 8 * (i + 1) + j = (8 * i + j) + 8 := by omega
  rw [dv_wire, h8,
    show some type :: List.replicate 7 none ++ List.map some (dv.map hton_dv_entry).flatten =
      (some type :: List.replicate 7 none) ++ List.map some (dv.map hton_dv_entry).flatten
      by rfl,
    List.getElem?_append_right (by simp)]
  simp only [List.length_cons, List.length_replicate, Nat.add_sub_cancel, List.getElem?_map,
    flatten_hton_getElem? dv i j hj, hi, Option.some_bind]

/-! ## Codec round trip -/

/-- The fields of an entry fit their C types `uint16_t`, `uint16_t`, `uint32_t`. -/
theorem ntoh_hton_dv_entry (e : dv_entry) (hd : e.dest_port < 65536)
    (hh : e.first_hop_port < 65536) (hc : e.cost < 4294967296) :
    ntoh_dv_entry (hton_dv_entry e) 0 = e := by
  cases e with
  | mk d h c =>
    simp only at hd hh hc
    simp only [ntoh_dv_entry, hton_dv_entry, htons, htonl, byte_at, ntohs, ntohl,
      List.cons_append, List.nil_append, List.getD_cons_zero, List.getD_cons_succ,
      dv_entry.mk.injEq]
    refine ⟨by omega, by omega, by omega⟩

/-- A buffer that carries the bytes of the wire image decodes, slot by slot, to
the entries that were encoded. -/
theorem ntoh_of_wire (type : Nat) (dv : List dv_entry) (buffer : List Nat)
    (hbuf : ∀ (k b : Nat), (dv_wire type dv)[k]? = some (some b) → buffer[k]? = some b)
    (i : Nat) (e : dv_entry) (hi : dv[i]? = some e) (hd : e.dest_port < 65536)
    (hh : e.first_hop_port < 65536) (hc : e.cost < 4294967296) :
    ntoh_dv_entry buffer (SIZEOF_DV_ENTRY * (i + 1)) = e := by
  have hbyte : ∀ j, j < 8 →
      byte_at buffer (8 * (i + 1) + j) = byte_at (hton_dv_entry e) j := by
    intro j hj
    have hw := dv_wire_entry type dv i j e hi hj
    have hlt : j < (hton_dv_entry e).length := by rw [length_hton_dv_entry]; exact hj
    rw [List.getElem?_eq_getElem hlt] at hw
    have := hbuf _ _ hw
    simp only [byte_at, List.getD_eq_getElem?_getD, this, List.getElem?_eq_getElem hlt,
      Option.getD_some]
  have h0 := hbyte 0 (by omega)
  have h1 := hbyte 1 (by omega)
  have h2 := hbyte 2 (by omega)
  have h3 := hbyte 3 (by omega)
  have h4 := hbyte 4 (by omega)
  have h5 := hbyte 5 (by omega)
  have h6 := hbyte 6 (by omega)
  have h7 := hbyte 7 (by omega)
  have key := ntoh_hton_dv_entry e hd hh hc
  simp only [ntoh_dv_entry, Nat.zero_add] at key
  simp only [Nat.add_zero] at h0
  simp only [ntoh_dv_entry, SIZEOF_DV_ENTRY, h0, h1, h2, h3, h4, h5, h6, h7]
  exact key

theorem received_dv_of_wire (type : Nat) (dv : List dv_entry) (buffer : List Nat)
    (hbuf : ∀ (k b : Nat), (dv_wire type dv)[k]? = some (some b) → buffer[k]? = some b)
    (hrange : ∀ e ∈ dv, e.dest_port < 65536 ∧ e.first_hop_port < 65536 ∧ e.cost < 4294967296) :
    received_dv buffer ((((dv.length + 1) * 8 / SIZEOF_DV_ENTRY : Nat) : Int) - 1) = dv := by
  have hlen : ((((dv.length + 1) * 8 / SIZEOF_DV_ENTRY : Nat) : Int) - 1).toNat = dv.length := by
    simp only [SIZEOF_DV_ENTRY]
    omega
  unfold received_dv
  rw [hlen]
  apply List.ext_getElem
  · simp
  · intro i h1 h2
    simp only [List.getElem_map, List.getElem_range]
    have hi : dv[i]? = some dv[i] := List.getElem?_eq_getElem h2
    have hr := hrange dv[i] (List.getElem_mem h2)
    exact ntoh_of_wire type dv buffer hbuf i dv[i] hi hr.1 hr.2.1 hr.2.2

/-- C11: for an own DV of `n <= 16` entries whose fields fit their C types, the
message built by `create_dv_message` and sent has length `(n+1)*8`, the type code
in byte 0 and entry `i` serialised big-endian (`dest_port` u16, `first_hop_port`
u16, `cost` u32) from byte `8*(i+1)` on; a receiver that has the sender as a
registered neighbour accepts a buffer holding these bytes and its cached DV of
the sender becomes exactly the same entries in the same order; `ntoh_dv_entry`
after `hton_dv_entry` is the identity on every entry. -/
theorem dv_codec_round_trip (s : State) (type p : Nat)
    (hn : s.my_dv.length ≤ DV_CAPACITY)
    (hrange : ∀ e ∈ s.my_dv,
      e.dest_port < 65536 ∧ e.first_hop_port < 65536 ∧ e.cost < 4294967296) :
    (send_message (create_dv_message s fresh_message type)
        ((s.my_dv.length + 1) * SIZEOF_DV_ENTRY) p).bytes.length = (s.my_dv.length + 1) * 8 ∧
    (send_message (create_dv_message s fresh_message type)
        ((s.my_dv.length + 1) * SIZEOF_DV_ENTRY) p).bytes[0]? = some (some type) ∧
    (∀ i e, s.my_dv[i]? = some e →
      ((send_message (create_dv_message s fresh_message type)
        ((s.my_dv.length + 1) * SIZEOF_DV_ENTRY) p).bytes.drop (8 * (i + 1))).take 8 =
      [some (e.dest_port / 256 % 256), some (e.dest_port % 256),
       some (e.first_hop_port / 256 % 256), some (e.first_hop_port % 256),
       some (e.cost / 16777216 % 256), some (e.cost / 65536 % 256),
       some (e.cost / 256 % 256), some (e.cost % 256)]) ∧
    (∀ (r : State) (S : Nat) (buffer : List Nat),
      (∀ (k b : Nat), (send_message (create_dv_message s fresh_message type)
          ((s.my_dv.length + 1) * SIZEOF_DV_ENTRY) p).bytes[k]? = some (some b) →
        buffer[k]? = some b) →
      (neighbor_list_find r.my_neighbor_list_head S).isSome = true →
      0 ≤ (handle_dv_packet r S buffer ((s.my_dv.length + 1) * 8)).1 ∧
      ∃ k n, neighbor_list_find
          (handle_dv_packet r S buffer ((s.my_dv.length + 1) * 8)).2.my_neighbor_list_head S
            = some k ∧
        (handle_dv_packet r S buffer ((s.my_dv.length + 1) * 8)).2.my_neighbor_list_head[k]?
            = some n ∧
        n.dv = s.my_dv) ∧
    (∀ e ∈ s.my_dv, ntoh_dv_entry (hton_dv_entry e) 0 = e) := by
  rw [dv_message_bytes s type p hn]
  refine ⟨length_dv_wire type s.my_dv, by simp [dv_wire], ?_, ?_, ?_⟩
  · intro i e hi
    apply List.ext_getElem?
    intro j
    rw [List.getElem?_take]
    by_cases hj : j < 8
    · rw [if_pos hj, List.getElem?_drop, dv_wire_entry type s.my_dv i j e hi hj]
      have hcases : j = 0 ∨ j = 1 ∨ j = 2 ∨ j = 3 ∨ j = 4 ∨ j = 5 ∨ j = 6 ∨ j = 7 := by omega
      rcases hcases with h | h | h | h | h | h | h | h <;> subst h <;> rfl
    · rw [if_neg hj, List.getElem?_eq_none (by simp; omega)]
  · intro r S buffer hbuf hS
    obtain ⟨k, hf⟩ := Option.isSome_iff_exists.mp hS
    obtain ⟨n, hnk, hp⟩ := neighbor_list_find_some hf
    have hL : (s.my_dv.length + 1) * 8 % SIZEOF_DV_ENTRY = 0 := by
      simp only [SIZEOF_DV_ENTRY]; omega
    have hcap : ((((s.my_dv.length + 1) * 8 / SIZEOF_DV_ENTRY : Nat) : Int) - 1
        ≤ (DV_CAPACITY : Int)) := by
      have : s.my_dv.length ≤ 16 := hn
      simp only [SIZEOF_DV_ENTRY, DV_CAPACITY]
      omega
    have hacc := handle_dv_packet_accept buffer hf hnk hL hcap
    rw [received_dv_of_wire type s.my_dv buffer hbuf hrange] at hacc
    rw [hacc]
    refine ⟨bellman_ford_update_count_nonneg _ _ _, k,
      neighbor_list_node.mk n.port n.cost s.my_dv, ?_, ?_, rfl⟩
    · rw [bellman_ford_update_neighbors]
      show neighbor_list_find (r.my_neighbor_list_head.set k _) S = some k
      rw [neighbor_list_find_congr (map_set_of_eq neighbor_list_node.port hnk
        (rfl : (neighbor_list_node.mk n.port n.cost s.my_dv).port = n.port)) S]
      exact hf
    · rw [bellman_ford_update_neighbors]
      show (r.my_neighbor_list_head.set k _)[k]? = _
      rw [List.getElem?_set]
      simp [lt_of_getElem? hnk]
  · intro e he
    have hr := hrange e he
    exact ntoh_hton_dv_entry e hr.1 hr.2.1 hr.2.2

theorem dv_codec_round_trip_witness :
    example_converged.my_dv.length ≤ DV_CAPACITY ∧
      (∀ e ∈ example_converged.my_dv,
        e.dest_port < 65536 ∧ e.first_hop_port < 65536 ∧ e.cost < 4294967296) ∧
      (send_message (create_dv_message example_converged fresh_message DV_PACKET)
        ((example_converged.my_dv.length + 1) * SIZEOF_DV_ENTRY) 10001).bytes.length =
          (example_converged.my_dv.length + 1) * 8 :=
  ⟨by decide, by decide,
    (dv_codec_round_trip example_converged DV_PACKET 10001 (by decide) (by decide)).1⟩

/-! ## Dispatch of routing updates -/

theorem broadcast_my_dv_eq (s : State) (type : Nat) (hn : s.my_dv.length ≤ DV_CAPACITY) :
    broadcast_my_dv s type =
      s.my_neighbor_list_head.map (fun n => Datagram.mk n.port (dv_wire type s.my_dv)) := by
  unfold broadcast_my_dv
  apply List.map_congr_left
  intro n _
  have h := dv_message_bytes s type n.port hn
  simp only [send_message] at h ⊢
  rw [h]

theorem send_my_dv_eq (s : State) (p : Nat) (hn : s.my_dv.length ≤ DV_CAPACITY) :
    send_my_dv s p = [Datagram.mk p (dv_wire DV_PACKET s.my_dv)] := by
  have h := dv_message_bytes s DV_PACKET p hn
  simp only [send_message] at h
  simp only [send_my_dv, send_message, h]

/-- C14: from a reachable state, for a DV datagram that `handle_dv_packet`
accepts, `server_loop` emits one type-DV message carrying the updated own DV per
neighbour record when the change count is positive and nothing when it is 0; for
an accepted INITIAL_DV datagram it emits the same broadcast when the change count
is positive and otherwise one type-DV message carrying the own DV to the sender's
port only; a datagram whose first byte is none of 1, 2, 3, 4 changes no state and
emits nothing. -/
theorem dispatch_routing_updates (s : State) (b : Int) (p : Nat) (buffer : List Nat)
    (hs : Reachable s) (hb : 0 < b) :
    (byte_at buffer 0 = DV_PACKET → 0 ≤ (handle_dv_packet s p buffer b.toNat).1 →
      server_loop s b p buffer =
        ((handle_dv_packet s p buffer b.toNat).2,
          if (handle_dv_packet s p buffer b.toNat).1 > 0 then
            (handle_dv_packet s p buffer b.toNat).2.my_neighbor_list_head.map
              (fun n => Datagram.mk n.port
                (dv_wire DV_PACKET (handle_dv_packet s p buffer b.toNat).2.my_dv))
          else [])) ∧
    (byte_at buffer 0 = INITIAL_DV_PACKET → 0 ≤ (handle_dv_packet s p buffer b.toNat).1 →
      server_loop s b p buffer =
        ((handle_dv_packet s p buffer b.toNat).2,
          if (handle_dv_packet s p buffer b.toNat).1 > 0 then
            (handle_dv_packet s p buffer b.toNat).2.my_neighbor_list_head.map
              (fun n => Datagram.mk n.port
                (dv_wire DV_PACKET (handle_dv_packet s p buffer b.toNat).2.my_dv))
          else [Datagram.mk p
            (dv_wire DV_PACKET (handle_dv_packet s p buffer b.toNat).2.my_dv)])) ∧
    (byte_at buffer 0 ≠ DATA_PACKET → byte_at buffer 0 ≠ DV_PACKET →
      byte_at buffer 0 ≠ KILLED_PACKET → byte_at buffer 0 ≠ INITIAL_DV_PACKET →
      server_loop s b p buffer = (s, [])) := by
  have hb1 : ¬ b < 0 := by omega
  have hb2 : ¬ b = 0 := by omega
  have hlen := (handle_dv_packet_inv s p buffer b.toNat (reachable_inv hs)).1.2.2
  refine ⟨?_, ?_, ?_⟩
  · intro hty _
    have h3 : ¬ byte_at buffer 0 = DATA_PACKET := by rw [hty]; decide
    rw [server_loop, if_neg hb1, if_neg hb2, if_neg h3, if_pos hty]
    simp only [broadcast_my_dv_eq _ DV_PACKET hlen]
    split <;> rfl
  · intro hty _
    have h3 : ¬ byte_at buffer 0 = DATA_PACKET := by rw [hty]; decide
    have h4 : ¬ byte_at buffer 0 = DV_PACKET := by rw [hty]; decide
    have h5 : ¬ byte_at buffer 0 = KILLED_PACKET := by rw [hty]; decide
    rw [server_loop, if_neg hb1, if_neg hb2, if_neg h3, if_neg h4, if_neg h5, if_pos hty]
    simp only [broadcast_my_dv_eq _ DV_PACKET hlen, send_my_dv_eq _ p hlen]
    split <;> rfl
  · intro h1 h2 h3 h4
    rw [server_loop, if_neg hb1, if_neg hb2, if_neg h1, if_neg h2, if_neg h3, if_neg h4]

theorem dispatch_routing_updates_witness :
    Reachable example_start ∧ (0 : Int) < 16 ∧ byte_at example_dv_buffer 0 = DV_PACKET ∧
      (handle_dv_packet example_start 10001 example_dv_buffer (16 : Int).toNat).1 = 2 ∧
      server_loop example_start 16 10001 example_dv_buffer =
        ((handle_dv_packet example_start 10001 example_dv_buffer (16 : Int).toNat).2,
          if (handle_dv_packet example_start 10001 example_dv_buffer (16 : Int).toNat).1 > 0
          then
            (handle_dv_packet example_start 10001 example_dv_buffer
              (16 : Int).toNat).2.my_neighbor_list_head.map
              (fun n => Datagram.mk n.port (dv_wire DV_PACKET
                (handle_dv_packet example_start 10001 example_dv_buffer
                  (16 : Int).toNat).2.my_dv))
          else []) :=
  ⟨⟨example_start, [], by simp [startup, example_start], rfl⟩, by decide, by decide, by decide,
    (dispatch_routing_updates example_start 16 10001 example_dv_buffer
      ⟨example_start, [], by simp [startup, example_start], rfl⟩ (by decide)).1
      (by decide) (by decide)⟩

/-! ## End-to-end scenarios -/

set_option maxRecDepth 1000000 in
/-- C17 as stated fails: every emitted datagram is delivered and none remains in
flight, but datagrams overtook earlier ones on the same link (the schedule is not
in order), and A is left with the stale DV of B: its own DV is
`(10002, 10002, 1)` alone, without an entry for 10004. -/
theorem chain_converges_counterexample :
    in_order (boot chain_nodes) chain_overtaking_schedule = false ∧
    (net_run (boot chain_nodes) chain_overtaking_schedule).flight = [] ∧
    (net_run (boot chain_nodes) chain_overtaking_schedule).nodes.map
        (fun s => (s.my_port, s.my_dv)) =
      [(10001, [⟨10002, 10002, 1⟩]),
       (10002, [⟨10003, 10003, 1⟩, ⟨10004, 10003, 2⟩, ⟨10001, 10001, 1⟩]),
       (10003, [⟨10002, 10002, 1⟩, ⟨10004, 10004, 1⟩, ⟨10001, 10002, 2⟩]),
       (10004, [⟨10003, 10003, 1⟩, ⟨10002, 10003, 2⟩, ⟨10001, 10003, 3⟩])] := by
  decide

/-- C18 as stated fails: when B, in the converged state of the triangle, has
processed the KILLED packet from A, its own DV has no entry with first hop A and
none for destination A, as claimed, but its entry for C is not
`(10003, 10003, 10)`: it was deleted, the own DV is empty.  The re-minimisation
looks at cached DVs only and the cached DV of C has no entry for C itself; the
direct route comes back with the next DV from C. -/
theorem handle_killed_packet_drops_direct_route :
    startup example_start ∧
      example_triangle.my_dv = [⟨10003, 10001, 3⟩, ⟨10001, 10001, 1⟩] ∧
      example_triangle.my_neighbor_list_head =
        [⟨10001, 1, [⟨10002, 10002, 1⟩, ⟨10003, 10003, 2⟩]⟩,
         ⟨10003, 10, [⟨10001, 10001, 2⟩, ⟨10002, 10001, 3⟩]⟩] ∧
      (handle_killed_packet example_triangle 10001).1.my_dv = [] ∧
      dv_lookup (handle_killed_packet example_triangle 10001).1.my_dv 10003 ≠
        some (dv_entry.mk 10003 10003 10) :=
  ⟨by simp [startup, example_start], by decide, by decide, by decide, by decide⟩

/-! ## The increase/withdraw pass against the specification -/

theorem offers_cons (n : neighbor_list_node) (rest : List neighbor_list_node) (d : Nat) :
    offers (n :: rest) d =
      match dv_find n.dv d with
      | none => offers rest d
      | some j => (n.port, u32 ((n.dv.getD j default).cost + n.cost)) :: offers rest d := by
  unfold offers dv_lookup
  rw [List.filterMap_cons]
  cases dv_find n.dv d with
  | none => rfl
  | some j => simp [Nat.add_comm]

/-- The scan computes the first offer of minimal cost, as far as it improves on
the initial value of `min_cost`. -/
theorem scan_neighbors_eq_best_offer (neighbors : List neighbor_list_node) (d : Nat)
    (acc : scan_state) :
    scan_neighbors neighbors d acc =
      match best_offer (offers neighbors d) with
      | none => acc
      | some b => if b.2 < acc.min_cost then scan_state.mk b.2 b.1 true else acc := by
  induction neighbors generalizing acc with
  | nil => rfl
  | cons n rest ih =>
    rw [offers_cons]
    cases hf : dv_find n.dv d with
    | none =>
      simp only [scan_neighbors, hf]
      exact ih acc
    | some j =>
      simp only [scan_neighbors, hf, best_offer]
      cases hb : best_offer (offers rest d) with
      | none =>
        simp only [ih, hb]
      | some b =>
        simp only [ih, hb]
        by_cases h1 : u32 ((n.dv.getD j default).cost + n.cost) < acc.min_cost
        · rw [if_pos h1]
          by_cases h2 : b.2 < u32 ((n.dv.getD j default).cost + n.cost)
          · have h3 : b.2 < acc.min_cost := by omega
            simp only [h2, if_true, h3]
          · simp only [h2, if_false, h1, if_true]
        · rw [if_neg h1]
          by_cases h2 : b.2 < u32 ((n.dv.getD j default).cost + n.cost)
          · simp only [h2, if_true]
          · have h3 : ¬ b.2 < acc.min_cost := by omega
            simp only [h2, if_false, h1, h3]

theorem best_offer_eq_none (os : List (Nat × Nat)) (h : best_offer os = none) : os = [] := by
  cases os with
  | nil => rfl
  | cons o' os' =>
    cases hb : best_offer os' with
    | none => simp [best_offer, hb] at h
    | some b =>
      simp only [best_offer, hb] at h
      split at h <;> cases h

/-- `best_offer` returns an offer of the list, of minimal cost, and the first of
that cost. -/
theorem best_offer_spec (os : List (Nat × Nat)) (b : Nat × Nat) (h : best_offer os = some b) :
    ∃ k, os[k]? = some b ∧ (∀ o ∈ os, b.2 ≤ o.2) ∧
      ∀ (j : Nat) (o : Nat × Nat), j < k → os[j]? = some o → b.2 < o.2 := by
  induction os generalizing b with
  | nil => cases h
  | cons o os ih =>
    simp only [best_offer] at h
    cases hb : best_offer os with
    | none =>
      rw [hb] at h
      cases h
      have hnil : os = [] := best_offer_eq_none os hb
      subst hnil
      refine ⟨0, by simp, ?_, fun j _ hj _ => absurd hj (Nat.not_lt_zero j)⟩
      intro o' ho'
      rw [List.mem_singleton.mp ho']
    | some b' =>
      rw [hb] at h
      obtain ⟨k, hk, hmin, hfirst⟩ := ih b' hb
      by_cases hlt : b'.2 < o.2
      · simp only [hlt, if_true, Option.some.injEq] at h
        subst h
        refine ⟨k + 1, by simpa using hk, ?_, ?_⟩
        · intro o' ho'
          rcases List.mem_cons.mp ho' with rfl | ho'
          · exact Nat.le_of_lt hlt
          · exact hmin o' ho'
        · intro j o' hj hjo
          cases j with
          | zero =>
            simp only [List.getElem?_cons_zero, Option.some.injEq] at hjo
            subst hjo
            exact hlt
          | succ j =>
            exact hfirst j o' (by omega) (by simpa using hjo)
      · simp only [hlt, if_false, Option.some.injEq] at h
        subst h
        refine ⟨0, by simp, ?_, fun j _ hj _ => absurd hj (Nat.not_lt_zero j)⟩
        intro o' ho'
        rcases List.mem_cons.mp ho' with rfl | ho'
        · exact Nat.le_refl _
        · have := hmin o' ho'
          omega

/-- The test of the loop is the condition of the specification. -/
theorem reconsidered_iff (S : Nat) (sender : neighbor_list_node) (a : dv_entry) :
    reconsidered S sender a = true ↔
      (a.first_hop_port = S ∧ a.dest_port ≠ S ∧ path_worsened sender a = true) := by
  unfold reconsidered path_worsened dv_lookup
  cases dv_find sender.dv a.dest_port with
  | none => simp
  | some j => simp [and_assoc]

/-- The outcome of the scan of the loop is the re-minimisation of the
specification. -/
theorem reminimise_eq_scan (neighbors : List neighbor_list_node) (a : dv_entry) :
    reminimise neighbors a =
      if (scan_neighbors neighbors a.dest_port scan_init).is_reachable = true ∧
          (scan_neighbors neighbors a.dest_port scan_init).min_cost < MAX_POSSIBLE_COST
      then some (dv_entry.mk a.dest_port
        (scan_neighbors neighbors a.dest_port scan_init).best_first_hop_port
        (scan_neighbors neighbors a.dest_port scan_init).min_cost)
      else none := by
  rw [scan_neighbors_eq_best_offer]
  unfold reminimise
  cases best_offer (offers neighbors a.dest_port) with
  | none => simp [scan_init]
  | some b =>
    simp only
    simp only [scan_init]
    by_cases hmax : b.2 < UINT32_MAX
    · simp only [if_pos hmax, true_and]
    · have h64 : ¬ b.2 < MAX_POSSIBLE_COST := by
        simp only [UINT32_MAX] at hmax
        simp only [MAX_POSSIBLE_COST]
        omega
      simp [if_neg hmax, h64]

theorem take_set_self (l : List dv_entry) (i : Nat) (x : dv_entry) :
    (l.set i x).take i = l.take i := by
  apply List.ext_getElem?
  intro k
  rw [List.getElem?_take, List.getElem?_take]
  by_cases hk : k < i
  · have hne : ¬ i = k := by omega
    rw [if_pos hk, if_pos hk, List.getElem?_set, if_neg hne]
  · rw [if_neg hk, if_neg hk]

theorem drop_set_succ (l : List dv_entry) (i : Nat) (x : dv_entry) :
    (l.set i x).drop (i + 1) = l.drop (i + 1) := by
  apply List.ext_getElem?
  intro k
  have hne : ¬ i = i + 1 + k := by omega
  rw [List.getElem?_drop, List.getElem?_drop, List.getElem?_set, if_neg hne]

theorem take_succ_of_getElem? {l : List dv_entry} {i : Nat} {a : dv_entry}
    (h : l[i]? = some a) : l.take (i + 1) = l.take i ++ [a] := by
  rw [List.take_succ, h]
  rfl

theorem drop_of_getElem? {l : List dv_entry} {i : Nat} {a : dv_entry}
    (h : l[i]? = some a) : l.drop i = a :: l.drop (i + 1) := by
  have hi := lt_of_getElem? h
  rw [List.getElem?_eq_getElem hi] at h
  cases h
  exact List.drop_eq_getElem_cons hi

/-- Deleting slot `i` keeps the slots before it and permutes those after it. -/
theorem swap_delete_take_drop {dv : List dv_entry} {i : Nat} {a : dv_entry}
    (h : dv[i]? = some a) :
    (swap_delete dv i).take i = dv.take i ∧ ((swap_delete dv i).drop i).Perm (dv.drop (i + 1)) := by
  have hi := lt_of_getElem? h
  rw [swap_delete_eq_spec_remove dv hi]
  unfold spec_remove
  by_cases hlast : i + 1 = dv.length
  · rw [if_pos hlast]
    refine ⟨by rw [List.take_take, Nat.min_self], ?_⟩
    rw [List.drop_take, Nat.sub_self, List.take_zero, List.drop_eq_nil_of_le (by omega)]
  · rw [if_neg hlast]
    have hlen : (dv.take i).length = i := by rw [List.length_take]; omega
    refine ⟨?_, ?_⟩
    · rw [List.append_assoc, List.take_append_eq_append_take, hlen, Nat.sub_self, List.take_zero,
        List.append_nil, List.take_take, Nat.min_self]
    · rw [List.append_assoc, List.drop_append_eq_append_drop, hlen, Nat.sub_self, List.drop_zero,
        List.drop_take, Nat.sub_self, List.take_zero, List.nil_append]
      have hlastD : (dv.drop (i + 1)).getLast? = dv.getLast? := by
        rw [List.getLast?_drop, if_neg (by omega)]
      cases hl : dv.getLast? with
      | none =>
        rw [List.getLast?_eq_getElem?, List.getElem?_eq_getElem (by omega)] at hl
        cases hl
      | some x =>
        have := List.dropLast_append_getLast? x (by rw [hlastD, hl]; rfl :
          x ∈ (dv.drop (i + 1)).getLast?)
        simp only [Option.toList]
        rw [← this, List.dropLast_append_of_ne_nil _ (by simp), List.dropLast_single,
          List.append_nil]
        rw [this]
        conv_rhs => rw [← this]
        exact List.perm_append_comm

/-- The table and the change count the loop ends with. -/
theorem increase_pass_outcome (S : Nat) (sender : neighbor_list_node)
    (neighbors : List neighbor_list_node) (dv : List dv_entry) :
    ((increase_pass S sender neighbors dv.length 0 dv 0).1.Perm
      (dv.filterMap (increase_outcome S sender neighbors))) ∧
    (increase_pass S sender neighbors dv.length 0 dv 0).2 =
      ((dv.countP (reconsidered S sender) : Nat) : Int) := by
  refine increase_pass_induct S sender neighbors
      (fun i dv' cc =>
        (dv'.take i ++ (dv'.drop i).filterMap (increase_outcome S sender neighbors)).Perm
          (dv.filterMap (increase_outcome S sender neighbors)) ∧
        cc + (((dv'.drop i).countP (reconsidered S sender) : Nat) : Int) =
          ((dv.countP (reconsidered S sender) : Nat) : Int))
      (fun dv' cc => dv'.Perm (dv.filterMap (increase_outcome S sender neighbors)) ∧
        cc = ((dv.countP (reconsidered S sender) : Nat) : Int))
      ?_ ?_ ?_ ?_ dv.length 0 dv 0 (by omega)
      ⟨by simp, by simp⟩
  · intro i dv' cc a ha hq hno
    have hrec : reconsidered S sender a = false := by
      cases hr : reconsidered S sender a with
      | false => rfl
      | true => exact absurd ((reconsidered_iff S sender a).mp hr) hno
    have hout : increase_outcome S sender neighbors a = some a := by
      simp [increase_outcome, hrec]
    rw [drop_of_getElem? ha, List.filterMap_cons, hout, List.countP_cons, hrec] at hq
    rw [take_succ_of_getElem? ha]
    refine ⟨?_, ?_⟩
    · simpa using hq.1
    · simpa using hq.2
  · intro i dv' cc a ha hq h1 h2 h3 h4 h5
    have hrec : reconsidered S sender a = true :=
      (reconsidered_iff S sender a).mpr ⟨h1, h2, h3⟩
    have hout : increase_outcome S sender neighbors a =
        some (dv_entry.mk a.dest_port
          (scan_neighbors neighbors a.dest_port scan_init).best_first_hop_port
          (scan_neighbors neighbors a.dest_port scan_init).min_cost) := by
      simp only [increase_outcome, hrec, if_true, reminimise_eq_scan]
      rw [if_pos ⟨h4, h5⟩]
    rw [drop_of_getElem? ha, List.filterMap_cons, hout, List.countP_cons, hrec] at hq
    have hset : (dv'.set i (dv_entry.mk a.dest_port
          (scan_neighbors neighbors a.dest_port scan_init).best_first_hop_port
          (scan_neighbors neighbors a.dest_port scan_init).min_cost))[i]? = some
        (dv_entry.mk a.dest_port
          (scan_neighbors neighbors a.dest_port scan_init).best_first_hop_port
          (scan_neighbors neighbors a.dest_port scan_init).min_cost) := by
      rw [List.getElem?_set]
      simp [lt_of_getElem? ha]
    rw [take_succ_of_getElem? hset, take_set_self, drop_set_succ]
    refine ⟨?_, ?_⟩
    · simpa using hq.1
    · have := hq.2
      simp only [if_true] at this
      push_cast at this
      omega
  · intro i dv' cc a ha hq h1 h2 h3 h4
    have hrec : reconsidered S sender a = true :=
      (reconsidered_iff S sender a).mpr ⟨h1, h2, h3⟩
    have hout : increase_outcome S sender neighbors a = none := by
      simp only [increase_outcome, hrec, if_true, reminimise_eq_scan]
      rw [if_neg h4]
    rw [drop_of_getElem? ha, List.filterMap_cons, hout, List.countP_cons, hrec] at hq
    obtain ⟨ht, hd⟩ := swap_delete_take_drop ha
    rw [ht]
    refine ⟨?_, ?_⟩
    · exact List.Perm.trans
        (List.Perm.append_left _ (List.Perm.filterMap _ hd)) hq.1
    · have := hq.2
      simp only [if_true] at this
      push_cast at this
      rw [List.Perm.countP_eq _ hd]
      omega
  · intro i dv' cc hlen hq
    rw [List.take_of_length_le hlen, List.drop_eq_nil_of_le hlen] at hq
    refine ⟨by simpa using hq.1, by simpa using hq.2⟩

/-- C19 with 32-bit sums: the increase/withdraw pass of `handle_dv_packet`
re-minimises globally, every sum of a link cost and a cached cost being taken
modulo `2^32` as the program computes it in `uint32_t`.
The table after the pass holds, up to the order of the slots, for every entry
`E` what `increase_outcome` gives: an entry that is not reconsidered (in
particular every entry with `dest_port == sender` or another first hop) is kept as
it is; a reconsidered entry (first hop the sender, destination not the sender,
and the sender's new DV without an entry for `E.dest` or with
`link_cost(sender) + cost > E.cost`) is replaced by `(E.dest, n*, m)`, `m < 64`
the minimum over all neighbour records caching `E.dest` of link cost plus cached
cost and `n*` the first record in list order attaining it, and is removed when
there is no such record or every offer is `>= 64`.  The change count is the
number of reconsidered entries. -/
theorem increase_pass_reminimises (S : Nat) (sender : neighbor_list_node)
    (neighbors : List neighbor_list_node) (dv : List dv_entry) :
    ((increase_pass S sender neighbors dv.length 0 dv 0).1.Perm
      (dv.filterMap (increase_outcome S sender neighbors))) ∧
    (increase_pass S sender neighbors dv.length 0 dv 0).2 =
      ((dv.countP (reconsidered S sender) : Nat) : Int) ∧
    (∀ e, reconsidered S sender e = true ↔
      (e.first_hop_port = S ∧ e.dest_port ≠ S ∧
        (dv_lookup sender.dv e.dest_port = none ∨
          ∃ se, dv_lookup sender.dv e.dest_port = some se ∧
            e.cost < u32 (sender.cost + se.cost)))) ∧
    (∀ e x, reminimise neighbors e = some x →
      x.dest_port = e.dest_port ∧ x.cost < MAX_POSSIBLE_COST ∧
      ∃ k, (offers neighbors e.dest_port)[k]? = some (x.first_hop_port, x.cost) ∧
        (∀ o ∈ offers neighbors e.dest_port, x.cost ≤ o.2) ∧
        (∀ (j : Nat) (o : Nat × Nat), j < k → (offers neighbors e.dest_port)[j]? = some o →
          x.cost < o.2)) ∧
    (∀ e, reminimise neighbors e = none →
      ∀ o ∈ offers neighbors e.dest_port, MAX_POSSIBLE_COST ≤ o.2) := by
  refine ⟨(increase_pass_outcome S sender neighbors dv).1,
    (increase_pass_outcome S sender neighbors dv).2, ?_, ?_, ?_⟩
  · intro e
    unfold reconsidered
    cases dv_lookup sender.dv e.dest_port with
    | none => simp
    | some se => simp [and_assoc]
  · intro e x hx
    unfold reminimise at hx
    cases hb : best_offer (offers neighbors e.dest_port) with
    | none => simp [hb] at hx
    | some b =>
      simp only [hb] at hx
      by_cases h64 : b.2 < MAX_POSSIBLE_COST
      · rw [if_pos h64] at hx
        cases hx
        exact ⟨rfl, h64, best_offer_spec _ b hb⟩
      · rw [if_neg h64] at hx
        cases hx
  · intro e hnone o ho
    unfold reminimise at hnone
    cases hb : best_offer (offers neighbors e.dest_port) with
    | none =>
      rw [best_offer_eq_none _ hb] at ho
      cases ho
    | some b =>
      simp only [hb] at hnone
      by_cases h64 : b.2 < MAX_POSSIBLE_COST
      · rw [if_pos h64] at hnone
        cases hnone
      · obtain ⟨_, _, hmin, _⟩ := best_offer_spec _ b hb
        have := hmin o ho
        omega

/-! ## Poisoning at the cost threshold -/

/-- The relaxation loop leaves no entry for `d` when the sender's DV names `d` and
every entry for `d` in it comes out at 64 or more, or when the table had no entry
for `d` and the DV offers none below 64. -/
theorem decrease_pass_poisons (S : Nat) (sender : neighbor_list_node) (d : Nat)
    (D : List dv_entry)
    (hall : ∀ e ∈ D, e.dest_port = d → MAX_POSSIBLE_COST ≤ u32 (sender.cost + e.cost)) :
    ∀ (s : State) (cc : Int), (s.my_dv.map dv_entry.dest_port).Nodup →
      (∀ a ∈ s.my_dv, a.dest_port ≠ s.my_port) →
      ((∃ e ∈ D, e.dest_port = d) ∨ ∀ a ∈ s.my_dv, a.dest_port ≠ d) →
      ∀ a ∈ (decrease_pass S sender D s cc).1.my_dv, a.dest_port ≠ d := by
  induction D with
  | nil =>
    intro s cc _ _ h
    rcases h with ⟨e, he, _⟩ | h
    · cases he
    · exact h
  | cons e rest ih =>
    intro s cc hn hself h
    show ∀ a ∈ (decrease_pass S sender rest
      (bellman_ford_decrease s e.dest_port S (u32 (sender.cost + e.cost))).2 _).1.my_dv, _
    apply ih (fun x hx => hall x (List.mem_cons_of_mem _ hx))
    · exact bellman_ford_decrease_nodup s _ _ _ hn
    · rw [bellman_ford_decrease_my_port]
      exact bellman_ford_decrease_forall (fun a => a.dest_port ≠ s.my_port) s _ _ _ hself
        (fun h1 _ => h1)
    · by_cases hed : e.dest_port = d
      · right
        intro a ha had
        have h1 := (bellman_ford_decrease_settles s e.dest_port S
          (u32 (sender.cost + e.cost)) hn hself).1 a ha (had.trans hed.symm)
        have h2 := hall e (List.mem_cons_self _ _) hed
        omega
      · rcases h with ⟨x, hx, hxd⟩ | h
        · rcases List.mem_cons.mp hx with hx | hx
          · subst hx
            exact absurd hxd hed
          · exact Or.inl ⟨x, hx, hxd⟩
        · right
          exact bellman_ford_decrease_forall (fun a => a.dest_port ≠ d) s _ _ _ h
            (fun _ _ => hed)

/-- C20 with the 32-bit sum: in every reachable state, for a neighbour `S` with
link cost `c` and an accepted DV from `S` (length a multiple of 8, at most 16
entries) that names a destination `d != S` and in which every entry for `d` (the
only one, when `d` appears exactly once) has `(c + advertised cost) mod 2^32 >= 64`,
the sum the program computes in `uint32_t`, `handle_dv_packet` does not fail and
the own DV afterwards contains no entry for `d`, whichever first hop the entry
had; `d != my_port` is not needed. -/
theorem poisoning_at_threshold (s : State) (S : Nat) (buffer : List Nat) (L c d : Nat)
    (e : dv_entry) (hs : Reachable s)
    (hlink : link_cost s.my_neighbor_list_head S = some c)
    (hL : L % SIZEOF_DV_ENTRY = 0)
    (hcap : ((L / SIZEOF_DV_ENTRY : Nat) : Int) - 1 ≤ (DV_CAPACITY : Int))
    (he : e ∈ received_dv buffer (((L / SIZEOF_DV_ENTRY : Nat) : Int) - 1))
    (hed : e.dest_port = d)
    (hall : ∀ x ∈ received_dv buffer (((L / SIZEOF_DV_ENTRY : Nat) : Int) - 1),
      x.dest_port = d → MAX_POSSIBLE_COST ≤ u32 (c + x.cost))
    (hdS : d ≠ S) :
    0 ≤ (handle_dv_packet s S buffer L).1 ∧
      ∀ a ∈ (handle_dv_packet s S buffer L).2.my_dv, a.dest_port ≠ d := by
  obtain ⟨k, n, hf, hn, hc⟩ := link_cost_some hlink
  obtain ⟨n2, hn2, hp⟩ := neighbor_list_find_some hf
  rw [hn] at hn2
  cases hn2
  have hinv := reachable_inv hs
  rw [handle_dv_packet_accept buffer hf hn hL hcap]
  refine ⟨bellman_ford_update_count_nonneg _ _ _, ?_⟩
  have hports : (s.my_neighbor_list_head.set k (neighbor_list_node.mk n.port n.cost
      (received_dv buffer (((L / SIZEOF_DV_ENTRY : Nat) : Int) - 1)))).map
        neighbor_list_node.port = s.my_neighbor_list_head.map neighbor_list_node.port :=
    map_set_of_eq neighbor_list_node.port hn
      (rfl : (neighbor_list_node.mk n.port n.cost
        (received_dv buffer (((L / SIZEOF_DV_ENTRY : Nat) : Int) - 1))).port = n.port)
  have hstab := (increase_pass_stable
    (State.mk s.my_port s.my_dv (s.my_neighbor_list_head.set k
      (neighbor_list_node.mk n.port n.cost
        (received_dv buffer (((L / SIZEOF_DV_ENTRY : Nat) : Int) - 1)))))
    S k (neighbor_list_node.mk n.port n.cost
        (received_dv buffer (((L / SIZEOF_DV_ENTRY : Nat) : Int) - 1)))
    (by
      unfold table_ok
      simp only [hports]
      exact hinv.1)
    (caches_ok_set _ hn (by rw [hp]; exact hf) hinv.2)
    (by
      show neighbor_list_find (s.my_neighbor_list_head.set k _) S = some k
      rw [neighbor_list_find_congr hports]
      exact hf)
    (by
      show (s.my_neighbor_list_head.set k _)[k]? = some _
      rw [List.getElem?_set]
      simp [lt_of_getElem? hn])).1
  simp only [bellman_ford_update]
  apply bellman_ford_decrease_forall (fun a => a.dest_port ≠ d)
  · apply decrease_pass_poisons S _ d _ _ _ _ hstab.2.1 (fun a ha => (hstab.1 a ha).2.1)
      (Or.inl ⟨e, he, hed⟩)
    intro x hx hxd
    show MAX_POSSIBLE_COST ≤ u32 (n.cost + x.cost)
    rw [hc]
    exact hall x hx hxd
  · intro _ _ h
    exact hdS h.symm

theorem poisoning_at_threshold_witness :
    Reachable example_threshold_state ∧
      example_threshold_state.my_dv = [⟨10003, 10002, 63⟩, ⟨10002, 10002, 1⟩] ∧
      link_cost example_threshold_state.my_neighbor_list_head 10002 = some 1 ∧
      received_dv example_threshold_63_buffer (((16 / SIZEOF_DV_ENTRY : Nat) : Int) - 1) =
        [⟨10003, 10003, 63⟩] ∧
      MAX_POSSIBLE_COST ≤ u32 (1 + 63) ∧
      (handle_dv_packet example_threshold_state 10002 example_threshold_63_buffer 16).2.my_dv =
        [⟨10002, 10002, 1⟩] ∧
      (0 ≤ (handle_dv_packet example_threshold_state 10002 example_threshold_63_buffer 16).1 ∧
        ∀ a ∈ (handle_dv_packet example_threshold_state 10002
          example_threshold_63_buffer 16).2.my_dv, a.dest_port ≠ 10003) :=
  ⟨⟨example_threshold_start, [Call.dv 10002 example_threshold_62_buffer 16],
      by simp [startup, example_threshold_start], rfl⟩,
    by decide, by decide, by decide, by decide, by decide,
    poisoning_at_threshold example_threshold_state 10002 example_threshold_63_buffer 16 1 10003
      ⟨10003, 10003, 63⟩
      ⟨example_threshold_start, [Call.dv 10002 example_threshold_62_buffer 16],
        by simp [startup, example_threshold_start], rfl⟩
      (by decide) (by decide) (by decide) (by decide) rfl
      (by decide) (by decide)⟩

/-- C20 as stated fails when the sum wraps: with link cost 10 to neighbour 10003,
a DV from 10003 that advertises destination 10005 once, at cost `2^32 - 5`, has
`link_cost + cost = 2^32 + 5 >= 64`; but the program's 32-bit sum is 5, below
the threshold, and the entry `(10005, 10003, 5)` enters the own DV. -/
theorem poisoning_at_threshold_counterexample :
    Reachable example_start ∧
      link_cost example_start.my_neighbor_list_head 10003 = some 10 ∧
      received_dv example_wrap_buffer (((16 / SIZEOF_DV_ENTRY : Nat) : Int) - 1) =
        [⟨10005, 0, 4294967291⟩] ∧
      MAX_POSSIBLE_COST ≤ 10 + 4294967291 ∧
      (10005 : Nat) ≠ 10003 ∧ 10005 ≠ example_start.my_port ∧
      (handle_dv_packet example_start 10003 example_wrap_buffer 16).1 = 2 ∧
      (handle_dv_packet example_start 10003 example_wrap_buffer 16).2.my_dv =
        [⟨10005, 10003, 5⟩, ⟨10003, 10003, 10⟩] :=
  ⟨⟨example_start, [], by simp [startup, example_start], rfl⟩,
    by decide, by decide, by decide, by decide, by decide, by decide, by decide⟩

/-! ## Sums that wrap around -/

/-- C19 as stated fails when a sum wraps: for the own-DV entry `(10005, 10001, 5)`
of router 10002 and a new DV of the sender 10001 (link cost 1) that offers 10005
at cost `2^32 - 1`, the first hop is the sender, the destination is not, and
`link_cost(sender) + cost = 2^32 > 5`; but the program's 32-bit sum is 0, the
entry is not reconsidered, and the pass leaves table and change count as they
are. -/
theorem increase_pass_reminimises_counterexample :
    (dv_entry.mk 10005 10001 5).first_hop_port = 10001 ∧
      (dv_entry.mk 10005 10001 5).dest_port ≠ 10001 ∧
      dv_lookup (neighbor_list_node.mk 10001 1 [⟨10005, 0, 4294967295⟩]).dv 10005 =
        some ⟨10005, 0, 4294967295⟩ ∧
      (dv_entry.mk 10005 10001 5).cost < 1 + 4294967295 ∧
      reconsidered 10001 ⟨10001, 1, [⟨10005, 0, 4294967295⟩]⟩ ⟨10005, 10001, 5⟩ = false ∧
      increase_pass 10001 ⟨10001, 1, [⟨10005, 0, 4294967295⟩]⟩
        [⟨10001, 1, [⟨10005, 0, 4294967295⟩]⟩, ⟨10003, 10, []⟩] 2 0
        [⟨10005, 10001, 5⟩, ⟨10001, 10001, 1⟩] 0 =
        ([⟨10005, 10001, 5⟩, ⟨10001, 10001, 1⟩], 0) :=
  ⟨by decide, by decide, by decide, by decide, by decide, by decide⟩

/-! ## The relaxation of the sender itself -/

theorem bellman_ford_decrease_offer (s : State) (d v c : Nat) (hd : d ≠ s.my_port)
    (hc : c < MAX_POSSIBLE_COST) :
    (∃ a ∈ (bellman_ford_decrease s d v c).2.my_dv, a.dest_port = d ∧ a.cost ≤ c) ∨
      DV_CAPACITY ≤ (bellman_ford_decrease s d v c).2.my_dv.length := by
  rcases bellman_ford_decrease_cases s d v c with
    ⟨hp, _⟩ | ⟨_, _, h64, _⟩ | ⟨_, _, _, hl, hr⟩ | ⟨_, _, _, _, hr⟩ |
    ⟨i, a, _, _, _, _, h64, _⟩ | ⟨i, a, _, _, ha, _, _, _, hr⟩ |
    ⟨i, a, _, _, ha, had, _, hle, hr⟩
  · exact absurd hp hd
  · omega
  · rw [hr]
    exact Or.inr hl
  · rw [hr]
    exact Or.inl ⟨dv_entry.mk d v c, by simp, rfl, Nat.le_refl _⟩
  · omega
  · rw [hr]
    refine Or.inl ⟨dv_entry.mk d v c, ?_, rfl, Nat.le_refl _⟩
    show dv_entry.mk d v c ∈ s.my_dv.set i (dv_entry.mk d v c)
    exact List.mem_iff_getElem?.mpr ⟨i, by
      rw [List.getElem?_set]
      simp [lt_of_getElem? ha]⟩
  · rw [hr]
    exact Or.inl ⟨a, mem_of_getElem? ha, had, hle⟩

theorem decrease_pass_my_port (S : Nat) (sender : neighbor_list_node) (D : List dv_entry)
    (s : State) (cc : Int) : (decrease_pass S sender D s cc).1.my_port = s.my_port :=
  decrease_pass_induct (fun t => t.my_port = s.my_port) S sender D
    (fun t _ _ ht => (bellman_ford_decrease_my_port t _ _ _).trans ht) s cc rfl

theorem bellman_ford_update_offer (s : State) (S : Nat) (sender : neighbor_list_node)
    (hS : S ≠ s.my_port) (hc : sender.cost < MAX_POSSIBLE_COST) :
    (∃ a ∈ (bellman_ford_update s S sender).2.my_dv, a.dest_port = S ∧ a.cost ≤ sender.cost) ∨
      DV_CAPACITY ≤ (bellman_ford_update s S sender).2.my_dv.length := by
  simp only [bellman_ford_update]
  exact bellman_ford_decrease_offer _ S S sender.cost
    (by rw [decrease_pass_my_port]; exact hS) hc

/-- C21: in every reachable state, for a neighbour `S != my_port` with link cost
`c < 64` and every DV from `S` that `handle_dv_packet` accepts (length a multiple
of 8, at most 16 entries), after the call the own DV contains an entry for
destination `S` with cost at most `c`, or the own DV is full (16 entries). -/
theorem sender_self_relaxation (s : State) (S : Nat) (buffer : List Nat) (L c : Nat)
    (hs : Reachable s)
    (hlink : link_cost s.my_neighbor_list_head S = some c)
    (hL : L % SIZEOF_DV_ENTRY = 0)
    (hcap : ((L / SIZEOF_DV_ENTRY : Nat) : Int) - 1 ≤ (DV_CAPACITY : Int))
    (hS : S ≠ s.my_port) (hc : c < MAX_POSSIBLE_COST) :
    (∃ a ∈ (handle_dv_packet s S buffer L).2.my_dv, a.dest_port = S ∧ a.cost ≤ c) ∨
      (handle_dv_packet s S buffer L).2.my_dv.length = DV_CAPACITY := by
  have hlen := (handle_dv_packet_inv s S buffer L (reachable_inv hs)).1.2.2
  obtain ⟨k, n, hf, hn, hnc⟩ := link_cost_some hlink
  rw [handle_dv_packet_accept buffer hf hn hL hcap] at hlen ⊢
  rcases bellman_ford_update_offer
      (State.mk s.my_port s.my_dv (s.my_neighbor_list_head.set k
        (neighbor_list_node.mk n.port n.cost
          (received_dv buffer (((L / SIZEOF_DV_ENTRY : Nat) : Int) - 1)))))
      S (neighbor_list_node.mk n.port n.cost
          (received_dv buffer (((L / SIZEOF_DV_ENTRY : Nat) : Int) - 1)))
      hS (by rw [← hnc] at hc; exact hc) with h | h
  · left
    rw [← hnc]
    exact h
  · right
    omega

theorem sender_self_relaxation_witness :
    Reachable example_start ∧
      link_cost example_start.my_neighbor_list_head 10001 = some 1 ∧
      (handle_dv_packet example_start 10001 example_dv_buffer 16).2.my_dv =
        [⟨10003, 10001, 3⟩, ⟨10001, 10001, 1⟩] ∧
      ((∃ a ∈ (handle_dv_packet example_start 10001 example_dv_buffer 16).2.my_dv,
          a.dest_port = 10001 ∧ a.cost ≤ 1) ∨
        (handle_dv_packet example_start 10001 example_dv_buffer 16).2.my_dv.length =
          DV_CAPACITY) :=
  ⟨⟨example_start, [], by simp [startup, example_start], rfl⟩, by decide, by decide,
    sender_self_relaxation example_start 10001 example_dv_buffer 16 1
      ⟨example_start, [], by simp [startup, example_start], rfl⟩
      (by decide) (by decide) (by decide) (by decide) (by decide)⟩

/-! ## The cache write and its frame -/

theorem length_received_dv (buffer : List Nat) (n : Int) :
    (received_dv buffer n).length = n.toNat := by
  simp [received_dv]

theorem received_dv_getElem? (buffer : List Nat) (n : Int) (i : Nat) (hi : i < n.toNat) :
    (received_dv buffer n)[i]? = some (ntoh_dv_entry buffer (SIZEOF_DV_ENTRY * (i + 1))) := by
  simp [received_dv, List.getElem?_map, List.getElem?_range hi]

/-- C22: when `handle_dv_packet` accepts a datagram of length `L` from neighbour
`S` (return value `>= 0`), the record `neighbor_list_find` returns for `S` holds
afterwards exactly the `k = L/8 - 1` entries decoded from the buffer in wire order
(entry `i` from byte `8*(i+1)` on, big-endian), with its port and link cost as
before; every other record of the neighbour list is as before, and so are the
ports and link costs of all records. -/
theorem cache_overwrite_frame (s : State) (S : Nat) (buffer : List Nat) (L : Nat)
    (hacc : 0 ≤ (handle_dv_packet s S buffer L).1) :
    ∃ k n, neighbor_list_find s.my_neighbor_list_head S = some k ∧
      s.my_neighbor_list_head[k]? = some n ∧
      neighbor_list_find (handle_dv_packet s S buffer L).2.my_neighbor_list_head S = some k ∧
      (handle_dv_packet s S buffer L).2.my_neighbor_list_head[k]? =
        some (neighbor_list_node.mk n.port n.cost
          (received_dv buffer (((L / SIZEOF_DV_ENTRY : Nat) : Int) - 1))) ∧
      (received_dv buffer (((L / SIZEOF_DV_ENTRY : Nat) : Int) - 1)).length =
        L / SIZEOF_DV_ENTRY - 1 ∧
      (∀ i, i < L / SIZEOF_DV_ENTRY - 1 →
        (received_dv buffer (((L / SIZEOF_DV_ENTRY : Nat) : Int) - 1))[i]? =
          some (dv_entry.mk
            (byte_at buffer (8 * (i + 1)) * 256 + byte_at buffer (8 * (i + 1) + 1))
            (byte_at buffer (8 * (i + 1) + 2) * 256 + byte_at buffer (8 * (i + 1) + 3))
            (((byte_at buffer (8 * (i + 1) + 4) * 256 + byte_at buffer (8 * (i + 1) + 5)) * 256
              + byte_at buffer (8 * (i + 1) + 6)) * 256 + byte_at buffer (8 * (i + 1) + 7)))) ∧
      (∀ m, m ≠ k → (handle_dv_packet s S buffer L).2.my_neighbor_list_head[m]? =
        s.my_neighbor_list_head[m]?) ∧
      (handle_dv_packet s S buffer L).2.my_neighbor_list_head.length =
        s.my_neighbor_list_head.length ∧
      (handle_dv_packet s S buffer L).2.my_neighbor_list_head.map
          (fun x => (x.port, x.cost)) =
        s.my_neighbor_list_head.map (fun x => (x.port, x.cost)) := by
  rcases handle_dv_packet_cases s S buffer L with hr | ⟨k, n, hf, hn, hp, _, _, hr⟩
  · rw [hr] at hacc
    exact absurd (show (0 : Int) ≤ -1 from hacc) (by decide)
  · have hports : (s.my_neighbor_list_head.set k (neighbor_list_node.mk n.port n.cost
        (received_dv buffer (((L / SIZEOF_DV_ENTRY : Nat) : Int) - 1)))).map
          neighbor_list_node.port = s.my_neighbor_list_head.map neighbor_list_node.port :=
      map_set_of_eq neighbor_list_node.port hn
        (rfl : (neighbor_list_node.mk n.port n.cost
          (received_dv buffer (((L / SIZEOF_DV_ENTRY : Nat) : Int) - 1))).port = n.port)
    have hlen : (((L / SIZEOF_DV_ENTRY : Nat) : Int) - 1).toNat = L / SIZEOF_DV_ENTRY - 1 := by
      omega
    refine ⟨k, n, hf, hn, ?_, ?_, ?_, ?_, ?_, ?_, ?_⟩
    · rw [hr, bellman_ford_update_neighbors]
      show neighbor_list_find (s.my_neighbor_list_head.set k _) S = some k
      rw [neighbor_list_find_congr hports]
      exact hf
    · rw [hr, bellman_ford_update_neighbors]
      show (s.my_neighbor_list_head.set k _)[k]? = some _
      rw [List.getElem?_set]
      simp [lt_of_getElem? hn]
    · rw [length_received_dv, hlen]
    · intro i hi
      rw [received_dv_getElem? buffer _ i (by rw [hlen]; exact hi)]
      simp only [ntoh_dv_entry, ntohs, ntohl, SIZEOF_DV_ENTRY, Nat.add_assoc]
    · intro m hm
      rw [hr, bellman_ford_update_neighbors]
      show (s.my_neighbor_list_head.set k _)[m]? = _
      rw [List.getElem?_set]
      simp [Ne.symm hm]
    · rw [hr, bellman_ford_update_neighbors]
      show (s.my_neighbor_list_head.set k _).length = _
      rw [List.length_set]
    · exact handle_dv_packet_link_table s S buffer L

theorem cache_overwrite_frame_witness :
    0 ≤ (handle_dv_packet example_converged 10003 example_dv_buffer_self 24).1 ∧
      (handle_dv_packet example_converged 10003 example_dv_buffer_self 24).2.my_neighbor_list_head =
        [⟨10001, 1, [⟨10002, 10002, 1⟩, ⟨10003, 10003, 2⟩]⟩,
         ⟨10003, 10, [⟨10002, 10002, 1⟩, ⟨10003, 10003, 2⟩]⟩] ∧
      ∃ k n, neighbor_list_find example_converged.my_neighbor_list_head 10003 = some k ∧
        example_converged.my_neighbor_list_head[k]? = some n ∧
        (handle_dv_packet example_converged 10003 example_dv_buffer_self
            24).2.my_neighbor_list_head[k]? =
          some (neighbor_list_node.mk n.port n.cost
            (received_dv example_dv_buffer_self (((24 / SIZEOF_DV_ENTRY : Nat) : Int) - 1))) :=
  ⟨by decide, by decide,
    match cache_overwrite_frame example_converged 10003 example_dv_buffer_self 24 (by decide) with
    | ⟨k, n, h1, h2, _, h4, _⟩ => ⟨k, n, h1, h2, h4⟩⟩

/-! ## The dead neighbour's entry -/

/-- C23: in every reachable state, for every registered neighbour `N`, after
`handle_killed_packet(N)` the own DV contains no entry whose `dest_port` is `N`
(whether the function returns at the guard for a missing entry or runs through). -/
theorem handle_killed_packet_removes_neighbor (s : State) (N : Nat) (hs : Reachable s)
    (hN : (neighbor_list_find s.my_neighbor_list_head N).isSome = true) :
    ∀ a ∈ (handle_killed_packet s N).1.my_dv, a.dest_port ≠ N := by
  cases hd : dv_find s.my_dv N with
  | some i =>
    intro a ha
    exact (handle_killed_packet_sweeps s N hs hN (by rw [hd]; rfl) a ha).2
  | none =>
    cases hf : neighbor_list_find s.my_neighbor_list_head N with
    | none => rw [hf] at hN; cases hN
    | some k =>
      obtain ⟨n, hn, hp⟩ := neighbor_list_find_some hf
      have hport : (s.my_neighbor_list_head.getD k default).port = N := by
        have hg : s.my_neighbor_list_head.getD k default = n := by
          simp [List.getD_eq_getElem?_getD, hn]
        rw [hg]
        exact hp
      have hres : handle_killed_packet s N = (s, []) := by
        unfold handle_killed_packet
        simp only [hf, hport, hd]
      rw [hres]
      exact dv_find_none hd

theorem handle_killed_packet_removes_neighbor_witness :
    Reachable example_converged_reached ∧
      (neighbor_list_find example_converged_reached.my_neighbor_list_head 10001).isSome = true ∧
      dv_entry.mk 10001 10001 1 ∈ example_converged_reached.my_dv ∧
      ∀ a ∈ (handle_killed_packet example_converged_reached 10001).1.my_dv,
        a.dest_port ≠ 10001 :=
  ⟨⟨example_start, [Call.dv 10001 example_dv_buffer 16], by simp [startup, example_start], rfl⟩,
    by decide, by decide,
    handle_killed_packet_removes_neighbor example_converged_reached 10001
      ⟨example_start, [Call.dv 10001 example_dv_buffer 16],
        by simp [startup, example_start], rfl⟩ (by decide)⟩

/-! ## A change count of zero -/

theorem increase_pass_zero (S : Nat) (sender : neighbor_list_node)
    (neighbors : List neighbor_list_node) (dv : List dv_entry) :
    0 ≤ (increase_pass S sender neighbors dv.length 0 dv 0).2 ∧
      ((increase_pass S sender neighbors dv.length 0 dv 0).2 = 0 →
        (increase_pass S sender neighbors dv.length 0 dv 0).1 = dv) := by
  refine increase_pass_induct S sender neighbors
    (fun _ dv' cc => 0 ≤ cc ∧ (cc = 0 → dv' = dv))
    (fun dv' cc => 0 ≤ cc ∧ (cc = 0 → dv' = dv))
    ?_ ?_ ?_ ?_ dv.length 0 dv 0 (by omega) ⟨Int.le_refl 0, fun _ => rfl⟩
  · intro i dv' cc a _ hq _
    exact hq
  · intro i dv' cc a _ hq _ _ _ _ _
    exact ⟨by omega, fun h => by omega⟩
  · intro i dv' cc a _ hq _ _ _ _
    exact ⟨by omega, fun h => by omega⟩
  · intro i dv' cc _ hq
    exact hq

theorem bellman_ford_decrease_zero (s : State) (d v c : Nat)
    (h : ¬ (bellman_ford_decrease s d v c).1 > 0) : (bellman_ford_decrease s d v c).2 = s := by
  rcases bellman_ford_decrease_cases s d v c with
    ⟨_, hr⟩ | ⟨_, _, _, hr⟩ | ⟨_, _, _, _, hr⟩ | ⟨_, _, _, _, hr⟩ |
    ⟨i, a, _, _, _, _, _, hr⟩ | ⟨i, a, _, _, _, _, _, _, hr⟩ |
    ⟨i, a, _, _, _, _, _, _, hr⟩ <;> rw [hr] at h ⊢
  · exact absurd (show (1 : Int) > 0 by decide) h
  · exact absurd (show (1 : Int) > 0 by decide) h
  · exact absurd (show (1 : Int) > 0 by decide) h

theorem decrease_pass_zero (S : Nat) (sender : neighbor_list_node) (D : List dv_entry) :
    ∀ (s : State) (cc : Int), (decrease_pass S sender D s cc).2 = cc →
      (decrease_pass S sender D s cc).1 = s := by
  induction D with
  | nil => intro s cc _; rfl
  | cons e rest ih =>
    intro s cc h
    unfold decrease_pass at h ⊢
    simp only at h ⊢
    by_cases hpos : (bellman_ford_decrease s e.dest_port S (u32 (sender.cost + e.cost))).1 > 0
    · rw [if_pos hpos] at h
      have := decrease_pass_count_le S sender rest
        (bellman_ford_decrease s e.dest_port S (u32 (sender.cost + e.cost))).2 (cc + 1)
      omega
    · rw [if_neg hpos] at h ⊢
      rw [ih _ cc h]
      exact bellman_ford_decrease_zero s _ _ _ hpos

theorem bellman_ford_update_zero (s : State) (S : Nat) (sender : neighbor_list_node)
    (h : (bellman_ford_update s S sender).1 = 0) :
    (bellman_ford_update s S sender).2 = s := by
  have h1 := increase_pass_zero S sender s.my_neighbor_list_head s.my_dv
  have h2 := decrease_pass_count_le S sender sender.dv
    (State.mk s.my_port (increase_pass S sender s.my_neighbor_list_head s.my_dv.length 0
      s.my_dv 0).1 s.my_neighbor_list_head)
    (increase_pass S sender s.my_neighbor_list_head s.my_dv.length 0 s.my_dv 0).2
  have h3 := decrease_pass_zero S sender sender.dv
    (State.mk s.my_port (increase_pass S sender s.my_neighbor_list_head s.my_dv.length 0
      s.my_dv 0).1 s.my_neighbor_list_head)
    (increase_pass S sender s.my_neighbor_list_head s.my_dv.length 0 s.my_dv 0).2
  simp only [bellman_ford_update] at h ⊢
  split at h
  · omega
  · rename_i hpos
    have hp1 : (increase_pass S sender s.my_neighbor_list_head s.my_dv.length 0
        s.my_dv 0).2 = 0 := by omega
    rw [bellman_ford_decrease_zero _ _ _ _ hpos, h3 (by omega), h1.2 hp1]

/-- C24: on every state and for every datagram, if `handle_dv_packet` returns 0
then `my_dv` is exactly as before the call (same entries in the same slots, same
length) and so is `my_port`; of the neighbour list only the cached DV of the
sender's record differs, which holds the received entries. -/
theorem zero_change_count_untouched (s : State) (S : Nat) (buffer : List Nat) (L : Nat)
    (h0 : (handle_dv_packet s S buffer L).1 = 0) :
    (handle_dv_packet s S buffer L).2.my_dv = s.my_dv ∧
      (handle_dv_packet s S buffer L).2.my_port = s.my_port ∧
      ∃ k n, neighbor_list_find s.my_neighbor_list_head S = some k ∧
        s.my_neighbor_list_head[k]? = some n ∧
        (handle_dv_packet s S buffer L).2.my_neighbor_list_head =
          s.my_neighbor_list_head.set k (neighbor_list_node.mk n.port n.cost
            (received_dv buffer (((L / SIZEOF_DV_ENTRY : Nat) : Int) - 1))) := by
  rcases handle_dv_packet_cases s S buffer L with hr | ⟨k, n, hf, hn, hp, _, _, hr⟩
  · rw [hr] at h0
    exact absurd (show (-1 : Int) = 0 from h0) (by decide)
  · rw [hr] at h0 ⊢
    rw [bellman_ford_update_zero _ _ _ h0]
    exact ⟨rfl, rfl, k, n, hf, hn, rfl⟩

theorem zero_change_count_untouched_witness :
    (handle_dv_packet example_converged_reached 10001 example_dv_buffer 16).1 = 0 ∧
      (handle_dv_packet example_converged_reached 10001 example_dv_buffer 16).2.my_dv =
        example_converged_reached.my_dv :=
  ⟨by decide,
    (zero_change_count_untouched example_converged_reached 10001 example_dv_buffer 16
      (by decide)).1⟩

/-! ## Routes and the first hop's cached DV -/

theorem backed_of_offer {l : List neighbor_list_node} {n : neighbor_list_node}
    {ne : dv_entry} (hn : n ∈ l) (hne : ne ∈ n.dv) :
    backed l (dv_entry.mk ne.dest_port n.port (u32 (ne.cost + n.cost))) :=
  fun _ => ⟨n, hn, rfl, ne, hne, rfl, rfl⟩

/-- Overwriting the sender's record leaves the backing of routes through other
neighbours in place. -/
theorem backed_set {l : List neighbor_list_node} {k S : Nat} {n x : neighbor_list_node}
    {a : dv_entry} (hk : l[k]? = some n) (hp : n.port = S) (ha : a.first_hop_port ≠ S)
    (h : backed l a) : backed (l.set k x) a := by
  intro hne
  obtain ⟨n0, hn0, hp0, rest⟩ := h hne
  refine ⟨n0, ?_, hp0, rest⟩
  obtain ⟨m, hm⟩ := List.mem_iff_getElem?.mp hn0
  have hmk : m ≠ k := by
    intro hmk
    rw [hmk, hk] at hm
    cases hm
    exact ha (hp0.symm.trans hp)
  exact List.mem_iff_getElem?.mpr ⟨m, by
    rw [List.getElem?_set]
    simp [Ne.symm hmk, hm]⟩

/-- The increase/withdraw loop writes only backed routes and keeps the others. -/
theorem increase_pass_backed (S : Nat) (sender : neighbor_list_node)
    (l : List neighbor_list_node) (dv : List dv_entry)
    (h : ∀ a ∈ dv, a.first_hop_port ≠ S → backed l a) :
    ∀ a ∈ (increase_pass S sender l dv.length 0 dv 0).1, a.first_hop_port ≠ S → backed l a := by
  refine increase_pass_induct S sender l
    (fun _ dv' _ => ∀ a ∈ dv', a.first_hop_port ≠ S → backed l a)
    (fun dv' _ => ∀ a ∈ dv', a.first_hop_port ≠ S → backed l a)
    ?_ ?_ ?_ ?_ dv.length 0 dv 0 (by omega) h
  · intro i dv' cc a _ hq _
    exact hq
  · intro i dv' cc a ha hq _ _ _ hr hm
    rcases scan_neighbors_spec l a.dest_port scan_init with h | h
    · rw [h] at hr
      simp [scan_init] at hr
    · obtain ⟨_, m, nb, j, ne, hnb, hj, hne, hmin, hbest⟩ := h
      rw [hmin, hbest]
      intro x hx hxS
      rcases List.mem_or_eq_of_mem_set hx with hx | hx
      · exact hq x hx hxS
      · rw [hx]
        obtain ⟨ne2, hne2, hd⟩ := dv_find_some hj
        rw [hne] at hne2
        cases hne2
        rw [← hd]
        exact backed_of_offer (mem_of_getElem? hnb) (mem_of_getElem? hne)
  · intro i dv' cc a _ hq _ _ _ _
    exact fun x hx => hq x (mem_of_mem_swap_delete hx)
  · intro i dv' cc _ hq
    exact hq

/-- The relaxation loop over the entries still to come turns every route that is
backed or pending into a backed one. -/
theorem decrease_pass_backed (S : Nat) (sender : neighbor_list_node)
    (l : List neighbor_list_node) (hmem : sender ∈ l) (hport : sender.port = S) :
    ∀ (rest : List dv_entry) (s : State) (cc : Int), (∀ e ∈ rest, e ∈ sender.dv) →
      (s.my_dv.map dv_entry.dest_port).Nodup → (∀ a ∈ s.my_dv, a.dest_port ≠ s.my_port) →
      (∀ a ∈ s.my_dv, backed_or_pending l S sender rest a) →
      ∀ a ∈ (decrease_pass S sender rest s cc).1.my_dv, backed l a := by
  intro rest
  induction rest with
  | nil =>
    intro s cc _ _ _ h a ha
    rcases h a ha with hb | ⟨_, e, he, _⟩
    · exact hb
    · cases he
  | cons e rest ih =>
    intro s cc hsub hn hself h
    show ∀ a ∈ (decrease_pass S sender rest
      (bellman_ford_decrease s e.dest_port S (u32 (sender.cost + e.cost))).2 _).1.my_dv, _
    apply ih _ _ (fun x hx => hsub x (List.mem_cons_of_mem _ hx))
      (bellman_ford_decrease_nodup s _ _ _ hn)
    · rw [bellman_ford_decrease_my_port]
      exact bellman_ford_decrease_forall (fun a => a.dest_port ≠ s.my_port) s _ _ _ hself
        (fun h1 _ => h1)
    · intro a ha
      have hw : backed_or_pending l S sender (e :: rest) a := by
        refine bellman_ford_decrease_forall (backed_or_pending l S sender (e :: rest))
          s e.dest_port S (u32 (sender.cost + e.cost)) h ?_ a ha
        intro _ _
        left
        have := backed_of_offer hmem (hsub e (List.mem_cons_self _ _))
        rw [hport, Nat.add_comm] at this
        exact this
      rcases hw with hb | ⟨hS, e0, he0, hd0, hlt⟩
      · exact Or.inl hb
      · rcases List.mem_cons.mp he0 with he0 | he0
        · subst he0
          have hset := (bellman_ford_decrease_settles s e0.dest_port S
            (u32 (sender.cost + e0.cost)) hn hself).1 a ha hd0.symm
          omega
        · exact Or.inr ⟨hS, e0, he0, hd0, hlt⟩

/-- An accepted DV leaves every route backed. -/
theorem bellman_ford_update_backed (s : State) (S k : Nat) (sender : neighbor_list_node)
    (htab : table_ok s) (hc : caches_ok s.my_neighbor_list_head)
    (hfk : neighbor_list_find s.my_neighbor_list_head S = some k)
    (hsk : s.my_neighbor_list_head[k]? = some sender) (hport : sender.port = S)
    (h : ∀ a ∈ s.my_dv, a.first_hop_port ≠ S → backed s.my_neighbor_list_head a) :
    ∀ a ∈ (bellman_ford_update s S sender).2.my_dv, backed s.my_neighbor_list_head a := by
  have hstab := increase_pass_stable s S k sender htab hc hfk hsk
  have hinc := increase_pass_backed S sender s.my_neighbor_list_head s.my_dv h
  have hmem : sender ∈ s.my_neighbor_list_head := mem_of_getElem? hsk
  simp only [bellman_ford_update]
  apply bellman_ford_decrease_forall (backed s.my_neighbor_list_head)
  · apply decrease_pass_backed S sender s.my_neighbor_list_head hmem hport sender.dv _ _
      (fun e he => he) hstab.1.2.1 (fun a ha => (hstab.1.1 a ha).2.1)
    intro a ha
    by_cases hS : a.first_hop_port = S
    · by_cases hd : a.dest_port = S
      · left
        intro hne
        exact absurd (hd.trans hS.symm) hne
      · have hst := hstab.2 a ha
        unfold entry_stable at hst
        have hpw : ¬ path_worsened sender a = true := fun hpw => hst ⟨hS, hd, hpw⟩
        unfold path_worsened at hpw
        cases hj : dv_find sender.dv a.dest_port with
        | none =>
          rw [hj] at hpw
          exact absurd rfl hpw
        | some j =>
          rw [hj] at hpw
          simp only [decide_eq_true_eq] at hpw
          obtain ⟨ne, hne, hned⟩ := dv_find_some hj
          rw [getD_of_getElem? hne] at hpw
          by_cases heq : u32 (sender.cost + ne.cost) = a.cost
          · left
            intro _
            exact ⟨sender, hmem, hport.trans hS.symm, ne, mem_of_getElem? hne, hned, by
              rw [Nat.add_comm]; exact heq⟩
          · right
            exact ⟨hS, ne, mem_of_getElem? hne, hned, by omega⟩
    · exact Or.inl (hinc a ha hS)
  · intro _ _ hne
    exact absurd rfl hne

theorem handle_dv_packet_backed (s : State) (S : Nat) (buffer : List Nat) (L : Nat)
    (hinv : Inv s) (h : ∀ a ∈ s.my_dv, backed s.my_neighbor_list_head a) :
    ∀ a ∈ (handle_dv_packet s S buffer L).2.my_dv,
      backed (handle_dv_packet s S buffer L).2.my_neighbor_list_head a := by
  rcases handle_dv_packet_cases s S buffer L with hr | ⟨k, n, hf, hn, hp, _, _, hr⟩
  · rw [hr]
    exact h
  · rw [hr, bellman_ford_update_neighbors]
    have hports : (s.my_neighbor_list_head.set k (neighbor_list_node.mk n.port n.cost
        (received_dv buffer (((L / SIZEOF_DV_ENTRY : Nat) : Int) - 1)))).map
          neighbor_list_node.port = s.my_neighbor_list_head.map neighbor_list_node.port :=
      map_set_of_eq neighbor_list_node.port hn
        (rfl : (neighbor_list_node.mk n.port n.cost
          (received_dv buffer (((L / SIZEOF_DV_ENTRY : Nat) : Int) - 1))).port = n.port)
    exact bellman_ford_update_backed
      (State.mk s.my_port s.my_dv (s.my_neighbor_list_head.set k
        (neighbor_list_node.mk n.port n.cost
          (received_dv buffer (((L / SIZEOF_DV_ENTRY : Nat) : Int) - 1)))))
      S k (neighbor_list_node.mk n.port n.cost
          (received_dv buffer (((L / SIZEOF_DV_ENTRY : Nat) : Int) - 1)))
      (by
        unfold table_ok
        simp only [hports]
        exact hinv.1)
      (caches_ok_set _ hn (by rw [hp]; exact hf) hinv.2)
      (by
        show neighbor_list_find (s.my_neighbor_list_head.set k _) S = some k
        rw [neighbor_list_find_congr hports]
        exact hf)
      (by
        show (s.my_neighbor_list_head.set k _)[k]? = some _
        rw [List.getElem?_set]
        simp [lt_of_getElem? hn])
      hp
      (fun a ha haS => backed_set hn hp haS (h a ha))

theorem handle_killed_packet_backed (s : State) (S : Nat)
    (hinv : Inv s) (h : ∀ a ∈ s.my_dv, backed s.my_neighbor_list_head a) :
    ∀ a ∈ (handle_killed_packet s S).1.my_dv,
      backed (handle_killed_packet s S).1.my_neighbor_list_head a := by
  unfold handle_killed_packet
  cases hf : neighbor_list_find s.my_neighbor_list_head S with
  | none => exact h
  | some k =>
    simp only
    cases hd : dv_find s.my_dv (s.my_neighbor_list_head.getD k default).port with
    | none => exact h
    | some i =>
      simp only
      have h1 := handle_dv_packet_backed s S (List.replicate SIZEOF_DV_ENTRY 0)
        SIZEOF_DV_ENTRY hinv h
      cases hd2 : dv_find (handle_dv_packet s S (List.replicate SIZEOF_DV_ENTRY 0)
          SIZEOF_DV_ENTRY).2.my_dv (s.my_neighbor_list_head.getD k default).port with
      | none => exact h1
      | some i2 =>
        simp only
        exact fun a ha => h1 a (mem_of_mem_swap_delete ha)

theorem run_calls_backed (s : State) (cs : List Call) (hinv : Inv s)
    (h : ∀ a ∈ s.my_dv, backed s.my_neighbor_list_head a) :
    ∀ a ∈ (run_calls s cs).my_dv, backed (run_calls s cs).my_neighbor_list_head a := by
  induction cs generalizing s with
  | nil => exact h
  | cons c cs ih =>
    refine ih _ (apply_call_inv s c hinv) ?_
    cases c with
    | dv S buffer L => exact handle_dv_packet_backed s S buffer L hinv h
    | killed S => exact handle_killed_packet_backed s S hinv h
    | data S buffer => exact h

/-- C25: in every state reached from a startup state by any sequence of received
datagrams, for every own-DV entry `(d, h, c)` with `d != h` the neighbour record
that `neighbor_list_find` returns for `h`, whose cost field is `link_cost(h)`,
caches an entry for `d` whose cost plus that link cost, in 32-bit arithmetic,
equals `c`.  That the neighbour ports are pairwise distinct is not needed: a
record `neighbor_list_find` cannot return never holds a cached DV. -/
theorem route_backed_by_first_hop (s0 : State) (rs : List Received) (e : dv_entry)
    (h0 : startup s0) (he : e ∈ (run_server s0 rs).my_dv)
    (hne : e.dest_port ≠ e.first_hop_port) :
    ∃ k n ne, neighbor_list_find (run_server s0 rs).my_neighbor_list_head e.first_hop_port
          = some k ∧
      (run_server s0 rs).my_neighbor_list_head[k]? = some n ∧
      link_cost (run_server s0 rs).my_neighbor_list_head e.first_hop_port = some n.cost ∧
      ne ∈ n.dv ∧ ne.dest_port = e.dest_port ∧ u32 (ne.cost + n.cost) = e.cost := by
  obtain ⟨cs, hcs⟩ := run_server_eq_run_calls s0 rs
  rw [hcs] at he ⊢
  have hinv := run_calls_inv s0 cs (startup_inv h0)
  have hb := run_calls_backed s0 cs (startup_inv h0) (by rw [h0.1]; intro a ha; cases ha) e he hne
  obtain ⟨n, hn, hp, ne, hne2, hd, hcost⟩ := hb
  obtain ⟨m, hm⟩ := List.mem_iff_getElem?.mp hn
  have hfind := hinv.2 m n hm (by intro hnil; rw [hnil] at hne2; cases hne2)
  rw [hp] at hfind
  exact ⟨m, n, ne, hfind, hm, link_cost_of_find hfind hm, hne2, hd, hcost⟩

theorem route_backed_by_first_hop_witness :
    startup example_start ∧
      dv_entry.mk 10003 10001 3 ∈
        (run_server example_start [⟨16, 10001, example_dv_buffer⟩]).my_dv ∧
      (run_server example_start [⟨16, 10001, example_dv_buffer⟩]).my_neighbor_list_head =
        [⟨10001, 1, [⟨10003, 10003, 2⟩]⟩, ⟨10003, 10, []⟩] ∧
      ∃ k n ne,
        neighbor_list_find
          (run_server example_start [⟨16, 10001, example_dv_buffer⟩]).my_neighbor_list_head
          (dv_entry.mk 10003 10001 3).first_hop_port = some k ∧
        (run_server example_start [⟨16, 10001, example_dv_buffer⟩]).my_neighbor_list_head[k]?
          = some n ∧
        link_cost
          (run_server example_start [⟨16, 10001, example_dv_buffer⟩]).my_neighbor_list_head
          (dv_entry.mk 10003 10001 3).first_hop_port = some n.cost ∧
        ne ∈ n.dv ∧ ne.dest_port = (dv_entry.mk 10003 10001 3).dest_port ∧
        u32 (ne.cost + n.cost) = (dv_entry.mk 10003 10001 3).cost :=
  ⟨by simp [startup, example_start], by decide, by decide,
    route_backed_by_first_hop example_start [⟨16, 10001, example_dv_buffer⟩]
      (dv_entry.mk 10003 10001 3) (by simp [startup, example_start]) (by decide) (by decide)⟩

/-! ## Routing datagrams and the rest of the receive array -/

theorem byte_at_append_left (a t : List Nat) (i : Nat) (hi : i < a.length) :
    byte_at (a ++ t) i = byte_at a i := by
  unfold byte_at
  rw [List.getD_eq_getElem?_getD, List.getD_eq_getElem?_getD, List.getElem?_append_left hi]

theorem ntoh_dv_entry_append_left (a t : List Nat) (off : Nat) (h : off + 8 ≤ a.length) :
    ntoh_dv_entry (a ++ t) off = ntoh_dv_entry a off := by
  unfold ntoh_dv_entry
  rw [byte_at_append_left a t off (by omega), byte_at_append_left a t (off + 1) (by omega),
    byte_at_append_left a t (off + 2) (by omega), byte_at_append_left a t (off + 3) (by omega),
    byte_at_append_left a t (off + 4) (by omega), byte_at_append_left a t (off + 5) (by omega),
    byte_at_append_left a t (off + 6) (by omega), byte_at_append_left a t (off + 7) (by omega)]

theorem received_dv_append_left (a t : List Nat) :
    received_dv (a ++ t) (((a.length / SIZEOF_DV_ENTRY : Nat) : Int) - 1) =
      received_dv a (((a.length / SIZEOF_DV_ENTRY : Nat) : Int) - 1) := by
  unfold received_dv
  apply List.map_congr_left
  intro i hi
  rw [List.mem_range] at hi
  apply ntoh_dv_entry_append_left
  simp only [SIZEOF_DV_ENTRY] at hi ⊢
  omega

/-- `handle_dv_packet` reads no byte of the array past the received ones. -/
theorem handle_dv_packet_tail (s : State) (p : Nat) (a t : List Nat) :
    handle_dv_packet s p (a ++ t) a.length = handle_dv_packet s p a a.length := by
  unfold handle_dv_packet
  simp only [received_dv_append_left]

/-- For a datagram that is not a DATA packet, `server_loop` does not depend on
what its array holds past the received bytes. -/
theorem server_loop_tail (s : State) (src : Nat) (a t : List Nat)
    (h : byte_at a 0 ≠ DATA_PACKET) :
    server_loop s (a.length : Int) src (a ++ t) = server_loop s (a.length : Int) src a := by
  cases a with
  | nil => simp [server_loop]
  | cons x rest =>
    have h0 : byte_at (x :: rest ++ t) 0 = byte_at (x :: rest) 0 :=
      byte_at_append_left (x :: rest) t 0 (by simp)
    have hl : ((x :: rest).length : Int).toNat = (x :: rest).length := by simp
    unfold server_loop
    rw [h0, hl, handle_dv_packet_tail]
    simp only [if_neg h]

theorem length_received_bytes (bytes : List (Option Nat)) :
    (received_bytes bytes).length = bytes.length := by
  simp [received_bytes]

theorem deliver_tail (nodes : List State) (pk : Packet) (tail : List Nat)
    (h : routing pk = true) : deliver nodes pk tail = deliver nodes pk [] := by
  have hr : byte_at (received_bytes pk.bytes) 0 ≠ DATA_PACKET := by
    simpa [routing] using h
  induction nodes with
  | nil => rfl
  | cons s rest ih =>
    unfold deliver
    rw [ih]
    have h1 := server_loop_tail s pk.src (received_bytes pk.bytes) tail hr
    rw [length_received_bytes] at h1
    rw [h1, List.append_nil]

theorem net_step_tail (net : Network) (k : Nat) (tail : List Nat)
    (h : net.flight.all routing = true) : net_step net k tail = net_step net k [] := by
  unfold net_step
  cases hk : net.flight[k]? with
  | none => rfl
  | some pk =>
    simp only
    rw [deliver_tail net.nodes pk tail (List.all_eq_true.mp h pk (mem_of_getElem? hk))]

/-- What `all_runs` establishes: `P` holds at the end of every run, under any
schedule and whatever the receive arrays hold, that leaves no datagram in
flight. -/
theorem all_runs_sound (P : Network → Bool) (schedule : List (Nat × List Nat)) :
    ∀ (fuel : Nat) (net : Network), all_runs P fuel net = true →
      (net_run net schedule).flight = [] → P (net_run net schedule) = true := by
  induction schedule with
  | nil =>
    intro fuel net h hq
    have hq2 : net.flight = [] := hq
    cases fuel with
    | zero => simpa [all_runs, hq2] using h
    | succ f => simpa [all_runs, hq2] using h
  | cons step steps ih =>
    intro fuel net h hq
    show P (net_run (net_step net step.1 step.2) steps) = true
    cases hk : net.flight[step.1]? with
    | none =>
      have hs : net_step net step.1 step.2 = net := by
        unfold net_step
        rw [hk]
      rw [hs]
      exact ih fuel net h (by
        have : net_run net (step :: steps) = net_run (net_step net step.1 step.2) steps := rfl
        rw [this, hs] at hq
        exact hq)
    | some pk =>
      have hne : net.flight.isEmpty = false := by
        cases hf : net.flight with
        | nil => rw [hf] at hk; simp at hk
        | cons a b => rfl
      cases fuel with
      | zero => simp [all_runs, hne] at h
      | succ f =>
        unfold all_runs at h
        rw [hne] at h
        simp only [Bool.false_eq_true, if_false, Bool.and_eq_true] at h
        have hstep := List.all_eq_true.mp h.2 step.1
          (List.mem_range.mpr (lt_of_getElem? hk))
        rw [← net_step_tail net step.1 step.2 h.1] at hstep
        exact ih f _ hstep hq

/-! ## The death of a neighbour in the triangle -/

set_option maxRecDepth 1000000 in
theorem triangle_all_runs : all_runs triangle_rerouted 8 triangle_after_kill = true := by
  decide

set_option maxRecDepth 1000000 in
theorem triangle_before_kill :
    triangle_converged.flight = [] ∧
      triangle_converged.nodes[1]? = some triangle_b ∧
      triangle_after_kill.nodes.map State.my_port = [10002, 10003] ∧
      triangle_after_kill.flight = [⟨10001, 10002, [some 3]⟩, ⟨10001, 10003, [some 3]⟩] := by
  decide

/-- C18 as the program has it, in the triangle A-B(1), B-C(10), A-C(2) brought to
convergence (B then has the own DV `(A, A, 1), (C, A, 3)` and the converged DVs of
A and C cached) in which A is killed and its KILLED datagrams go out to B and C:
when B has processed the KILLED packet from A its own DV is empty, so it has no
entry with first hop A and none for destination A, and none for C either; and
once the datagrams this sets off are delivered, in whatever order and whatever the
receive arrays hold, and none remains in flight, B's own DV is
`(10003, 10003, 10)` and C's is `(10002, 10002, 10)`. -/
theorem triangle_kill_reroutes (schedule : List (Nat × List Nat))
    (hq : (net_run triangle_after_kill schedule).flight = []) :
    triangle_converged.flight = [] ∧
      triangle_converged.nodes[1]? = some triangle_b ∧
      triangle_after_kill.flight = [⟨10001, 10002, [some 3]⟩, ⟨10001, 10003, [some 3]⟩] ∧
      (handle_killed_packet triangle_b 10001).1.my_dv = [] ∧
      (net_run triangle_after_kill schedule).nodes.map (fun s => (s.my_port, s.my_dv)) =
        [(10002, [⟨10003, 10003, 10⟩]), (10003, [⟨10002, 10002, 10⟩])] := by
  refine ⟨triangle_before_kill.1, triangle_before_kill.2.1, triangle_before_kill.2.2.2,
    by decide, ?_⟩
  have h := all_runs_sound triangle_rerouted schedule 8 triangle_after_kill
    triangle_all_runs hq
  simpa [triangle_rerouted] using h

set_option maxRecDepth 1000000 in
theorem triangle_kill_reroutes_witness :
    (net_run triangle_after_kill (List.replicate 6 (0, []))).flight = [] ∧
      (net_run triangle_after_kill (List.replicate 6 (0, []))).nodes.map
          (fun s => (s.my_port, s.my_dv)) =
        [(10002, [⟨10003, 10003, 10⟩]), (10003, [⟨10002, 10002, 10⟩])] :=
  ⟨by decide, (triangle_kill_reroutes (List.replicate 6 (0, [])) (by decide)).2.2.2.2⟩

/-! ## One relaxation at a node of the chain -/

theorem chain_table_length (y : Nat) (dv : List dv_entry)
    (hroute : ∀ a ∈ dv, chain_route y a) (hn : (dv.map dv_entry.dest_port).Nodup) :
    dv.length ≤ 4 := by
  have hsub : dv.map dv_entry.dest_port ⊆ [10001, 10002, 10003, 10004] := by
    intro d hd
    obtain ⟨a, ha, rfl⟩ := List.mem_map.mp hd
    have := (hroute a ha).1
    unfold chain_port at this
    simp only [List.mem_cons, List.mem_singleton, List.not_mem_nil, or_false]
    omega
  have := (List.subperm_of_subset hn hsub).length_le
  simpa using this

theorem chain_relax (t : State) (X d cv : Nat)
    (hadj : chain_adjacent X t.my_port)
    (hroute : ∀ a ∈ t.my_dv, chain_route t.my_port a)
    (hn : (t.my_dv.map dv_entry.dest_port).Nodup)
    (hsrc : (d = X ∧ cv = 1) ∨ ∃ e, chain_route X e ∧ d = e.dest_port ∧
      cv = u32 (1 + e.cost) ∧
      (e.first_hop_port = t.my_port → e.dest_port ≠ t.my_port →
        ∃ a ∈ t.my_dv, a.dest_port = d)) :
    ((bellman_ford_decrease t d X cv).2 = t ∨
      (bellman_ford_decrease t d X cv).2 =
        { t with my_dv := t.my_dv ++ [dv_entry.mk d X cv] }) ∧
    (∀ a ∈ (bellman_ford_decrease t d X cv).2.my_dv, chain_route t.my_port a) ∧
    (d ≠ t.my_port → ∃ a ∈ (bellman_ford_decrease t d X cv).2.my_dv, a.dest_port = d) := by
  have hlen := chain_table_length t.my_port t.my_dv hroute hn
  have hcv : cv < MAX_POSSIBLE_COST := by
    rcases hsrc with ⟨-, h⟩ | ⟨e, he, -, h, -⟩
    · rw [h]; decide
    · unfold chain_route chain_port at he
      unfold chain_adjacent chain_port at hadj
      simp only [u32] at h
      simp only [MAX_POSSIBLE_COST]
      omega
  rcases bellman_ford_decrease_cases t d X cv with
    ⟨hp, hr⟩ | ⟨_, _, h64, _⟩ | ⟨_, _, _, hl, _⟩ | ⟨hd, hf, _, _, hr⟩ |
    ⟨i, a, _, _, _, _, h64, _⟩ | ⟨i, a, _, _, ha, had, _, hlt, _⟩ |
    ⟨i, a, _, _, ha, had, _, _, hr⟩
  · rw [hr]
    exact ⟨Or.inl rfl, hroute, fun h => absurd hp h⟩
  · omega
  · simp only [DV_CAPACITY] at hl
    omega
  · rw [hr]
    have hnew : chain_route t.my_port (dv_entry.mk d X cv) := by
      rcases hsrc with ⟨h1, h2⟩ | ⟨e, he, h1, h2, h3⟩
      · unfold chain_adjacent chain_port at hadj
        simp only [chain_route, chain_port]
        omega
      · by_cases hvia : e.first_hop_port = t.my_port
        · obtain ⟨a, ha, had⟩ := h3 hvia (by rw [← h1]; exact hd)
          exact absurd had (dv_find_none hf a ha)
        · clear h3
          unfold chain_route chain_port at he
          unfold chain_adjacent chain_port at hadj
          simp only [u32] at h2
          simp only [chain_route, chain_port]
          omega
    refine ⟨Or.inr rfl, ?_, fun _ => ⟨dv_entry.mk d X cv, by simp, rfl⟩⟩
    intro a ha
    rcases List.mem_append.mp ha with ha | ha
    · exact hroute a ha
    · rw [List.mem_singleton.mp ha]
      exact hnew
  · omega
  · exfalso
    have hra := hroute a (mem_of_getElem? ha)
    unfold chain_route chain_port at hra
    unfold chain_adjacent chain_port at hadj
    rcases hsrc with ⟨h1, h2⟩ | ⟨e, he, h1, h2, -⟩
    · omega
    · unfold chain_route chain_port at he
      simp only [u32] at h2
      omega
  · rw [hr]
    exact ⟨Or.inl rfl, hroute, fun _ => ⟨a, mem_of_getElem? ha, had⟩⟩

theorem chain_decrease_pass (X Y : Nat) (sender : neighbor_list_node) (own : List dv_entry)
    (hcost : sender.cost = 1) (hadj : chain_adjacent X Y) :
    ∀ (D : List dv_entry) (t : State) (cc : Int), t.my_port = Y →
      (∀ a ∈ t.my_dv, chain_route Y a) → (t.my_dv.map dv_entry.dest_port).Nodup →
      (∀ a ∈ own, a ∈ t.my_dv) →
      (∀ e ∈ D, chain_route X e ∧ (e.first_hop_port = Y → e.dest_port ≠ Y →
        ∃ a ∈ own, a.dest_port = e.dest_port)) →
      (decrease_pass X sender D t cc).1.my_port = Y ∧
      (∀ a ∈ (decrease_pass X sender D t cc).1.my_dv, chain_route Y a) ∧
      ((decrease_pass X sender D t cc).1.my_dv.map dv_entry.dest_port).Nodup ∧
      (∀ a ∈ t.my_dv, a ∈ (decrease_pass X sender D t cc).1.my_dv) ∧
      (∀ e ∈ D, e.dest_port ≠ Y →
        ∃ a ∈ (decrease_pass X sender D t cc).1.my_dv, a.dest_port = e.dest_port) ∧
      (∀ a ∈ (decrease_pass X sender D t cc).1.my_dv, a ∈ t.my_dv ∨
        (a.first_hop_port = X ∧ ∃ e ∈ D, e.dest_port = a.dest_port)) := by
  intro D
  induction D with
  | nil =>
    intro t cc hp hr hn _ _
    exact ⟨hp, hr, hn, fun a ha => ha, fun e he => absurd he (List.not_mem_nil e),
      fun a ha => Or.inl ha⟩
  | cons e rest ih =>
    intro t cc hp hr hn hown hD
    have he := hD e (List.mem_cons_self _ _)
    have hrel := chain_relax t X e.dest_port (u32 (sender.cost + e.cost))
      (by rw [hp]; exact hadj) (by rw [hp]; exact hr) hn
      (Or.inr ⟨e, he.1, rfl, by rw [hcost], fun h1 h2 => by
        obtain ⟨a, ha, had⟩ := he.2 (by rw [← hp]; exact h1) (by rw [← hp]; exact h2)
        exact ⟨a, hown a ha, had⟩⟩)
    rw [hp] at hrel
    have hsub : ∀ a ∈ t.my_dv,
        a ∈ (bellman_ford_decrease t e.dest_port X (u32 (sender.cost + e.cost))).2.my_dv := by
      intro a ha
      rcases hrel.1 with h | h <;> rw [h]
      · exact ha
      · exact List.mem_append_left _ ha
    have hprov : ∀ a ∈ (bellman_ford_decrease t e.dest_port X
        (u32 (sender.cost + e.cost))).2.my_dv,
        a ∈ t.my_dv ∨ (a.first_hop_port = X ∧ a.dest_port = e.dest_port) := by
      intro a ha
      rcases hrel.1 with h | h <;> rw [h] at ha
      · exact Or.inl ha
      · rcases List.mem_append.mp ha with ha | ha
        · exact Or.inl ha
        · rw [List.mem_singleton.mp ha]
          exact Or.inr ⟨rfl, rfl⟩
    have hrec := ih (bellman_ford_decrease t e.dest_port X (u32 (sender.cost + e.cost))).2
      (if (bellman_ford_decrease t e.dest_port X (u32 (sender.cost + e.cost))).1 > 0
        then cc + 1 else cc)
      (by rw [bellman_ford_decrease_my_port]; exact hp) hrel.2.1
      (bellman_ford_decrease_nodup t _ _ _ hn) (fun a ha => hsub a (hown a ha))
      (fun x hx => hD x (List.mem_cons_of_mem _ hx))
    show (decrease_pass X sender rest _ _).1.my_port = Y ∧ _
    refine ⟨hrec.1, hrec.2.1, hrec.2.2.1, fun a ha => hrec.2.2.2.1 a (hsub a ha), ?_, ?_⟩
    · intro x hx hxy
      rcases List.mem_cons.mp hx with hx | hx
      · subst hx
        obtain ⟨a, ha, had⟩ := hrel.2.2 hxy
        exact ⟨a, hrec.2.2.2.1 a ha, had⟩
      · exact hrec.2.2.2.2.1 x hx hxy
    · intro a ha
      rcases hrec.2.2.2.2.2 a ha with h | ⟨h1, x, hx, hxd⟩
      · rcases hprov a h with h | ⟨h1, h2⟩
        · exact Or.inl h
        · exact Or.inr ⟨h1, e, List.mem_cons_self _ _, h2.symm⟩
      · exact Or.inr ⟨h1, x, List.mem_cons_of_mem _ hx, hxd⟩

/-- An accepted DV at a node of the chain, once the sender's record holds it: the
own DV only grows, by routes of the chain through the sender. -/
theorem chain_update (s : State) (X : Nat) (sender : neighbor_list_node)
    (hcost : sender.cost = 1) (hadj : chain_adjacent X s.my_port)
    (hroute : ∀ a ∈ s.my_dv, chain_route s.my_port a)
    (hn : (s.my_dv.map dv_entry.dest_port).Nodup)
    (hstable : ∀ a ∈ s.my_dv, entry_stable X sender a)
    (hm : ∀ e ∈ sender.dv, chain_route X e ∧ (e.first_hop_port = s.my_port →
      e.dest_port ≠ s.my_port → ∃ a ∈ s.my_dv, a.dest_port = e.dest_port)) :
    (∀ a ∈ (bellman_ford_update s X sender).2.my_dv, chain_route s.my_port a) ∧
    (∀ a ∈ s.my_dv, a ∈ (bellman_ford_update s X sender).2.my_dv) ∧
    (∀ e ∈ sender.dv, e.dest_port ≠ s.my_port →
      ∃ a ∈ (bellman_ford_update s X sender).2.my_dv, a.dest_port = e.dest_port) ∧
    (∃ a ∈ (bellman_ford_update s X sender).2.my_dv, a.dest_port = X) ∧
    (∀ a ∈ (bellman_ford_update s X sender).2.my_dv, a ∈ s.my_dv ∨
      (a.first_hop_port = X ∧
        (a.dest_port = X ∨ ∃ e ∈ sender.dv, e.dest_port = a.dest_port))) := by
  have hdec := chain_decrease_pass X s.my_port sender s.my_dv hcost hadj sender.dv
    (State.mk s.my_port s.my_dv s.my_neighbor_list_head) 0 rfl hroute hn (fun a ha => ha) hm
  have hfin := chain_relax
    (decrease_pass X sender sender.dv (State.mk s.my_port s.my_dv s.my_neighbor_list_head) 0).1
    X X 1 (by rw [hdec.1]; exact hadj) (by rw [hdec.1]; exact hdec.2.1) hdec.2.2.1
    (Or.inl ⟨rfl, rfl⟩)
  rw [hdec.1] at hfin
  have heq : (bellman_ford_update s X sender).2 =
      (bellman_ford_decrease (decrease_pass X sender sender.dv
        (State.mk s.my_port s.my_dv s.my_neighbor_list_head) 0).1 X X 1).2 := by
    simp only [bellman_ford_update, increase_pass_noop X sender s.my_neighbor_list_head
      s.my_dv hstable, hcost]
  rw [heq]
  have hXY : X ≠ s.my_port := by
    unfold chain_adjacent at hadj
    omega
  have hsub : ∀ a ∈ (decrease_pass X sender sender.dv
      (State.mk s.my_port s.my_dv s.my_neighbor_list_head) 0).1.my_dv,
      a ∈ (bellman_ford_decrease (decrease_pass X sender sender.dv
        (State.mk s.my_port s.my_dv s.my_neighbor_list_head) 0).1 X X 1).2.my_dv := by
    intro a ha
    rcases hfin.1 with h | h <;> rw [h]
    · exact ha
    · exact List.mem_append_left _ ha
  refine ⟨hfin.2.1, fun a ha => hsub a (hdec.2.2.2.1 a ha), ?_, hfin.2.2 hXY, ?_⟩
  · intro e he hey
    obtain ⟨a, ha, had⟩ := hdec.2.2.2.2.1 e he hey
    exact ⟨a, hsub a ha, had⟩
  · intro a ha
    have hcase : a ∈ (decrease_pass X sender sender.dv
        (State.mk s.my_port s.my_dv s.my_neighbor_list_head) 0).1.my_dv ∨
        (a.first_hop_port = X ∧ a.dest_port = X) := by
      rcases hfin.1 with h | h <;> rw [h] at ha
      · exact Or.inl ha
      · rcases List.mem_append.mp ha with ha | ha
        · exact Or.inl ha
        · rw [List.mem_singleton.mp ha]
          exact Or.inr ⟨rfl, rfl⟩
    rcases hcase with h | ⟨h1, h2⟩
    · rcases hdec.2.2.2.2.2 a h with h | ⟨h1, h2⟩
      · exact Or.inl h
      · exact Or.inr ⟨h1, Or.inr h2⟩
    · exact Or.inr ⟨h1, Or.inl h2⟩

/-! ## A DV datagram at a node of the chain -/

theorem link_table_map_mk (l : List (Nat × Nat)) :
    link_table (l.map (fun pc => neighbor_list_node.mk pc.1 pc.2 [])) = l := by
  induction l with
  | nil => rfl
  | cons a rest ih =>
    unfold link_table at ih ⊢
    rw [List.map_cons, List.map_cons, ih]

theorem chain_neighbor (s : State) (X : Nat) (hs : chain_node_ok s)
    (hadj : chain_adjacent X s.my_port) :
    ∃ k n, neighbor_list_find s.my_neighbor_list_head X = some k ∧
      s.my_neighbor_list_head[k]? = some n ∧ n.port = X ∧ n.cost = 1 := by
  have hl : link_cost s.my_neighbor_list_head X = some 1 := by
    have h2 : link_table ((chain_link_table s.my_port).map
        (fun pc => neighbor_list_node.mk pc.1 pc.2 [])) =
        link_table s.my_neighbor_list_head := by
      rw [hs.2.1, link_table_map_mk]
    rw [← link_cost_congr h2]
    obtain ⟨⟨h1, h2'⟩, ⟨h3, h4⟩, h5⟩ := hadj
    generalize s.my_port = Y at h3 h4 h5 ⊢
    interval_cases Y <;> interval_cases X <;> first | (exfalso; omega) | decide
  obtain ⟨k, n, hf, hn, hc⟩ := link_cost_some hl
  obtain ⟨n2, hn2, hp⟩ := neighbor_list_find_some hf
  rw [hn] at hn2
  cases hn2
  exact ⟨k, n, hf, hn, hp, hc⟩

theorem cached_dv_of_find {s : State} {p k : Nat} {n : neighbor_list_node}
    (hf : neighbor_list_find s.my_neighbor_list_head p = some k)
    (hn : s.my_neighbor_list_head[k]? = some n) : cached_dv s p = n.dv := by
  unfold cached_dv
  rw [hf]
  simp [List.getD_eq_getElem?_getD, hn]

theorem chain_route_unique {x : Nat} {a b : dv_entry} (ha : chain_route x a)
    (hb : chain_route x b) (h : a.dest_port = b.dest_port) : a = b := by
  unfold chain_route chain_port at ha hb
  cases a with
  | mk d1 f1 c1 =>
    cases b with
    | mk d2 f2 c2 =>
      simp only at ha hb h
      simp only [dv_entry.mk.injEq]
      omega

theorem chain_handle_dv (s : State) (X : Nat) (m : List dv_entry) (buffer : List Nat)
    (L : Nat) (hs : chain_node_ok s) (hadj : chain_adjacent X s.my_port)
    (hL : L = (m.length + 1) * 8)
    (hrecv : received_dv buffer (((L / SIZEOF_DV_ENTRY : Nat) : Int) - 1) = m)
    (hlen : m.length ≤ DV_CAPACITY)
    (hm : ∀ e ∈ m, chain_route X e)
    (hcache : ∀ e ∈ cached_dv s X, e ∈ m)
    (hJ : ∀ e ∈ m, e.first_hop_port = s.my_port → e.dest_port ≠ s.my_port →
      ∃ a ∈ s.my_dv, a.dest_port = e.dest_port) :
    0 ≤ (handle_dv_packet s X buffer L).1 ∧
    chain_node_ok (handle_dv_packet s X buffer L).2 ∧
    (handle_dv_packet s X buffer L).2.my_port = s.my_port ∧
    (∀ a ∈ s.my_dv, a ∈ (handle_dv_packet s X buffer L).2.my_dv) ∧
    cached_dv (handle_dv_packet s X buffer L).2 X = m ∧
    (∀ Z, Z ≠ X → cached_dv (handle_dv_packet s X buffer L).2 Z = cached_dv s Z) ∧
    (∀ e ∈ m, e.dest_port ≠ s.my_port →
      ∃ a ∈ (handle_dv_packet s X buffer L).2.my_dv, a.dest_port = e.dest_port) ∧
    (∃ a ∈ (handle_dv_packet s X buffer L).2.my_dv, a.dest_port = X) ∧
    (∀ a ∈ (handle_dv_packet s X buffer L).2.my_dv, a ∈ s.my_dv ∨
      (a.first_hop_port = X ∧ (a.dest_port = X ∨ ∃ e ∈ m, e.dest_port = a.dest_port))) ∧
    ((handle_dv_packet s X buffer L).1 = 0 →
      (handle_dv_packet s X buffer L).2.my_dv = s.my_dv) := by
  obtain ⟨k, n, hf, hn, hp, hc⟩ := chain_neighbor s X hs hadj
  have hL8 : L % SIZEOF_DV_ENTRY = 0 := by
    rw [hL]
    simp only [SIZEOF_DV_ENTRY]
    omega
  have hcap : ((L / SIZEOF_DV_ENTRY : Nat) : Int) - 1 ≤ (DV_CAPACITY : Int) := by
    rw [hL]
    simp only [SIZEOF_DV_ENTRY, DV_CAPACITY] at hlen ⊢
    omega
  have hinv' := handle_dv_packet_inv s X buffer L hs.2.2.1
  have hback' := handle_dv_packet_backed s X buffer L hs.2.2.1 hs.2.2.2.1
  have hlt' := handle_dv_packet_link_table s X buffer L
  have hacc := handle_dv_packet_accept buffer hf hn hL8 hcap
  rw [hrecv] at hacc
  rw [hacc] at hinv' hback' hlt' ⊢
  have hports : (s.my_neighbor_list_head.set k (neighbor_list_node.mk n.port n.cost m)).map
      neighbor_list_node.port = s.my_neighbor_list_head.map neighbor_list_node.port :=
    map_set_of_eq neighbor_list_node.port hn
      (rfl : (neighbor_list_node.mk n.port n.cost m).port = n.port)
  have hstable : ∀ a ∈ s.my_dv, entry_stable X (neighbor_list_node.mk n.port n.cost m) a := by
    intro a ha
    rintro ⟨hfh, hd, hpw⟩
    have hb := hs.2.2.2.1 a ha (by rw [hfh]; exact hd)
    obtain ⟨n0, hn0, hp0, ne, hne, hned, hcost⟩ := hb
    obtain ⟨j, hj⟩ := List.mem_iff_getElem?.mp hn0
    have hfind := hs.2.2.1.2 j n0 hj (by intro hnil; rw [hnil] at hne; cases hne)
    rw [hp0, hfh, hf] at hfind
    cases hfind
    rw [hn] at hj
    cases hj
    have hnem : ne ∈ m := hcache ne (by rw [cached_dv_of_find hf hn]; exact hne)
    unfold path_worsened at hpw
    obtain ⟨i, hi⟩ := dv_find_isSome_of_mem hnem
    rw [hned] at hi
    simp only [hi, decide_eq_true_eq] at hpw
    obtain ⟨x, hx, hxd⟩ := dv_find_some hi
    rw [getD_of_getElem? hx] at hpw
    have hxe : x = ne :=
      chain_route_unique (hm x (mem_of_getElem? hx)) (hm ne hnem) (hxd.trans hned.symm)
    rw [hxe, Nat.add_comm, hcost] at hpw
    exact Nat.lt_irrefl _ hpw
  have hupd := chain_update
    (State.mk s.my_port s.my_dv
      (s.my_neighbor_list_head.set k (neighbor_list_node.mk n.port n.cost m)))
    X (neighbor_list_node.mk n.port n.cost m) hc hadj hs.2.2.2.2 hs.2.2.1.1.2.1 hstable
    (fun e he => ⟨hm e he, hJ e he⟩)
  have hnb := bellman_ford_update_neighbors
    (State.mk s.my_port s.my_dv
      (s.my_neighbor_list_head.set k (neighbor_list_node.mk n.port n.cost m)))
    X (neighbor_list_node.mk n.port n.cost m)
  have hmp := bellman_ford_update_my_port
    (State.mk s.my_port s.my_dv
      (s.my_neighbor_list_head.set k (neighbor_list_node.mk n.port n.cost m)))
    X (neighbor_list_node.mk n.port n.cost m)
  have hkl := lt_of_getElem? hn
  refine ⟨bellman_ford_update_count_nonneg _ _ _, ⟨?_, ?_, hinv', hback', ?_⟩, hmp,
    hupd.2.1, ?_, ?_, hupd.2.2.1, hupd.2.2.2.1, hupd.2.2.2.2, ?_⟩
  · rw [hmp]
    exact hs.1
  · rw [hmp, hlt']
    exact hs.2.1
  · rw [hmp]
    exact hupd.1
  · unfold cached_dv
    rw [hnb]
    dsimp only
    rw [neighbor_list_find_congr hports, hf]
    simp [List.getD_eq_getElem?_getD, List.getElem?_set, hkl]
  · intro Z hZ
    unfold cached_dv
    rw [hnb]
    dsimp only
    rw [neighbor_list_find_congr hports]
    cases hfz : neighbor_list_find s.my_neighbor_list_head Z with
    | none => rfl
    | some kz =>
      obtain ⟨nz, hnz, hpz⟩ := neighbor_list_find_some hfz
      have hne : k ≠ kz := by
        intro hkk
        rw [← hkk, hn] at hnz
        cases hnz
        exact hZ (hpz.symm.trans hp)
      simp [List.getD_eq_getElem?_getD, List.getElem?_set, hne]
  · intro h0
    rw [bellman_ford_update_zero _ _ _ h0]

theorem chain_route_range {x : Nat} {e : dv_entry} (hx : chain_port x) (h : chain_route x e) :
    e.dest_port < 65536 ∧ e.first_hop_port < 65536 ∧ e.cost < 4294967296 := by
  unfold chain_route chain_port at h
  unfold chain_port at hx
  omega

theorem received_bytes_getElem? (bytes : List (Option Nat)) (tail : List Nat) (k b : Nat)
    (h : bytes[k]? = some (some b)) : (received_bytes bytes ++ tail)[k]? = some b := by
  have hk := lt_of_getElem? h
  rw [List.getElem?_append_left (by rw [length_received_bytes]; exact hk)]
  unfold received_bytes
  rw [List.getElem?_map, h]
  rfl

/-- A datagram of a run of the chain, received by the node it is addressed to. -/
theorem chain_node_step (s : State) (pk : Packet) (tail : List Nat)
    (r : State × List Datagram)
    (hr : r = server_loop s (pk.bytes.length : Int) pk.src (received_bytes pk.bytes ++ tail))
    (hs : chain_node_ok s) (hpk : chain_packet_ok pk) (hdst : s.my_port = pk.dst)
    (hcache : ∀ e ∈ cached_dv s pk.src, e ∈ carried_dv pk)
    (hJ : ∀ e ∈ carried_dv pk, e.first_hop_port = s.my_port → e.dest_port ≠ s.my_port →
      ∃ a ∈ s.my_dv, a.dest_port = e.dest_port) :
    chain_node_ok r.1 ∧ r.1.my_port = s.my_port ∧
    (∀ a ∈ s.my_dv, a ∈ r.1.my_dv) ∧
    cached_dv r.1 pk.src = carried_dv pk ∧
    (∀ Z, Z ≠ pk.src → cached_dv r.1 Z = cached_dv s Z) ∧
    (∀ e ∈ carried_dv pk, e.dest_port ≠ s.my_port →
      ∃ a ∈ r.1.my_dv, a.dest_port = e.dest_port) ∧
    (∃ a ∈ r.1.my_dv, a.dest_port = pk.src) ∧
    (∀ a ∈ r.1.my_dv, a ∈ s.my_dv ∨ (a.first_hop_port = pk.src ∧
      (a.dest_port = pk.src ∨ ∃ e ∈ carried_dv pk, e.dest_port = a.dest_port))) ∧
    (r.2 = r.1.my_neighbor_list_head.map
        (fun n => Datagram.mk n.port (dv_wire DV_PACKET r.1.my_dv)) ∨
      (r.1.my_dv = s.my_dv ∧
        (r.2 = [] ∨ r.2 = [Datagram.mk pk.src (dv_wire DV_PACKET r.1.my_dv)]))) := by
  obtain ⟨hadj, hbytes, hlen, hroutes⟩ := hpk
  have hadj' : chain_adjacent pk.src s.my_port := by rw [hdst]; exact hadj
  have hrange : ∀ e ∈ carried_dv pk,
      e.dest_port < 65536 ∧ e.first_hop_port < 65536 ∧ e.cost < 4294967296 :=
    fun e he => chain_route_range hadj.1 (hroutes e he)
  have key : ∀ type, (type = DV_PACKET ∨ type = INITIAL_DV_PACKET) →
      pk.bytes = dv_wire type (carried_dv pk) →
      byte_at (received_bytes pk.bytes ++ tail) 0 = type ∧
      pk.bytes.length = ((carried_dv pk).length + 1) * 8 ∧
      received_dv (received_bytes pk.bytes ++ tail)
        (((pk.bytes.length / SIZEOF_DV_ENTRY : Nat) : Int) - 1) = carried_dv pk := by
    intro type hty hb
    have hbuf : ∀ (k b : Nat), (dv_wire type (carried_dv pk))[k]? = some (some b) →
        (received_bytes pk.bytes ++ tail)[k]? = some b := by
      intro k b hk
      rw [← hb] at hk
      exact received_bytes_getElem? pk.bytes tail k b hk
    have hl : pk.bytes.length = ((carried_dv pk).length + 1) * 8 := by
      have hlb := congrArg List.length hb
      rw [length_dv_wire] at hlb
      exact hlb
    refine ⟨?_, hl, ?_⟩
    · have h0 := hbuf 0 type (by simp [dv_wire])
      unfold byte_at
      rw [List.getD_eq_getElem?_getD, h0]
      rcases hty with h | h <;> rw [h] <;> decide
    · rw [hl]
      exact received_dv_of_wire type (carried_dv pk) _ hbuf hrange
  have hpos : ¬ ((pk.bytes.length : Nat) : Int) < 0 := by omega
  have hcore := fun (hl : pk.bytes.length = ((carried_dv pk).length + 1) * 8)
    (hrecv : received_dv (received_bytes pk.bytes ++ tail)
        (((pk.bytes.length / SIZEOF_DV_ENTRY : Nat) : Int) - 1) = carried_dv pk) =>
    chain_handle_dv s pk.src (carried_dv pk) (received_bytes pk.bytes ++ tail)
      pk.bytes.length hs hadj' hl hrecv hlen hroutes hcache hJ
  have htn : ((pk.bytes.length : Nat) : Int).toNat = pk.bytes.length := by simp
  rcases hbytes with hb | hb
  · obtain ⟨h0, hl, hrecv⟩ := key DV_PACKET (Or.inl rfl) hb
    have hc := hcore hl hrecv
    have hnz : ¬ ((pk.bytes.length : Nat) : Int) = 0 := by omega
    have h3 : ¬ byte_at (received_bytes pk.bytes ++ tail) 0 = DATA_PACKET := by
      rw [h0]; decide
    rw [server_loop, if_neg hpos, if_neg hnz, if_neg h3, if_pos h0, htn] at hr
    simp only at hr
    by_cases hcnt : (handle_dv_packet s pk.src (received_bytes pk.bytes ++ tail)
        pk.bytes.length).1 > 0
    · rw [if_pos hcnt] at hr
      rw [hr]
      refine ⟨hc.2.1, hc.2.2.1, hc.2.2.2.1, hc.2.2.2.2.1, hc.2.2.2.2.2.1, hc.2.2.2.2.2.2.1,
        hc.2.2.2.2.2.2.2.1, hc.2.2.2.2.2.2.2.2.1, Or.inl ?_⟩
      exact broadcast_my_dv_eq _ DV_PACKET hc.2.1.2.2.1.1.2.2
    · rw [if_neg hcnt] at hr
      rw [hr]
      refine ⟨hc.2.1, hc.2.2.1, hc.2.2.2.1, hc.2.2.2.2.1, hc.2.2.2.2.2.1, hc.2.2.2.2.2.2.1,
        hc.2.2.2.2.2.2.2.1, hc.2.2.2.2.2.2.2.2.1, Or.inr ⟨?_, Or.inl rfl⟩⟩
      exact hc.2.2.2.2.2.2.2.2.2 (by have := hc.1; omega)
  · obtain ⟨h0, hl, hrecv⟩ := key INITIAL_DV_PACKET (Or.inr rfl) hb
    have hc := hcore hl hrecv
    have hnz : ¬ ((pk.bytes.length : Nat) : Int) = 0 := by omega
    have h3 : ¬ byte_at (received_bytes pk.bytes ++ tail) 0 = DATA_PACKET := by
      rw [h0]; decide
    have h4 : ¬ byte_at (received_bytes pk.bytes ++ tail) 0 = DV_PACKET := by
      rw [h0]; decide
    have h5 : ¬ byte_at (received_bytes pk.bytes ++ tail) 0 = KILLED_PACKET := by
      rw [h0]; decide
    rw [server_loop, if_neg hpos, if_neg hnz, if_neg h3, if_neg h4, if_neg h5, if_pos h0,
      htn] at hr
    simp only at hr
    by_cases hcnt : (handle_dv_packet s pk.src (received_bytes pk.bytes ++ tail)
        pk.bytes.length).1 > 0
    · rw [if_pos hcnt] at hr
      rw [hr]
      refine ⟨hc.2.1, hc.2.2.1, hc.2.2.2.1, hc.2.2.2.2.1, hc.2.2.2.2.2.1, hc.2.2.2.2.2.2.1,
        hc.2.2.2.2.2.2.2.1, hc.2.2.2.2.2.2.2.2.1, Or.inl ?_⟩
      exact broadcast_my_dv_eq _ DV_PACKET hc.2.1.2.2.1.1.2.2
    · rw [if_neg hcnt] at hr
      rw [hr]
      refine ⟨hc.2.1, hc.2.2.1, hc.2.2.2.1, hc.2.2.2.2.1, hc.2.2.2.2.2.1, hc.2.2.2.2.2.2.1,
        hc.2.2.2.2.2.2.2.1, hc.2.2.2.2.2.2.2.2.1, Or.inr ⟨?_, Or.inr ?_⟩⟩
      · exact hc.2.2.2.2.2.2.2.2.2 (by have := hc.1; omega)
      · exact send_my_dv_eq _ pk.src hc.2.1.2.2.1.1.2.2

/-! ## Nodes and datagrams of a network -/

theorem node_at_port {nodes : List State} {p : Nat} {s : State}
    (h : node_at nodes p = some s) : s.my_port = p ∧ s ∈ nodes := by
  unfold node_at at h
  have h1 := List.find?_some h
  exact ⟨by simpa using h1, List.mem_of_find?_eq_some h⟩

theorem node_at_of_mem {nodes : List State} {s : State}
    (hn : (nodes.map State.my_port).Nodup) (hs : s ∈ nodes) :
    node_at nodes s.my_port = some s := by
  induction nodes with
  | nil => cases hs
  | cons t rest ih =>
    rw [List.map_cons, List.nodup_cons] at hn
    unfold node_at
    rw [List.find?_cons]
    rcases List.mem_cons.mp hs with h | h
    · subst h
      simp
    · have hne : t.my_port ≠ s.my_port := by
        intro heq
        exact hn.1 (by rw [heq]; exact List.mem_map_of_mem _ h)
      simp only [hne, decide_False]
      exact ih hn.2 h

theorem bound_iff (nodes : List State) (p : Nat) :
    bound nodes p = true ↔ p ∈ nodes.map State.my_port := by
  unfold bound
  rw [List.any_eq_true]
  constructor
  · rintro ⟨s, hs, h⟩
    exact List.mem_map.mpr ⟨s, hs, of_decide_eq_true h⟩
  · intro h
    obtain ⟨s, hs, rfl⟩ := List.mem_map.mp h
    exact ⟨s, hs, decide_eq_true rfl⟩

theorem deliver_spec (nodes : List State) (pk : Packet) (tail : List Nat) (s : State)
    (h : node_at nodes pk.dst = some s)
    (hport : (server_loop s (pk.bytes.length : Int) pk.src
      (received_bytes pk.bytes ++ tail)).1.my_port = s.my_port) :
    (deliver nodes pk tail).2 = emit pk.dst (server_loop s (pk.bytes.length : Int) pk.src
      (received_bytes pk.bytes ++ tail)).2 ∧
    (deliver nodes pk tail).1.map State.my_port = nodes.map State.my_port ∧
    (∀ p, node_at (deliver nodes pk tail).1 p =
      if p = pk.dst then some (server_loop s (pk.bytes.length : Int) pk.src
        (received_bytes pk.bytes ++ tail)).1 else node_at nodes p) ∧
    (∀ t ∈ (deliver nodes pk tail).1, t ∈ nodes ∨
      t = (server_loop s (pk.bytes.length : Int) pk.src
        (received_bytes pk.bytes ++ tail)).1) := by
  induction nodes with
  | nil => simp [node_at] at h
  | cons t rest ih =>
    unfold deliver
    by_cases ht : t.my_port = pk.dst
    · have hst : s = t := by
        unfold node_at at h
        rw [List.find?_cons] at h
        simp only [ht, decide_True] at h
        exact (Option.some.inj h).symm
      subst hst
      rw [if_pos ht]
      refine ⟨by rw [ht], ?_, ?_, ?_⟩
      · simp only [List.map_cons, hport]
      · intro p
        unfold node_at
        rw [List.find?_cons, List.find?_cons]
        by_cases hp : p = pk.dst
        · subst hp
          simp [hport, ht]
        · have h1 : ¬ s.my_port = p := by rw [ht]; exact fun h => hp h.symm
          simp [hport, h1, hp]
      · intro x hx
        rcases List.mem_cons.mp hx with hx | hx
        · exact Or.inr hx
        · exact Or.inl (List.mem_cons_of_mem _ hx)
    · rw [if_neg ht]
      have hrest : node_at rest pk.dst = some s := by
        unfold node_at at h ⊢
        rw [List.find?_cons] at h
        simpa [ht] using h
      obtain ⟨h1, h2, h3, h4⟩ := ih hrest
      refine ⟨h1, ?_, ?_, ?_⟩
      · simp only [List.map_cons, h2]
      · intro p
        have h3p := h3 p
        unfold node_at at h3p ⊢
        rw [List.find?_cons, List.find?_cons]
        by_cases hp : p = pk.dst
        · subst hp
          simpa [ht] using h3p
        · by_cases htp : t.my_port = p
          · simp [htp, hp]
          · simpa [htp, hp] using h3p
      · intro x hx
        rcases List.mem_cons.mp hx with hx | hx
        · exact Or.inl (by rw [hx]; exact List.mem_cons_self _ _)
        · rcases h4 x hx with h | h
          · exact Or.inl (List.mem_cons_of_mem _ h)
          · exact Or.inr h

theorem eq_take_cons_drop {α : Type} {l : List α} {k : Nat} {a : α} (h : l[k]? = some a) :
    l = l.take k ++ a :: l.drop (k + 1) := by
  induction l generalizing k with
  | nil => simp at h
  | cons x rest ih =>
    cases k with
    | zero =>
      simp at h
      simp [h]
    | succ j =>
      simp at h
      simp only [List.take_succ_cons, List.drop_succ_cons, List.cons_append]
      rw [← ih h]

theorem in_order_step_spec {flight : List Packet} {k : Nat}
    (h : in_order_step flight k = true) :
    ∃ pk, flight[k]? = some pk ∧
      ∀ q ∈ flight.take k, ¬ (q.src = pk.src ∧ q.dst = pk.dst) := by
  unfold in_order_step at h
  cases hk : flight[k]? with
  | none => rw [hk] at h; cases h
  | some pk =>
    rw [hk] at h
    refine ⟨pk, rfl, ?_⟩
    intro q hq hc
    have := List.all_eq_true.mp h q hq
    simp [hc.1, hc.2] at this

/-- Taking the oldest datagram of a link out of the flight removes the head of
that link's queue and leaves the other links as they are. -/
theorem on_link_eraseIdx {flight : List Packet} {k : Nat} {pk : Packet}
    (hk : flight[k]? = some pk)
    (hfirst : ∀ q ∈ flight.take k, ¬ (q.src = pk.src ∧ q.dst = pk.dst)) (x y : Nat) :
    on_link flight x y =
      if x = pk.src ∧ y = pk.dst then pk :: on_link (flight.eraseIdx k) x y
      else on_link (flight.eraseIdx k) x y := by
  have hsplit := eq_take_cons_drop hk
  have herase : flight.eraseIdx k = flight.take k ++ flight.drop (k + 1) :=
    List.eraseIdx_eq_take_drop_succ flight k
  unfold on_link
  rw [herase, List.filter_append]
  conv_lhs => rw [hsplit, List.filter_append, List.filter_cons]
  by_cases hxy : x = pk.src ∧ y = pk.dst
  · rw [if_pos hxy]
    obtain ⟨hx, hy⟩ := hxy
    subst hx
    subst hy
    have hpre : (flight.take k).filter
        (fun q => decide (q.src = pk.src) && decide (q.dst = pk.dst)) = [] := by
      rw [List.filter_eq_nil_iff]
      intro q hq
      simpa using hfirst q hq
    rw [hpre]
    simp
  · rw [if_neg hxy]
    have : (decide (pk.src = x) && decide (pk.dst = y)) = false := by
      simp only [Bool.and_eq_false_imp, decide_eq_true_eq, decide_eq_false_iff_not]
      intro h1 h2
      exact hxy ⟨h1.symm, h2.symm⟩
    rw [this]
    simp

theorem on_link_append (a b : List Packet) (x y : Nat) :
    on_link (a ++ b) x y = on_link a x y ++ on_link b x y := by
  unfold on_link
  rw [List.filter_append]

theorem mem_of_mem_on_link {flight : List Packet} {x y : Nat} {q : Packet}
    (h : q ∈ on_link flight x y) : q ∈ flight ∧ q.src = x ∧ q.dst = y := by
  unfold on_link at h
  rw [List.mem_filter] at h
  simpa using h

/-! ## The DVs on a link -/

theorem link_chain_append (own own' : List dv_entry) (hsub : ∀ e ∈ own, e ∈ own') :
    ∀ (msgs : List (List dv_entry)) (c : List dv_entry), link_chain c msgs own →
      link_chain c (msgs ++ [own']) own' := by
  intro msgs
  induction msgs with
  | nil =>
    intro c h
    exact ⟨fun e he => hsub e (h.2 e he), fun e he => he, fun e he => he⟩
  | cons m rest ih =>
    intro c h
    exact ⟨h.1, ih m h.2⟩

theorem link_chain_sub : ∀ (msgs : List (List dv_entry)) (c own : List dv_entry),
    link_chain c msgs own → ∀ e ∈ c, e ∈ own := by
  intro msgs
  induction msgs with
  | nil =>
    intro c own h
    exact h.2
  | cons m rest ih =>
    intro c own h e he
    exact ih m own h.2 e (h.1 e he)

theorem carried_dv_wire (x y type : Nat) (dv : List dv_entry)
    (hrange : ∀ e ∈ dv, e.dest_port < 65536 ∧ e.first_hop_port < 65536 ∧ e.cost < 4294967296) :
    carried_dv (Packet.mk x y (dv_wire type dv)) = dv := by
  unfold carried_dv
  show received_dv (received_bytes (dv_wire type dv))
    ((((dv_wire type dv).length / SIZEOF_DV_ENTRY : Nat) : Int) - 1) = dv
  rw [length_dv_wire]
  apply received_dv_of_wire type dv _ _ hrange
  intro k b hk
  have := received_bytes_getElem? (dv_wire type dv) [] k b hk
  rwa [List.append_nil] at this

/-! ## What a node of the chain emits -/

theorem emit_broadcast (Y0 : Nat) (l : List neighbor_list_node) (w : List (Option Nat)) :
    emit Y0 (l.map (fun n => Datagram.mk n.port w)) =
      (link_table l).map (fun pc => Packet.mk Y0 pc.1 w) := by
  unfold emit link_table
  rw [List.map_map, List.map_map]
  rfl

/-- The datagrams a node of the chain emits on receiving a DV: a broadcast of the
own DV to its neighbours, or, with the own DV unchanged, nothing or a reply to the
sender. -/
theorem chain_emitted (Y0 X0 : Nat) (w : List (Option Nat)) (U : List Packet)
    (unchanged : Prop) (hadj : chain_adjacent X0 Y0)
    (hU : U = (chain_link_table Y0).map (fun pc => Packet.mk Y0 pc.1 w) ∨
      (unchanged ∧ (U = [] ∨ U = [Packet.mk Y0 X0 w]))) :
    (∀ q ∈ U, q.src = Y0 ∧ chain_adjacent Y0 q.dst ∧ q.bytes = w) ∧
    (∀ y, chain_adjacent Y0 y →
      on_link U Y0 y = [Packet.mk Y0 y w] ∨ (unchanged ∧ on_link U Y0 y = [])) := by
  obtain ⟨⟨hx1, hx2⟩, ⟨hy1, hy2⟩, hxy⟩ := hadj
  rcases hU with hU | ⟨hun, hU | hU⟩
  · subst hU
    constructor
    · intro q hq
      obtain ⟨pc, hpc, rfl⟩ := List.mem_map.mp hq
      refine ⟨rfl, ?_, rfl⟩
      unfold chain_link_table at hpc
      unfold chain_adjacent chain_port
      simp only [List.mem_append] at hpc
      rcases hpc with hpc | hpc
      · split at hpc
        · rw [List.mem_singleton] at hpc
          subst hpc
          dsimp only
          omega
        · cases hpc
      · split at hpc
        · rw [List.mem_singleton] at hpc
          subst hpc
          dsimp only
          omega
        · cases hpc
    · intro y hy
      left
      obtain ⟨-, ⟨hy1', hy2'⟩, hyy⟩ := hy
      interval_cases Y0 <;> interval_cases y <;>
        first
        | (exfalso; omega)
        | simp [chain_link_table, on_link]
  · subst hU
    exact ⟨fun q hq => absurd hq (List.not_mem_nil q), fun y _ => Or.inr ⟨hun, rfl⟩⟩
  · subst hU
    constructor
    · intro q hq
      rw [List.mem_singleton] at hq
      subst hq
      exact ⟨rfl, ⟨⟨hy1, hy2⟩, ⟨hx1, hx2⟩, by dsimp only; omega⟩, rfl⟩
    · intro y hy
      by_cases hyx : y = X0
      · left
        subst hyx
        simp [on_link]
      · right
        refine ⟨hun, ?_⟩
        unfold on_link
        rw [List.filter_eq_nil_iff]
        intro q hq
        rw [List.mem_singleton] at hq
        subst hq
        simp [Ne.symm hyx]

/-! ## One in-order delivery keeps the invariant of the chain -/

theorem node_at_of_port {nodes : List State}
    (hports : nodes.map State.my_port = [10001, 10002, 10003, 10004]) {p : Nat}
    (hp : chain_port p) : ∃ s, node_at nodes p = some s := by
  have hmem : p ∈ nodes.map State.my_port := by
    rw [hports]
    unfold chain_port at hp
    simp only [List.mem_cons, List.mem_singleton, List.not_mem_nil, or_false]
    omega
  obtain ⟨s, hs, rfl⟩ := List.mem_map.mp hmem
  exact ⟨s, node_at_of_mem (by rw [hports]; decide) hs⟩

theorem carried_dv_of_bytes (q : Packet) (type : Nat) (dv : List dv_entry)
    (h : q.bytes = dv_wire type dv)
    (hrange : ∀ e ∈ dv, e.dest_port < 65536 ∧ e.first_hop_port < 65536 ∧ e.cost < 4294967296) :
    carried_dv q = dv := by
  cases q with
  | mk x y b =>
    simp only at h
    subst h
    exact carried_dv_wire x y type dv hrange

theorem chain_inv_step (net : Network) (k : Nat) (tail : List Nat) (hinv : chain_inv net)
    (hord : in_order_step net.flight k = true) : chain_inv (net_step net k tail) := by
  obtain ⟨hports, hnodes, hpkts, hlinks⟩ := hinv
  obtain ⟨pk, hk, hfirst⟩ := in_order_step_spec hord
  have hpk := hpkts pk (mem_of_getElem? hk)
  obtain ⟨sy0, hsy0⟩ := node_at_of_port hports hpk.1.2.1
  obtain ⟨sx0, hsx0⟩ := node_at_of_port hports hpk.1.1
  have hy0 := node_at_port hsy0
  have hx0 := node_at_port hsx0
  have hl0 := hlinks pk.src pk.dst sx0 sy0 hpk.1 hsx0 hsy0
  have hon0 := on_link_eraseIdx hk hfirst pk.src pk.dst
  rw [if_pos ⟨rfl, rfl⟩] at hon0
  rw [hon0, List.map_cons] at hl0
  obtain ⟨hchain0, hJ0, -, -⟩ := hl0
  have hsub0 : ∀ e ∈ carried_dv pk, e ∈ sx0.my_dv :=
    link_chain_sub _ _ _ hchain0.2
  obtain ⟨r, hr⟩ : ∃ r, r = server_loop sy0 (pk.bytes.length : Int) pk.src
      (received_bytes pk.bytes ++ tail) := ⟨_, rfl⟩
  obtain ⟨hok', hport', hgrow, hcacheX, hcacheZ, hsettled, hhasX, hprov, hout⟩ :=
    chain_node_step sy0 pk tail r hr (hnodes sy0 hy0.2) hpk hy0.1
      (by rw [← hx0.1]; exact hchain0.1)
      (fun e he h1 h2 => hJ0 e (hsub0 e he) h1 h2)
  have hdel := deliver_spec net.nodes pk tail sy0 hsy0 (by rw [← hr]; exact hport')
  rw [← hr] at hdel
  obtain ⟨hd2, hdports, hdat, hdmem⟩ := hdel
  have hrY : r.1.my_port = pk.dst := hport'.trans hy0.1
  have hUform : emit pk.dst r.2 =
        (chain_link_table pk.dst).map
          (fun pc => Packet.mk pk.dst pc.1 (dv_wire DV_PACKET r.1.my_dv)) ∨
      (r.1.my_dv = sy0.my_dv ∧ (emit pk.dst r.2 = [] ∨
        emit pk.dst r.2 = [Packet.mk pk.dst pk.src (dv_wire DV_PACKET r.1.my_dv)])) := by
    rcases hout with h | ⟨h1, h | h⟩
    · left
      rw [h, emit_broadcast, hok'.2.1, hrY]
    · right
      exact ⟨h1, Or.inl (by rw [h]; rfl)⟩
    · right
      exact ⟨h1, Or.inr (by rw [h]; rfl)⟩
  obtain ⟨hE1, hE2⟩ := chain_emitted pk.dst pk.src (dv_wire DV_PACKET r.1.my_dv)
    (emit pk.dst r.2) (r.1.my_dv = sy0.my_dv) hpk.1 hUform
  have hfilt : (emit pk.dst r.2).filter
      (fun q => bound (deliver net.nodes pk tail).1 q.dst) = emit pk.dst r.2 := by
    rw [List.filter_eq_self]
    intro q hq
    rw [bound_iff, hdports, hports]
    have := (hE1 q hq).2.1.2.1
    unfold chain_port at this
    simp only [List.mem_cons, List.mem_singleton, List.not_mem_nil, or_false]
    omega
  have hns : net_step net k tail =
      { nodes := (deliver net.nodes pk tail).1
        flight := net.flight.eraseIdx k ++ emit pk.dst r.2 } := by
    unfold net_step
    rw [hk]
    simp only
    rw [hd2, hfilt]
  rw [hns]
  have hrange' : ∀ e ∈ r.1.my_dv,
      e.dest_port < 65536 ∧ e.first_hop_port < 65536 ∧ e.cost < 4294967296 :=
    fun e he => chain_route_range hok'.1 (hok'.2.2.2.2 e he)
  have hcarried : ∀ q ∈ emit pk.dst r.2, carried_dv q = r.1.my_dv :=
    fun q hq => carried_dv_of_bytes q DV_PACKET _ (hE1 q hq).2.2 hrange'
  have hsrcne : pk.src ≠ pk.dst := by
    have := hpk.1
    unfold chain_adjacent at this
    omega
  have hUother : ∀ x y, x ≠ pk.dst → on_link (emit pk.dst r.2) x y = [] := by
    intro x y hx
    unfold on_link
    rw [List.filter_eq_nil_iff]
    intro q hq
    have := (hE1 q hq).1
    simp [this, Ne.symm hx]
  refine ⟨by simp only [hdports, hports], ?_, ?_, ?_⟩
  · intro t ht
    rcases hdmem t ht with h | h
    · exact hnodes t h
    · rw [h]
      exact hok'
  · intro q hq
    rcases List.mem_append.mp hq with hq | hq
    · exact hpkts q (List.mem_of_mem_eraseIdx hq)
    · obtain ⟨h1, h2, h3⟩ := hE1 q hq
      have hc := hcarried q hq
      refine ⟨by rw [h1]; exact h2, Or.inl (by rw [hc]; exact h3), ?_, ?_⟩
      · rw [hc]
        exact hok'.2.2.1.1.2.2
      · intro e he
        rw [hc] at he
        rw [h1, ← hrY]
        exact hok'.2.2.2.2 e he
  · intro x y sx sy hadj hsx hsy
    simp only at hsx hsy ⊢
    rw [hdat] at hsx hsy
    rw [on_link_append, List.map_append]
    have hxy : x ≠ y := by
      unfold chain_adjacent at hadj
      omega
    by_cases hyY : y = pk.dst
    · -- the receiver is the node that took the step
      rw [if_pos hyY] at hsy
      have hxne : x ≠ pk.dst := fun h => hxy (h.trans hyY.symm)
      rw [if_neg hxne] at hsx
      cases hsy
      have hsxp := node_at_port hsx
      rw [hUother x y hxne, List.map_nil, List.append_nil]
      have hold := hlinks x y sx sy0 hadj hsx (by rw [hyY]; exact hsy0)
      by_cases hxX : x = pk.src
      · have hsx0' : sx = sx0 := by
          rw [hxX, hsx0] at hsx
          exact (Option.some.inj hsx).symm
        subst hsx0'
        have hon := on_link_eraseIdx hk hfirst x y
        rw [if_pos ⟨hxX, hyY⟩] at hon
        rw [hon, List.map_cons] at hold
        obtain ⟨hch, hJ, hS, hH⟩ := hold
        have hcx : cached_dv r.1 x = carried_dv pk := by rw [hxX]; exact hcacheX
        refine ⟨?_, ?_, ?_, ?_⟩
        · rw [hsxp.1, hcx]
          exact hch.2
        · intro e he h1 h2
          rw [hport'] at h1 h2
          obtain ⟨a, ha, had⟩ := hJ e he h1 h2
          exact ⟨a, hgrow a ha, had⟩
        · intro e he h2
          rw [hsxp.1, hxX, hcacheX] at he
          rw [hport'] at h2
          exact hsettled e he h2
        · intro _
          rw [hsxp.1, hxX]
          exact hhasX
      · have hon := on_link_eraseIdx hk hfirst x y
        rw [if_neg (fun h => hxX h.1)] at hon
        rw [← hon]
        obtain ⟨hch, hJ, hS, hH⟩ := hold
        have hcz := hcacheZ sx.my_port (by rw [hsxp.1]; exact hxX)
        refine ⟨?_, ?_, ?_, ?_⟩
        · rw [hcz]
          exact hch
        · intro e he h1 h2
          rw [hport'] at h1 h2
          obtain ⟨a, ha, had⟩ := hJ e he h1 h2
          exact ⟨a, hgrow a ha, had⟩
        · intro e he h2
          rw [hcz] at he
          rw [hport'] at h2
          obtain ⟨a, ha, had⟩ := hS e he h2
          exact ⟨a, hgrow a ha, had⟩
        · intro hm
          obtain ⟨a, ha, had⟩ := hH hm
          exact ⟨a, hgrow a ha, had⟩
    · rw [if_neg hyY] at hsy
      have hon := on_link_eraseIdx hk hfirst x y
      rw [if_neg (fun h => hyY h.2)] at hon
      rw [← hon]
      by_cases hxY : x = pk.dst
      · -- the sender is the node that took the step
        rw [if_pos hxY] at hsx
        cases hsx
        have hsyp := node_at_port hsy
        have hold := hlinks x y sy0 sy hadj (by rw [hxY]; exact hsy0) hsy
        obtain ⟨hch, hJ, hS, hH⟩ := hold
        have hadj' : chain_adjacent pk.dst y := by rw [← hxY]; exact hadj
        rw [hxY]
        rw [hxY] at hch hH
        refine ⟨?_, ?_, ?_, ?_⟩
        · rw [hport']
          rcases hE2 y hadj' with h | ⟨h1, h⟩
          · rw [h, List.map_cons, List.map_nil,
              hcarried _ (by
                have : Packet.mk pk.dst y (dv_wire DV_PACKET r.1.my_dv) ∈
                    on_link (emit pk.dst r.2) pk.dst y := by rw [h]; simp
                exact (mem_of_mem_on_link this).1)]
            exact link_chain_append sy0.my_dv r.1.my_dv hgrow _ _ hch
          · rw [h, List.map_nil, List.append_nil, h1]
            exact hch
        · intro e he h1 h2
          rcases hprov e he with h | ⟨h3, h4⟩
          · exact hJ e h h1 h2
          · have hyX : y = pk.src := by rw [← hsyp.1, ← h1, h3]
            have hsy' : sy = sx0 := by
              rw [hyX, hsx0] at hsy
              exact (Option.some.inj hsy).symm
            subst hsy'
            rcases h4 with h4 | ⟨e', he', hd'⟩
            · exact absurd (h4.trans (hyX.symm.trans hsyp.1.symm)) h2
            · exact ⟨e', hsub0 e' he', hd'⟩
        · intro e he h2
          rw [hport'] at he
          exact hS e he h2
        · intro hm
          rw [hport']
          apply hH
          rw [List.append_eq_nil] at hm
          exact hm.1
      · rw [if_neg hxY] at hsx
        rw [hUother x y hxY, List.map_nil, List.append_nil]
        exact hlinks x y sx sy hadj hsx hsy

/-! ## The chain converges under every in-order schedule -/

theorem cached_dv_startup {s : State} (h : startup s) (p : Nat) : cached_dv s p = [] := by
  unfold cached_dv
  cases hf : neighbor_list_find s.my_neighbor_list_head p with
  | none => rfl
  | some k =>
    obtain ⟨n, hn, _⟩ := neighbor_list_find_some hf
    simp only
    have hg : s.my_neighbor_list_head.getD k default = n := by
      simp [List.getD_eq_getElem?_getD, hn]
    rw [hg]
    exact h.2 n (mem_of_getElem? hn)

theorem link_chain_empty : ∀ (msgs : List (List dv_entry)), (∀ m ∈ msgs, m = []) →
    link_chain [] msgs [] := by
  intro msgs
  induction msgs with
  | nil => intro _; exact ⟨fun e he => he, fun e he => he⟩
  | cons m rest ih =>
    intro h
    have hm := h m (List.mem_cons_self _ _)
    subst hm
    exact ⟨fun e he => he, ih (fun x hx => h x (List.mem_cons_of_mem _ hx))⟩

set_option maxRecDepth 100000 in
theorem chain_boot_flight :
    (boot chain_nodes).flight =
      [⟨10001, 10002, dv_wire INITIAL_DV_PACKET []⟩, ⟨10002, 10001, dv_wire INITIAL_DV_PACKET []⟩,
       ⟨10002, 10003, dv_wire INITIAL_DV_PACKET []⟩, ⟨10003, 10002, dv_wire INITIAL_DV_PACKET []⟩,
       ⟨10003, 10004, dv_wire INITIAL_DV_PACKET []⟩, ⟨10004, 10003, dv_wire INITIAL_DV_PACKET []⟩] := by
  decide

theorem chain_boot_inv : chain_inv (boot chain_nodes) := by
  have hstart : ∀ s ∈ chain_nodes, startup s := by
    intro s hs
    simp only [chain_nodes, List.mem_cons, List.mem_singleton, List.not_mem_nil,
      or_false] at hs
    rcases hs with rfl | rfl | rfl | rfl <;> simp [startup]
  have hcar : ∀ pk ∈ (boot chain_nodes).flight, carried_dv pk = [] := by
    intro pk hpk
    rw [chain_boot_flight] at hpk
    simp only [List.mem_cons, List.mem_singleton, List.not_mem_nil, or_false] at hpk
    rcases hpk with rfl | rfl | rfl | rfl | rfl | rfl <;>
      exact carried_dv_wire _ _ _ [] (fun e he => absurd he (List.not_mem_nil e))
  refine ⟨rfl, ?_, ?_, ?_⟩
  · intro s hs
    have hst := hstart s hs
    refine ⟨?_, ?_, startup_inv hst, ?_, ?_⟩
    · simp only [boot, chain_nodes, List.mem_cons, List.mem_singleton, List.not_mem_nil,
        or_false] at hs
      rcases hs with rfl | rfl | rfl | rfl <;> (unfold chain_port; decide)
    · simp only [boot, chain_nodes, List.mem_cons, List.mem_singleton, List.not_mem_nil,
        or_false] at hs
      rcases hs with rfl | rfl | rfl | rfl <;> decide
    · intro a ha
      rw [hst.1] at ha
      cases ha
    · intro a ha
      rw [hst.1] at ha
      cases ha
  · intro pk hpk
    have hc := hcar pk hpk
    rw [chain_boot_flight] at hpk
    simp only [List.mem_cons, List.mem_singleton, List.not_mem_nil, or_false] at hpk
    refine ⟨?_, ?_, by rw [hc]; decide, by rw [hc]; intro e he; cases he⟩
    · rcases hpk with rfl | rfl | rfl | rfl | rfl | rfl <;>
        (unfold chain_adjacent chain_port; decide)
    · right
      rw [hc]
      rcases hpk with rfl | rfl | rfl | rfl | rfl | rfl <;> rfl
  · intro x y sx sy hadj hsx hsy
    have hsxm : sx ∈ chain_nodes := (node_at_port hsx).2
    have hsym : sy ∈ chain_nodes := (node_at_port hsy).2
    have hne : on_link (boot chain_nodes).flight x y ≠ [] := by
      rw [chain_boot_flight]
      obtain ⟨⟨h1, h2⟩, ⟨h3, h4⟩, h5⟩ := hadj
      interval_cases x <;> interval_cases y <;>
        first
        | (exfalso; omega)
        | simp [on_link]
    refine ⟨?_, ?_, ?_, ?_⟩
    · rw [cached_dv_startup (hstart sy hsym), (hstart sx hsxm).1]
      apply link_chain_empty
      intro m hm
      obtain ⟨q, hq, rfl⟩ := List.mem_map.mp hm
      exact hcar q (mem_of_mem_on_link hq).1
    · intro e he
      rw [(hstart sx hsxm).1] at he
      cases he
    · intro e he
      rw [cached_dv_startup (hstart sy hsym)] at he
      cases he
    · intro hm
      rw [List.map_eq_nil_iff] at hm
      exact absurd hm hne

theorem chain_inv_run : ∀ (schedule : List (Nat × List Nat)) (net : Network),
    chain_inv net → in_order net schedule = true → chain_inv (net_run net schedule) := by
  intro schedule
  induction schedule with
  | nil => intro net h _; exact h
  | cons step steps ih =>
    intro net h hord
    unfold in_order at hord
    rw [Bool.and_eq_true] at hord
    exact ih _ (chain_inv_step net step.1 step.2 h hord.1) hord.2

/-- Across a link without a datagram on its way, every destination the sender has
a route for, the receiver has a route for as well. -/
theorem link_ok_push {sx sy : State} (h : link_ok sx sy []) {e : dv_entry}
    (he : e ∈ sx.my_dv) (hd : e.dest_port ≠ sy.my_port) :
    ∃ a ∈ sy.my_dv, a.dest_port = e.dest_port :=
  h.2.2.1 e (h.1.1 e he) hd

theorem chain_inv_quiescent (net : Network) (hinv : chain_inv net) (hq : net.flight = []) :
    ∀ s ∈ net.nodes, (∀ a ∈ s.my_dv, chain_route s.my_port a) ∧
      (s.my_port = 10001 → dv_entry.mk 10004 10002 3 ∈ s.my_dv) ∧
      (s.my_port = 10004 → dv_entry.mk 10001 10003 3 ∈ s.my_dv) := by
  obtain ⟨hports, hnodes, -, hlinks⟩ := hinv
  have hlink : ∀ x y sx sy, chain_adjacent x y → node_at net.nodes x = some sx →
      node_at net.nodes y = some sy → link_ok sx sy [] := by
    intro x y sx sy hadj hsx hsy
    have := hlinks x y sx sy hadj hsx hsy
    rw [hq] at this
    exact this
  obtain ⟨a, ha⟩ := node_at_of_port hports (p := 10001) (by unfold chain_port; decide)
  obtain ⟨b, hb⟩ := node_at_of_port hports (p := 10002) (by unfold chain_port; decide)
  obtain ⟨c, hc⟩ := node_at_of_port hports (p := 10003) (by unfold chain_port; decide)
  obtain ⟨d, hd⟩ := node_at_of_port hports (p := 10004) (by unfold chain_port; decide)
  have hap := (node_at_port ha).1
  have hbp := (node_at_port hb).1
  have hcp := (node_at_port hc).1
  have hdp := (node_at_port hd).1
  have lab := hlink 10001 10002 a b (by unfold chain_adjacent chain_port; decide) ha hb
  have lba := hlink 10002 10001 b a (by unfold chain_adjacent chain_port; decide) hb ha
  have lbc := hlink 10002 10003 b c (by unfold chain_adjacent chain_port; decide) hb hc
  have lcb := hlink 10003 10002 c b (by unfold chain_adjacent chain_port; decide) hc hb
  have lcd := hlink 10003 10004 c d (by unfold chain_adjacent chain_port; decide) hc hd
  have ldc := hlink 10004 10003 d c (by unfold chain_adjacent chain_port; decide) hd hc
  -- the route of A to D
  have hA : dv_entry.mk 10004 10002 3 ∈ a.my_dv := by
    obtain ⟨e1, he1, hd1⟩ := ldc.2.2.2 rfl
    rw [hdp] at hd1
    obtain ⟨e2, he2, hd2⟩ := link_ok_push lcb he1 (by rw [hd1, hbp]; decide)
    rw [hd1] at hd2
    obtain ⟨e3, he3, hd3⟩ := link_ok_push lba he2 (by rw [hd2, hap]; decide)
    rw [hd2] at hd3
    have hr := (hnodes a (node_at_port ha).2).2.2.2.2 e3 he3
    rw [hap] at hr
    have : e3 = dv_entry.mk 10004 10002 3 :=
      chain_route_unique hr (by unfold chain_route chain_port; decide) hd3
    rw [← this]
    exact he3
  -- the route of D to A
  have hD : dv_entry.mk 10001 10003 3 ∈ d.my_dv := by
    obtain ⟨e1, he1, hd1⟩ := lab.2.2.2 rfl
    rw [hap] at hd1
    obtain ⟨e2, he2, hd2⟩ := link_ok_push lbc he1 (by rw [hd1, hcp]; decide)
    rw [hd1] at hd2
    obtain ⟨e3, he3, hd3⟩ := link_ok_push lcd he2 (by rw [hd2, hdp]; decide)
    rw [hd2] at hd3
    have hr := (hnodes d (node_at_port hd).2).2.2.2.2 e3 he3
    rw [hdp] at hr
    have : e3 = dv_entry.mk 10001 10003 3 :=
      chain_route_unique hr (by unfold chain_route chain_port; decide) hd3
    rw [← this]
    exact he3
  intro s hs
  have hnd : (net.nodes.map State.my_port).Nodup := by rw [hports]; decide
  have hat := node_at_of_mem hnd hs
  refine ⟨(hnodes s hs).2.2.2.2, ?_, ?_⟩
  · intro hp
    rw [hp, ha] at hat
    cases hat
    exact hA
  · intro hp
    rw [hp, hd] at hat
    cases hat
    exact hD

/-- C17 as the program has it: in the chain A-B(1), B-C(1), C-D(1) on ports
10001..10004, all nodes running the program (initial INITIAL_DV broadcast, then
`server_loop` steps), under every schedule that delivers the datagrams of each
link in the order in which they were sent (the links in any order against each
other, whatever the receive arrays hold past the received bytes): once no
datagram remains in flight, A's own DV contains `(10004, 10002, 3)` and D's own DV
contains `(10001, 10003, 3)`, and every entry of every own DV is a shortest route
of the chain. -/
theorem chain_converges_in_order (schedule : List (Nat × List Nat))
    (hord : in_order (boot chain_nodes) schedule = true)
    (hq : (net_run (boot chain_nodes) schedule).flight = []) :
    (net_run (boot chain_nodes) schedule).nodes.map State.my_port =
      [10001, 10002, 10003, 10004] ∧
    ∀ s ∈ (net_run (boot chain_nodes) schedule).nodes,
      (∀ a ∈ s.my_dv, chain_route s.my_port a) ∧
      (s.my_port = 10001 → dv_entry.mk 10004 10002 3 ∈ s.my_dv) ∧
      (s.my_port = 10004 → dv_entry.mk 10001 10003 3 ∈ s.my_dv) :=
  ⟨(chain_inv_run schedule _ chain_boot_inv hord).1,
    chain_inv_quiescent _ (chain_inv_run schedule _ chain_boot_inv hord) hq⟩

set_option maxRecDepth 1000000 in
theorem chain_converges_in_order_witness :
    in_order (boot chain_nodes) chain_fifo_schedule = true ∧
    (net_run (boot chain_nodes) chain_fifo_schedule).flight = [] ∧
    (net_run (boot chain_nodes) chain_fifo_schedule).nodes.map
        (fun s => (s.my_port, s.my_dv)) =
      [(10001, [⟨10002, 10002, 1⟩, ⟨10003, 10002, 2⟩, ⟨10004, 10002, 3⟩]),
       (10002, [⟨10001, 10001, 1⟩, ⟨10003, 10003, 1⟩, ⟨10004, 10003, 2⟩]),
       (10003, [⟨10002, 10002, 1⟩, ⟨10004, 10004, 1⟩, ⟨10001, 10002, 2⟩]),
       (10004, [⟨10003, 10003, 1⟩, ⟨10002, 10003, 2⟩, ⟨10001, 10003, 3⟩])] ∧
    ∀ s ∈ (net_run (boot chain_nodes) chain_fifo_schedule).nodes,
      (∀ a ∈ s.my_dv, chain_route s.my_port a) ∧
      (s.my_port = 10001 → dv_entry.mk 10004 10002 3 ∈ s.my_dv) ∧
      (s.my_port = 10004 → dv_entry.mk 10001 10003 3 ∈ s.my_dv) :=
  ⟨by decide, by decide, by decide,
    (chain_converges_in_order chain_fifo_schedule (by decide) (by decide)).2⟩

end Myrouter
